import Mathlib

/-!
DeletableSegmentTree: a shallow embedding of `Source.cpp`

The C++ classes `SegmentTree<T>` and `SegmentTreeDeletable<T>` are embedded as
Lean structures with explicit state passing.

* C++ `int` is `Int`; `(end - start) / 2` is the truncating `Int.tdiv`.
  Overflow of `int` is outside the model (capacities stay far below `2^31`).
* The heap array `T* tree` is a `List (Option T)`: `none` is a slot that was
  allocated by `new T[n]` and never written.  Reading or writing outside the
  array, or reading a slot never written, is undefined behaviour in C++ and is
  the fault `Fault.invalidAccess` here.
* `throw ("index out of bounds: " + ...)` is the fault `Fault.indexOutOfBounds`.
* The recursive member functions carry a fuel argument; a recursion that does
  not finish within the fuel is the fault `Fault.outOfFuel`.  The public
  operations start the recursion with `recursionFuel capacity`, which exceeds
  the depth of every recursion that terminates.
-/

namespace DeletableSegmentTree

/-- Ways in which an operation of the source fails to return normally. -/
inductive Fault where
  /-- the exception thrown by `SegmentTree::get` (carries the offending index) -/
  | indexOutOfBounds (index : Int)
  /-- undefined behaviour: access outside an array, or read of a slot never written -/
  | invalidAccess
  /-- allocation `new T[n]` with a negative `n` -/
  | badArrayLength
  /-- the recursion or loop did not finish -/
  | outOfFuel
  deriving DecidableEq, Repr

/-- The interface `Operator<T>` with its member `apply`, the combining function. -/
structure Operator (T : Type) where
  /-- the combining function -/
  apply : T → T → T

/-- The class `MinOperator<T>` with its `apply` (on `int`). -/
def MinOperator : Operator Int where
  apply leftValue rightValue := if leftValue > rightValue then rightValue else leftValue

/-- The class `AddOperator<T>` with its `apply` (on `int`). -/
def AddOperator : Operator Int where
  apply leftValue rightValue := leftValue + rightValue

/-- The read `tree[i]`. -/
def readCell {T : Type} (tree : List (Option T)) (i : Int) : Except Fault T :=
  if i < 0 then .error .invalidAccess
  else
    match tree[i.toNat]? with
    | some (some v) => .ok v
    | _ => .error .invalidAccess

/-- The write `tree[i] = v`. -/
def writeCell {T : Type} (tree : List (Option T)) (i : Int) (v : T) :
    Except Fault (List (Option T)) :=
  if 0 ≤ i ∧ i < tree.length then .ok (tree.set i.toNat (some v))
  else .error .invalidAccess

/-- The read `initialValues[i]` on a `vector<T>`. -/
def readValue {T : Type} (initialValues : List T) (i : Int) : Except Fault T :=
  if i < 0 then .error .invalidAccess
  else
    match initialValues[i.toNat]? with
    | some v => .ok v
    | none => .error .invalidAccess

/-- The allocation `new T[n]`: `n` slots, none of them written yet. -/
def allocate {T : Type} (n : Int) : Except Fault (List (Option T)) :=
  if n < 0 then .error .badArrayLength else .ok (List.replicate n.toNat none)

/-- The method `SegmentTree::getMid`. -/
def getMid (start end_ : Int) : Int :=
  start + Int.tdiv (end_ - start) 2

/-- The method `SegmentTree::leftChild`. -/
def leftChild (node : Int) : Int :=
  node + 1

/-- The method `SegmentTree::rightChild`. -/
def rightChild (node start mid : Int) : Int :=
  let numberOfLeavesInTheLeftSubtree := mid - start + 1
  let numberOfNodesInTheLeftSubtree := 2 * numberOfLeavesInTheLeftSubtree - 1
  node + numberOfNodesInTheLeftSubtree + 1

/-- Fuel with which the public operations start a recursion over `[0, capacity-1]`. -/
def recursionFuel (capacity : Int) : Nat :=
  capacity.toNat + 2

/-- The method `SegmentTree::buildTree`, on the array `tree`. -/
def buildTree {T : Type} (oper : Operator T) :
    Nat → Int → Int → Int → List T → List (Option T) → Except Fault (List (Option T))
  | 0, _, _, _, _, _ => .error .outOfFuel
  | fuel + 1, rangeStart, rangeEnd, currentNode, initialValues, tree =>
    if rangeStart = rangeEnd then do
      let v ← readValue initialValues rangeStart
      writeCell tree currentNode v
    else do
      let mid := getMid rangeStart rangeEnd
      let tree ← buildTree oper fuel rangeStart mid (leftChild currentNode) initialValues tree
      let tree ← buildTree oper fuel (mid + 1) rangeEnd
        (rightChild currentNode rangeStart mid) initialValues tree
      let leftValue ← readCell tree (leftChild currentNode)
      let rightValue ← readCell tree (rightChild currentNode rangeStart mid)
      writeCell tree currentNode (oper.apply leftValue rightValue)

/-- The private five-argument overload `SegmentTree::queryRange`. -/
def queryRangeNode {T : Type} (oper : Operator T) (identity : T) (tree : List (Option T)) :
    Nat → Int → Int → Int → Int → Int → Except Fault T
  | 0, _, _, _, _, _ => .error .outOfFuel
  | fuel + 1, queryStart, queryEnd, rangeStart, rangeEnd, currentNode =>
    if queryStart ≤ rangeStart ∧ rangeEnd ≤ queryEnd then
      readCell tree currentNode
    else if queryStart > rangeEnd ∨ rangeStart > queryEnd then
      .ok identity
    else do
      let mid := getMid rangeStart rangeEnd
      let leftValue ← queryRangeNode oper identity tree fuel queryStart queryEnd
        rangeStart mid (leftChild currentNode)
      let rightValue ← queryRangeNode oper identity tree fuel queryStart queryEnd
        (mid + 1) rangeEnd (rightChild currentNode rangeStart mid)
      .ok (oper.apply leftValue rightValue)

/-- The private five-argument overload `SegmentTree::set`. -/
def setNode {T : Type} (oper : Operator T) :
    Nat → Int → Int → Int → Int → T → List (Option T) → Except Fault (List (Option T))
  | 0, _, _, _, _, _, _ => .error .outOfFuel
  | fuel + 1, index, rangeStart, rangeEnd, currentNode, value, tree =>
    if rangeStart = rangeEnd ∧ rangeEnd = index then
      writeCell tree currentNode value
    else do
      let mid := getMid rangeStart rangeEnd
      let tree ←
        if index ≤ mid then
          setNode oper fuel index rangeStart mid (leftChild currentNode) value tree
        else
          setNode oper fuel index (mid + 1) rangeEnd
            (rightChild currentNode rangeStart mid) value tree
      let leftValue ← readCell tree (leftChild currentNode)
      let rightValue ← readCell tree (rightChild currentNode rangeStart mid)
      writeCell tree currentNode (oper.apply leftValue rightValue)

/-- The data members of `SegmentTree<T>`. -/
structure SegmentTree (T : Type) where
  /-- number of populated leaf slots -/
  length : Int
  /-- number of allocated leaf slots -/
  capacity : Int
  /-- the combining operator -/
  oper : Operator T
  /-- the identity handed to the constructor -/
  identity : T
  /-- the array of `2*capacity - 1` nodes -/
  tree : List (Option T)

namespace SegmentTree

variable {T : Type}

/-- The constructor `SegmentTree::SegmentTree`. -/
def new (initialValues : List T) (op : Operator T) (identity : T) :
    Except Fault (SegmentTree T) := do
  let capacity : Int := initialValues.length
  let tree ← allocate (2 * capacity - 1)
  let tree ← buildTree op (recursionFuel capacity) 0 (capacity - 1) 0 initialValues tree
  .ok { length := capacity, capacity := capacity, oper := op, identity := identity, tree := tree }

/-- The public `SegmentTree::queryRange(start, end)`. -/
def queryRange (t : SegmentTree T) (start end_ : Int) : Except Fault T :=
  queryRangeNode t.oper t.identity t.tree (recursionFuel t.capacity) start end_
    0 (t.capacity - 1) 0

/-- The method `SegmentTree::get`. -/
def get (t : SegmentTree T) (index : Int) : Except Fault T :=
  if index < 0 ∨ index ≥ t.length then .error (.indexOutOfBounds index)
  else t.queryRange index index

/-- The public `SegmentTree::set(index, value)`. -/
def set (t : SegmentTree T) (index : Int) (value : T) : Except Fault (SegmentTree T) := do
  let tree ← setNode t.oper (recursionFuel t.capacity) index 0 (t.capacity - 1) 0 value t.tree
  .ok { t with tree := tree }

/-- The method `SegmentTree::size`. -/
def size (t : SegmentTree T) : Int :=
  t.length

/-- The method `SegmentTree::getCapacity`. -/
def getCapacity (t : SegmentTree T) : Int :=
  t.capacity

/-- The two loops of `SegmentTree::resize` that collect the old values and the padding. -/
def resizeValues (t : SegmentTree T) (newCapacity : Int) : Except Fault (List T) := do
  let values ← (List.range t.length.toNat).mapM (fun (i : Nat) => t.get (Int.ofNat i))
  .ok (values ++ List.replicate (newCapacity - t.length).toNat t.identity)

/-- The method `SegmentTree::resize`. -/
def resize (t : SegmentTree T) (newCapacity : Int) : Except Fault (SegmentTree T) := do
  let values ← t.resizeValues newCapacity
  let tree ← allocate (2 * newCapacity - 1)
  let tree ← buildTree t.oper (recursionFuel newCapacity) 0 (newCapacity - 1) 0 values tree
  .ok { t with tree := tree, capacity := newCapacity }

/-- The method `SegmentTree::add`. -/
def add (t : SegmentTree T) (value : T) : Except Fault (SegmentTree T) := do
  let t ← if t.length = t.capacity then t.resize (2 * t.capacity + 1) else .ok t
  let t := { t with length := t.length + 1 }
  t.set (t.length - 1) value

end SegmentTree

/-- The data members of `SegmentTreeDeletable<T>` (`addOp` is `AddOperator`). -/
structure SegmentTreeDeletable (T : Type) where
  /-- the value tree -/
  tree : SegmentTree T
  /-- the deletion-count tree -/
  deletedIndices : SegmentTree Int
  /-- the apparent length -/
  length : Int
  /-- the identity handed to the constructor -/
  identity : T

namespace SegmentTreeDeletable

variable {T : Type}

/-- The constructor `SegmentTreeDeletable::SegmentTreeDeletable`. -/
def new (initialValues : List T) (op : Operator T) (identity : T) :
    Except Fault (SegmentTreeDeletable T) := do
  let tree ← SegmentTree.new initialValues op identity
  let length : Int := initialValues.length
  let deleted : List Int := List.replicate initialValues.length 0
  let deletedIndices ← SegmentTree.new deleted AddOperator 0
  .ok { tree := tree, deletedIndices := deletedIndices, length := length, identity := identity }

/-- The method `SegmentTreeDeletable::size`. -/
def size (s : SegmentTreeDeletable T) : Int :=
  s.tree.size

/-- The `while` loop of `SegmentTreeDeletable::getTrueIndex`. -/
def getTrueIndexLoop (deletedIndices : SegmentTree Int) (index : Int) :
    Nat → Int → Int → Except Fault Int
  | 0, low, high => if low ≤ high then .error .outOfFuel else .ok low
  | fuel + 1, low, high =>
    if low ≤ high then do
      let mid := low + Int.tdiv (high - low) 2
      let deletedCount ← deletedIndices.queryRange 0 mid
      if mid - index < deletedCount then
        getTrueIndexLoop deletedIndices index fuel (mid + 1) high
      else
        getTrueIndexLoop deletedIndices index fuel low (mid - 1)
    else .ok low

/-- The method `SegmentTreeDeletable::getTrueIndex`; the loop shrinks `high - low` every
round, so `high - low + 1` rounds are enough. -/
def getTrueIndex (s : SegmentTreeDeletable T) (index : Int) : Except Fault Int :=
  let low := index
  let high := s.tree.size - 1
  getTrueIndexLoop s.deletedIndices index (high - low + 1).toNat low high

/-- The method `SegmentTreeDeletable::get`. -/
def get (s : SegmentTreeDeletable T) (index : Int) : Except Fault T := do
  let index ← s.getTrueIndex index
  s.tree.get index

/-- The method `SegmentTreeDeletable::set`. -/
def set (s : SegmentTreeDeletable T) (index : Int) (value : T) :
    Except Fault (SegmentTreeDeletable T) := do
  let index ← s.getTrueIndex index
  let tree ← s.tree.set index value
  .ok { s with tree := tree }

/-- The method `SegmentTreeDeletable::add`. -/
def add (s : SegmentTreeDeletable T) (value : T) : Except Fault (SegmentTreeDeletable T) := do
  let tree ← s.tree.add value
  let deletedIndices ← s.deletedIndices.add 0
  .ok { s with tree := tree, deletedIndices := deletedIndices, length := s.length + 1 }

/-- The method `SegmentTreeDeletable::remove`. -/
def remove (s : SegmentTreeDeletable T) (index : Int) : Except Fault (SegmentTreeDeletable T) := do
  let index ← s.getTrueIndex index
  let deletedIndices ← s.deletedIndices.set index 1
  let tree ← s.tree.set index s.identity
  .ok { s with tree := tree, deletedIndices := deletedIndices, length := s.length - 1 }

/-- The method `SegmentTreeDeletable::queryRange`. -/
def queryRange (s : SegmentTreeDeletable T) (start end_ : Int) : Except Fault T := do
  let start ← s.getTrueIndex start
  let end_ ← s.getTrueIndex end_
  s.tree.queryRange start end_

end SegmentTreeDeletable

/-! ## Specification vocabulary -/

variable {T : Type}

/-- The value stored in slot `i`, when the slot exists and has been written. -/
def cell (tree : List (Option T)) (i : Int) : Option T :=
  if i < 0 then none else (tree[i.toNat]?).join

/-- The operator laws the data model asks of the caller: `apply` is associative and
`identity` is a two-sided identity for it. -/
structure Lawful (op : Operator T) (identity : T) : Prop where
  /-- associativity -/
  assoc : ∀ a b c, op.apply (op.apply a b) c = op.apply a (op.apply b c)
  /-- the law for `identity` on the left -/
  left_id : ∀ a, op.apply identity a = a
  /-- the law for `identity` on the right -/
  right_id : ∀ a, op.apply a identity = a

/-- Left-to-right fold of the `n` leaves `leaf a, leaf (a+1), ..., leaf (a+n-1)`. -/
def foldFrom (op : Operator T) (identity : T) (leaf : Int → T) (a : Int) : Nat → T
  | 0 => identity
  | n + 1 => op.apply (foldFrom op identity leaf a n) (leaf (a + n))

/-- Left-to-right fold of the leaves with index in `[a, b]` (`identity` when `b < a`). -/
def foldRange (op : Operator T) (identity : T) (leaf : Int → T) (a b : Int) : T :=
  foldFrom op identity leaf a (b - a + 1).toNat

/-- The left-to-right fold of `vs[a..b]` through the operator, on lists. -/
def foldSlice (op : Operator T) (identity : T) (vs : List T) (a b : Int) : T :=
  ((vs.drop a.toNat).take (b - a + 1).toNat).foldl op.apply identity

/-- The relation `Node op tree leaf node rs re v`: the array holds, from slot `node` on, a well-formed
subtree for the leaf range `[rs, re]`: its leaves hold `leaf rs .. leaf re`, every
internal slot holds `apply` of its two children, and the root slot holds `v`. -/
inductive Node (op : Operator T) (tree : List (Option T)) (leaf : Int → T) :
    Int → Int → Int → T → Prop where
  | leaf (node rs : Int) :
      cell tree node = some (leaf rs) → Node op tree leaf node rs rs (leaf rs)
  | inner (node rs re : Int) (vl vr : T) :
      rs < re →
      Node op tree leaf (leftChild node) rs (getMid rs re) vl →
      Node op tree leaf (rightChild node rs (getMid rs re)) (getMid rs re + 1) re vr →
      cell tree node = some (op.apply vl vr) →
      Node op tree leaf node rs re (op.apply vl vr)

/-- The leaf values a `vector<T>` provides (`dflt` outside of it). -/
def leafOf (vs : List T) (dflt : T) (i : Int) : T :=
  if i < 0 then dflt else (vs[i.toNat]?).getD dflt

/-- Representation invariant of `SegmentTree`: the array holds a well-formed tree over
the leaf range `[0, capacity-1]` whose leaves are `leaf 0 .. leaf (capacity-1)`. -/
structure SegmentTree.Rep (t : SegmentTree T) (leaf : Int → T) : Prop where
  /-- at least one leaf slot is allocated -/
  cap_pos : 1 ≤ t.capacity
  /-- the length is not negative -/
  len_nonneg : 0 ≤ t.length
  /-- the populated slots fit the allocation -/
  len_le : t.length ≤ t.capacity
  /-- the array has `2*capacity - 1` slots -/
  size : (t.tree.length : Int) = 2 * t.capacity - 1
  /-- the slots form a well-formed tree -/
  node : ∃ v, Node t.oper t.tree leaf 0 0 (t.capacity - 1) v

/-- The states of a `SegmentTree` the code can produce: a finished construction, then
`set` with an index inside the capacity and `add`. -/
inductive SegmentTree.Reachable : SegmentTree T → Prop where
  | new (initialValues : List T) (op : Operator T) (identity : T) (t : SegmentTree T) :
      SegmentTree.new initialValues op identity = .ok t → Reachable t
  | set (t : SegmentTree T) (index : Int) (value : T) (t' : SegmentTree T) :
      Reachable t → 0 ≤ index → index < t.capacity → t.set index value = .ok t' →
      Reachable t'
  | add (t : SegmentTree T) (value : T) (t' : SegmentTree T) :
      Reachable t → t.add value = .ok t' → Reachable t'

/-- The tree holds the logical sequence `vs`: it has `vs.length` populated slots and
`get k` returns the `k`-th element of `vs`. -/
def SegmentTree.Holds (t : SegmentTree T) (vs : List T) : Prop :=
  (vs.length : Int) = t.length ∧ ∀ (k : Nat) (h : k < vs.length), t.get (k : Int) = .ok vs[k]

/-- The calls `add(w)` for each `w` of `ws`, in order. -/
def SegmentTree.addAll (t : SegmentTree T) (ws : List T) : Except Fault (SegmentTree T) :=
  ws.foldlM (fun t w => t.add w) t

/-- The nodes of the implicit tree over `[0, capacity-1]`: `TreeNode capacity node rs re`
says that slot `node` stands for the leaf range `[rs, re]`. -/
inductive TreeNode (capacity : Int) : Int → Int → Int → Prop where
  | root : TreeNode capacity 0 0 (capacity - 1)
  | left (node rs re : Int) : TreeNode capacity node rs re → rs < re →
      TreeNode capacity (leftChild node) rs (getMid rs re)
  | right (node rs re : Int) : TreeNode capacity node rs re → rs < re →
      TreeNode capacity (rightChild node rs (getMid rs re)) (getMid rs re + 1) re

/-- The aggregate invariant: every internal node of the implicit tree over
`[0, capacity-1]` holds `apply` of the values its two children hold. -/
def SegmentTree.AggregateInvariant (t : SegmentTree T) : Prop :=
  ∀ node rs re, TreeNode t.capacity node rs re → rs < re →
    ∃ l r, cell t.tree (leftChild node) = some l ∧
      cell t.tree (rightChild node rs (getMid rs re)) = some r ∧
      cell t.tree node = some (t.oper.apply l r)

/-- The tree `SegmentTree::SegmentTree` builds from `[3, 4, 5]` with addition. -/
def sampleTree : SegmentTree Int :=
  { length := 3, capacity := 3, oper := AddOperator, identity := 0,
    tree := [some 12, some 7, some 3, some 4, some 5] }

/-- Sum of the deletion flags of the physical slots `0 .. p` (the number of removed
slots among them when every flag is 0 or 1). -/
def deletedUpTo (del : Int → Int) (p : Int) : Int :=
  foldRange AddOperator 0 del 0 p

/-- The relation `Phys del i p`: physical slot `p` is live and exactly `i` live slots precede it, so
`p` is the slot of logical index `i`. -/
def Phys (del : Int → Int) (i p : Int) : Prop :=
  0 ≤ p ∧ del p = 0 ∧ p - deletedUpTo del p = i

/-- Representation invariant of `SegmentTreeDeletable`: `val` are the leaves of the value
tree and `del` the leaves of the deletion-count tree. -/
structure SegmentTreeDeletable.Rep (s : SegmentTreeDeletable T) (val : Int → T)
    (del : Int → Int) : Prop where
  /-- the value tree is well formed -/
  value : s.tree.Rep val
  /-- the deletion-count tree is well formed -/
  deleted : s.deletedIndices.Rep del
  /-- the deletion-count tree adds -/
  del_oper : s.deletedIndices.oper = AddOperator
  /-- the deletion-count tree has identity 0 -/
  del_identity : s.deletedIndices.identity = 0
  /-- both trees have the same number of populated slots -/
  same_length : s.deletedIndices.length = s.tree.length
  /-- both trees have the same capacity -/
  same_capacity : s.deletedIndices.capacity = s.tree.capacity
  /-- every flag of a populated slot is 0 or 1 -/
  flags : ∀ p, 0 ≤ p → p < s.tree.length → del p = 0 ∨ del p = 1
  /-- the apparent length is the physical size minus the number of removed slots -/
  length_eq : s.length = s.tree.length - deletedUpTo del (s.tree.length - 1)
  /-- the wrapper and the value tree agree on the identity -/
  identity_eq : s.identity = s.tree.identity
  /-- under the operator laws a removed slot holds the identity -/
  tombstone : Lawful s.tree.oper s.tree.identity →
    ∀ p, 0 ≤ p → p < s.tree.length → del p = 1 → val p = s.tree.identity

/-- The states of a `SegmentTreeDeletable` reached from a finished construction by
`add`, and by `set` and `remove` with a logical index in `[0, length)`. -/
inductive SegmentTreeDeletable.Reachable : SegmentTreeDeletable T → Prop where
  | new (initialValues : List T) (op : Operator T) (identity : T)
      (s : SegmentTreeDeletable T) :
      SegmentTreeDeletable.new initialValues op identity = .ok s → Reachable s
  | add (s : SegmentTreeDeletable T) (value : T) (s' : SegmentTreeDeletable T) :
      Reachable s → s.add value = .ok s' → Reachable s'
  | set (s : SegmentTreeDeletable T) (index : Int) (value : T)
      (s' : SegmentTreeDeletable T) :
      Reachable s → 0 ≤ index → index < s.length → s.set index value = .ok s' →
      Reachable s'
  | remove (s : SegmentTreeDeletable T) (index : Int) (s' : SegmentTreeDeletable T) :
      Reachable s → 0 ≤ index → index < s.length → s.remove index = .ok s' →
      Reachable s'

/-- The list `L` is the apparent (live) sequence of `s`: the apparent length is `|L|` and `get k`
returns the `k`-th element of `L`. -/
def SegmentTreeDeletable.Holds (s : SegmentTreeDeletable T) (L : List T) : Prop :=
  (L.length : Int) = s.length ∧ ∀ (k : Nat) (h : k < L.length), s.get (k : Int) = .ok L[k]

/-- The state `SegmentTreeDeletable` builds from `[3, 4, 5]` with addition. -/
def sampleDeletable : SegmentTreeDeletable Int :=
  { tree := sampleTree,
    deletedIndices :=
      { length := 3, capacity := 3, oper := AddOperator, identity := 0,
        tree := [some 0, some 0, some 0, some 0, some 0] },
    length := 3, identity := 0 }

/-- The state after `add(10)` on `sampleDeletable`: both trees were resized to capacity 7. -/
def sampleGrown : SegmentTreeDeletable Int :=
  { tree :=
      { length := 4, capacity := 7, oper := AddOperator, identity := 0,
        tree := [some 22, some 22, some 7, some 3, some 4, some 15, some 5, some 10,
          some 0, some 0, some 0, some 0, some 0] },
    deletedIndices :=
      { length := 4, capacity := 7, oper := AddOperator, identity := 0,
        tree := [some 0, some 0, some 0, some 0, some 0, some 0, some 0, some 0,
          some 0, some 0, some 0, some 0, some 0] },
    length := 4, identity := 0 }

/-- The state after `remove(0)` on `sampleGrown`. -/
def sampleRemoved : SegmentTreeDeletable Int :=
  { tree :=
      { length := 4, capacity := 7, oper := AddOperator, identity := 0,
        tree := [some 19, some 19, some 4, some 0, some 4, some 15, some 5, some 10,
          some 0, some 0, some 0, some 0, some 0] },
    deletedIndices :=
      { length := 4, capacity := 7, oper := AddOperator, identity := 0,
        tree := [some 1, some 1, some 1, some 1, some 0, some 0, some 0, some 0,
          some 0, some 0, some 0, some 0, some 0] },
    length := 3, identity := 0 }

/-- The sentinel used as identity of the minimum operator (`INT_MAX`). -/
def minSentinel : Int := 2147483647

/-- The state `SegmentTreeDeletable` builds from `[5, 3, 8, 1]` with minimum. -/
def sampleMin : SegmentTreeDeletable Int :=
  { tree :=
      { length := 4, capacity := 4, oper := MinOperator, identity := minSentinel,
        tree := [some 1, some 3, some 5, some 3, some 1, some 8, some 1] },
    deletedIndices :=
      { length := 4, capacity := 4, oper := AddOperator, identity := 0,
        tree := [some 0, some 0, some 0, some 0, some 0, some 0, some 0] },
    length := 4, identity := minSentinel }

/-- The state after `remove(3)` on `sampleMin`. -/
def sampleMinRemoved : SegmentTreeDeletable Int :=
  { tree :=
      { length := 4, capacity := 4, oper := MinOperator, identity := minSentinel,
        tree := [some 3, some 3, some 5, some 3, some 8, some 8, some minSentinel] },
    deletedIndices :=
      { length := 4, capacity := 4, oper := AddOperator, identity := 0,
        tree := [some 1, some 0, some 0, some 0, some 1, some 0, some 1] },
    length := 3, identity := minSentinel }

/-- The identity laws alone: `identity` is a two-sided identity of `apply`. -/
structure IdentityLaw (op : Operator T) (identity : T) : Prop where
  /-- the law for `identity` on the left -/
  left_id : ∀ a, op.apply identity a = a
  /-- the law for `identity` on the right -/
  right_id : ∀ a, op.apply a identity = a

/-- The states of a `SegmentTree` reached from a finished construction by `add` and by
`set` with an index below the length (only populated slots are overwritten). -/
inductive SegmentTree.ReachablePopulated : SegmentTree T → Prop where
  | new (initialValues : List T) (op : Operator T) (identity : T) (t : SegmentTree T) :
      SegmentTree.new initialValues op identity = .ok t → ReachablePopulated t
  | set (t : SegmentTree T) (index : Int) (value : T) (t' : SegmentTree T) :
      ReachablePopulated t → index < t.length → t.set index value = .ok t' →
      ReachablePopulated t'
  | add (t : SegmentTree T) (value : T) (t' : SegmentTree T) :
      ReachablePopulated t → t.add value = .ok t' → ReachablePopulated t'

/-- The deletion flag of physical slot `p` as the deletion-count tree reports it
(`0` when the read fails). -/
def SegmentTreeDeletable.flag (s : SegmentTreeDeletable T) (p : Int) : Int :=
  match s.deletedIndices.get p with
  | .ok x => x
  | .error _ => 0

/-- The sum of the deletion flags of the physical slots `0 .. size-1`. -/
def SegmentTreeDeletable.flagSum (s : SegmentTreeDeletable T) : Int :=
  ((List.range s.tree.size.toNat).map (fun (p : Nat) => s.flag (Int.ofNat p))).sum

/-- The fields the constructor aims at for the empty sequence: length 0, capacity 0 and
an array without slots (the constructor itself does not get there). -/
def emptyState (op : Operator T) (identity : T) : SegmentTree T :=
  { length := 0, capacity := 0, oper := op, identity := identity, tree := [] }

/-- The number of non-removed slots among the physical slots `0 .. p`, as the
deletion-count tree reports them. -/
def SegmentTreeDeletable.liveUpTo (s : SegmentTreeDeletable T) (p : Int) : Int :=
  (((List.range (p + 1).toNat).filter
    (fun (q : Nat) => decide (s.flag (Int.ofNat q) = 0))).length : Int)

/-- The length and 0/1-flag invariants of `SegmentTreeDeletable`, on a state whose
deletion-count tree is a well-formed addition tree as large as the value tree. -/
structure SegmentTreeDeletable.CountInvariants (s : SegmentTreeDeletable T) : Prop where
  /-- the deletion-count tree is a state of `SegmentTree` -/
  wellFormed : s.deletedIndices.Reachable
  /-- the deletion-count tree adds -/
  oper : s.deletedIndices.oper = AddOperator
  /-- the deletion-count tree has identity 0 -/
  identity : s.deletedIndices.identity = 0
  /-- both trees have the same number of populated slots -/
  same_size : s.deletedIndices.size = s.tree.size
  /-- every flag of a populated slot is 0 or 1 -/
  flags : ∀ p, 0 ≤ p → p < s.tree.size →
    s.deletedIndices.get p = .ok 0 ∨ s.deletedIndices.get p = .ok 1
  /-- the apparent length is the physical size minus the sum of the flags -/
  length_eq : s.length = s.tree.size - s.flagSum

/-- The relation `InSubtree k s e node rs re`: in the implicit subtree for the leaf range
`[s, e]` rooted at slot `k`, slot `node` stands for the leaf range `[rs, re]`. -/
inductive InSubtree : Int → Int → Int → Int → Int → Int → Prop where
  | root (k s e : Int) : InSubtree k s e k s e
  | left (k s e node rs re : Int) : s < e →
      InSubtree (leftChild k) s (getMid s e) node rs re → InSubtree k s e node rs re
  | right (k s e node rs re : Int) : s < e →
      InSubtree (rightChild k s (getMid s e)) (getMid s e + 1) e node rs re →
      InSubtree k s e node rs re

/-! ## Array slots -/

theorem readCell_of_cell {tree : List (Option T)} {i : Int} {v : T}
    (h : cell tree i = some v) : readCell tree i = .ok v := by
  unfold cell at h
  unfold readCell
  split
  · simp_all
  · rename_i hi
    simp only [hi, if_false] at h
    cases hc : tree[i.toNat]? with
    | none => simp [hc] at h
    | some o =>
      cases o with
      | none => simp [hc] at h
      | some w => simp [hc] at h; simp [h]

theorem cell_bounds {tree : List (Option T)} {i : Int} {v : T}
    (h : cell tree i = some v) : 0 ≤ i ∧ i < tree.length := by
  unfold cell at h
  by_cases hi : i < 0
  · simp [hi] at h
  · simp only [hi, if_false] at h
    refine ⟨by omega, ?_⟩
    by_contra hlen
    have : tree[i.toNat]? = none := by
      apply List.getElem?_eq_none
      omega
    simp [this] at h

theorem writeCell_ok {tree : List (Option T)} {i : Int} (v : T)
    (h0 : 0 ≤ i) (h1 : i < tree.length) :
    writeCell tree i v = .ok (tree.set i.toNat (some v)) := by
  unfold writeCell
  simp [h0, h1]

theorem cell_set {tree : List (Option T)} {i : Int} (v : T)
    (h0 : 0 ≤ i) (h1 : i < tree.length) (j : Int) :
    cell (tree.set i.toNat (some v)) j = if j = i then some v else cell tree j := by
  unfold cell
  by_cases hj : j < 0
  · have : j ≠ i := by omega
    simp [hj, this]
  · simp only [hj, if_false]
    by_cases hji : j = i
    · subst hji
      have : j.toNat < tree.length := by omega
      simp [List.getElem?_set, this]
    · have : i.toNat ≠ j.toNat := by omega
      simp [List.getElem?_set, this, hji]

theorem readValue_ok {vs : List T} {i : Int} {v : T} (h0 : 0 ≤ i)
    (h : vs[i.toNat]? = some v) : readValue vs i = .ok v := by
  unfold readValue
  have : ¬ i < 0 := by omega
  simp [this, h]

/-! ## Index arithmetic -/

theorem getMid_of_le {rs re : Int} (h : rs ≤ re) : getMid rs re = rs + (re - rs) / 2 := by
  unfold getMid
  rw [Int.tdiv_eq_ediv] <;> omega

theorem getMid_bounds {rs re : Int} (h : rs < re) : rs ≤ getMid rs re ∧ getMid rs re < re := by
  rw [getMid_of_le (le_of_lt h)]
  omega

theorem leftChild_eq (node : Int) : leftChild node = node + 1 := rfl

theorem rightChild_eq (node rs mid : Int) :
    rightChild node rs mid = node + 2 * (mid - rs) + 2 := by
  show node + (2 * (mid - rs + 1) - 1) + 1 = _
  omega

/-! ## Well-formed subtrees -/

theorem Node.root {op : Operator T} {tree : List (Option T)} {leaf : Int → T}
    {node rs re : Int} {v : T} (h : Node op tree leaf node rs re v) :
    cell tree node = some v := by
  cases h with
  | leaf _ _ h => exact h
  | inner _ _ _ _ _ _ _ _ h => exact h

/-- A subtree only depends on the slots `node .. node + 2*(re-rs)`. -/
theorem Node.frame {op : Operator T} {tree tree' : List (Option T)} {leaf : Int → T}
    {node rs re : Int} {v : T} (h : Node op tree leaf node rs re v)
    (hk : ∀ k, node ≤ k → k ≤ node + 2 * (re - rs) → cell tree' k = cell tree k) :
    Node op tree' leaf node rs re v := by
  induction h with
  | leaf node rs hc =>
    apply Node.leaf
    rw [hk node (le_refl _) (by omega)]
    exact hc
  | inner node rs re vl vr hlt hl hr hc ihl ihr =>
    obtain ⟨hm1, hm2⟩ := getMid_bounds hlt
    apply Node.inner _ _ _ _ _ hlt
    · apply ihl
      intro k h1 h2
      rw [leftChild_eq] at h1 h2
      exact hk k (by omega) (by omega)
    · apply ihr
      intro k h1 h2
      rw [rightChild_eq] at h1 h2
      exact hk k (by omega) (by omega)
    · rw [hk node (le_refl _) (by omega)]
      exact hc

/-- A subtree only depends on the leaf values of its own range. -/
theorem Node.leaf_congr {op : Operator T} {tree : List (Option T)} {leaf leaf' : Int → T}
    {node rs re : Int} {v : T} (h : Node op tree leaf node rs re v)
    (hk : ∀ i, rs ≤ i → i ≤ re → leaf' i = leaf i) :
    Node op tree leaf' node rs re v := by
  induction h with
  | leaf node rs hc =>
    rw [← hk rs (le_refl _) (le_refl _)] at hc ⊢
    exact Node.leaf _ _ hc
  | inner node rs re vl vr hlt hl hr hc ihl ihr =>
    obtain ⟨hm1, hm2⟩ := getMid_bounds hlt
    apply Node.inner _ _ _ _ _ hlt
    · exact ihl (fun i h1 h2 => hk i h1 (by omega))
    · exact ihr (fun i h1 h2 => hk i (by omega) h2)
    · exact hc

/-- The call `buildTree` on a range inside the vector builds a well-formed subtree, stays inside
the slots of that subtree and leaves every other slot alone. -/
theorem buildTree_spec (op : Operator T) (vs : List T) (leaf : Int → T)
    (hleaf : ∀ i : Int, 0 ≤ i → i < vs.length → vs[i.toNat]? = some (leaf i)) :
    ∀ (fuel : Nat) (rs re node : Int) (tree : List (Option T)),
      0 ≤ rs → rs ≤ re → re < vs.length → re - rs < fuel → 0 ≤ node →
      node + 2 * (re - rs) < tree.length →
      ∃ tree' v, buildTree op fuel rs re node vs tree = .ok tree' ∧
        tree'.length = tree.length ∧
        (∀ k, (k < node ∨ node + 2 * (re - rs) < k) → cell tree' k = cell tree k) ∧
        Node op tree' leaf node rs re v := by
  intro fuel
  induction fuel with
  | zero => intro rs re node tree _ h1 _ h2; omega
  | succ fuel ih =>
    intro rs re node tree h0 hle hlen hfuel hnode hsize
    unfold buildTree
    by_cases heq : rs = re
    · subst heq
      simp only [if_true]
      rw [readValue_ok h0 (hleaf rs h0 hlen)]
      have hw : writeCell tree node (leaf rs) = .ok (tree.set node.toNat (some (leaf rs))) :=
        writeCell_ok (leaf rs) hnode (by omega)
      refine ⟨tree.set node.toNat (some (leaf rs)), leaf rs, ?_, ?_, ?_, ?_⟩
      · simpa [bind, Except.bind] using hw
      · simp
      · intro k hk
        rw [cell_set _ hnode (by omega)]
        have : k ≠ node := by omega
        simp [this]
      · apply Node.leaf
        rw [cell_set _ hnode (by omega)]
        simp
    · simp only [heq, if_false]
      have hlt : rs < re := lt_of_le_of_ne hle heq
      obtain ⟨hm1, hm2⟩ := getMid_bounds hlt
      obtain ⟨t1, vl, hb1, hl1, hf1, hn1⟩ :=
        ih rs (getMid rs re) (leftChild node) tree h0 hm1 (by omega) (by omega)
          (by rw [leftChild_eq]; omega) (by rw [leftChild_eq]; omega)
      obtain ⟨t2, vr, hb2, hl2, hf2, hn2⟩ :=
        ih (getMid rs re + 1) re (rightChild node rs (getMid rs re)) t1 (by omega) (by omega)
          hlen (by omega) (by rw [rightChild_eq]; omega) (by rw [rightChild_eq]; omega)
      have hn1' : Node op t2 leaf (leftChild node) rs (getMid rs re) vl := by
        apply hn1.frame
        intro k h1 h2
        apply hf2
        rw [leftChild_eq] at h1 h2
        rw [rightChild_eq]
        omega
      have hw : writeCell t2 node (op.apply vl vr)
          = .ok (t2.set node.toNat (some (op.apply vl vr))) :=
        writeCell_ok (op.apply vl vr) hnode (by omega)
      refine ⟨t2.set node.toNat (some (op.apply vl vr)), op.apply vl vr, ?_, ?_, ?_, ?_⟩
      · simp only [bind, Except.bind, hb1, hb2, readCell_of_cell hn1'.root,
          readCell_of_cell hn2.root]
        exact hw
      · simp [hl1, hl2]
      · intro k hk
        rw [cell_set _ hnode (by omega)]
        have : k ≠ node := by omega
        simp only [this, if_false]
        rw [hf2 k (by rw [rightChild_eq]; omega), hf1 k (by rw [leftChild_eq]; omega)]
      · have hfr : ∀ k, node < k → cell (t2.set node.toNat (some (op.apply vl vr))) k
            = cell t2 k := by
          intro k hk
          rw [cell_set _ hnode (by omega)]
          have : k ≠ node := by omega
          simp [this]
        apply Node.inner _ _ _ _ _ hlt
        · exact hn1'.frame (fun k h1 _ => hfr k (by rw [leftChild_eq] at h1; omega))
        · exact hn2.frame (fun k h1 _ => hfr k (by rw [rightChild_eq] at h1; omega))
        · rw [cell_set _ hnode (by omega)]
          simp

/-! ## Folds -/

theorem foldFrom_congr (op : Operator T) (identity : T) {leaf leaf' : Int → T} (a : Int) :
    ∀ n : Nat, (∀ i, a ≤ i → i < a + n → leaf' i = leaf i) →
      foldFrom op identity leaf' a n = foldFrom op identity leaf a n := by
  intro n
  induction n with
  | zero => intro _; rfl
  | succ n ih =>
    intro h
    simp only [foldFrom]
    rw [ih (fun i h1 h2 => h i h1 (by omega)), h (a + n) (by omega) (by omega)]

theorem foldFrom_add {op : Operator T} {identity : T} (hop : Lawful op identity)
    (leaf : Int → T) (a : Int) (n : Nat) :
    ∀ m : Nat, foldFrom op identity leaf a (n + m)
      = op.apply (foldFrom op identity leaf a n) (foldFrom op identity leaf (a + n) m) := by
  intro m
  induction m with
  | zero => simp [foldFrom, hop.right_id]
  | succ m ih =>
    have : n + (m + 1) = (n + m) + 1 := by omega
    rw [this]
    simp only [foldFrom]
    rw [ih, hop.assoc]
    congr 2
    push_cast
    ring_nf

theorem foldFrom_one {op : Operator T} {identity : T} (hop : Lawful op identity)
    (leaf : Int → T) (a : Int) : foldFrom op identity leaf a 1 = leaf a := by
  simp [foldFrom, hop.left_id]

theorem foldRange_empty (op : Operator T) (identity : T) (leaf : Int → T) {a b : Int}
    (h : b < a) : foldRange op identity leaf a b = identity := by
  unfold foldRange
  have : (b - a + 1).toNat = 0 := by omega
  rw [this]
  rfl

theorem foldRange_single {op : Operator T} {identity : T} (hop : Lawful op identity)
    (leaf : Int → T) (a : Int) : foldRange op identity leaf a a = leaf a := by
  unfold foldRange
  have : (a - a + 1).toNat = 1 := by omega
  rw [this]
  exact foldFrom_one hop leaf a

theorem foldRange_split {op : Operator T} {identity : T} (hop : Lawful op identity)
    (leaf : Int → T) {a m b : Int} (h1 : a ≤ m + 1) (h2 : m ≤ b) :
    foldRange op identity leaf a b
      = op.apply (foldRange op identity leaf a m) (foldRange op identity leaf (m + 1) b) := by
  unfold foldRange
  have e : (b - a + 1).toNat = (m - a + 1).toNat + (b - (m + 1) + 1).toNat := by omega
  rw [e, foldFrom_add hop]
  have e2 : a + ((m - a + 1).toNat : Int) = m + 1 := by omega
  rw [e2]

theorem foldRange_congr (op : Operator T) (identity : T) {leaf leaf' : Int → T} (a b : Int)
    (h : ∀ i, a ≤ i → i ≤ b → leaf' i = leaf i) :
    foldRange op identity leaf' a b = foldRange op identity leaf a b := by
  unfold foldRange
  apply foldFrom_congr
  intro i h1 h2
  exact h i h1 (by omega)

/-- Under the operator laws the root of a well-formed subtree holds the fold of its
leaves. -/
theorem Node.value {op : Operator T} {identity : T} (hop : Lawful op identity)
    {tree : List (Option T)} {leaf : Int → T} {node rs re : Int} {v : T}
    (h : Node op tree leaf node rs re v) : v = foldRange op identity leaf rs re := by
  induction h with
  | leaf node rs hc => exact (foldRange_single hop leaf rs).symm
  | inner node rs re vl vr hlt hl hr hc ihl ihr =>
    obtain ⟨hm1, hm2⟩ := getMid_bounds hlt
    rw [foldRange_split hop leaf (m := getMid rs re) (by omega) (by omega), ← ihl, ← ihr]

/-! ## The recursive query -/

/-- The recursive query returns on every well-formed subtree, and under the operator
laws it returns the fold of the leaves in the intersection of query and range. -/
theorem Node.query {op : Operator T} (identity : T) {tree : List (Option T)}
    {leaf : Int → T} {node rs re : Int} {v : T} (h : Node op tree leaf node rs re v) :
    ∀ (fuel : Nat) (qs qe : Int), re - rs < fuel →
      ∃ r, queryRangeNode op identity tree fuel qs qe rs re node = .ok r ∧
        (Lawful op identity → r = foldRange op identity leaf (max qs rs) (min qe re)) := by
  induction h with
  | leaf node rs hc =>
    intro fuel qs qe hfuel
    obtain ⟨f, rfl⟩ : ∃ f, fuel = f + 1 := ⟨fuel - 1, by omega⟩
    unfold queryRangeNode
    by_cases hfull : qs ≤ rs ∧ rs ≤ qe
    · refine ⟨leaf rs, ?_, ?_⟩
      · simp only [hfull, and_self, if_true]
        exact readCell_of_cell hc
      · intro hop
        have e1 : max qs rs = rs := by omega
        have e2 : min qe rs = rs := by omega
        rw [e1, e2, foldRange_single hop]
    · have hno : qs > rs ∨ rs > qe := by omega
      refine ⟨identity, ?_, ?_⟩
      · simp only [hfull, if_false, hno, if_true]
      · intro _
        rw [foldRange_empty]
        omega
  | inner node rs re vl vr hlt hl hr hc ihl ihr =>
    intro fuel qs qe hfuel
    obtain ⟨f, rfl⟩ : ∃ f, fuel = f + 1 := ⟨fuel - 1, by omega⟩
    obtain ⟨hm1, hm2⟩ := getMid_bounds hlt
    unfold queryRangeNode
    by_cases hfull : qs ≤ rs ∧ re ≤ qe
    · refine ⟨op.apply vl vr, ?_, ?_⟩
      · simp only [hfull, and_self, if_true]
        exact readCell_of_cell hc
      · intro hop
        have e1 : max qs rs = rs := by omega
        have e2 : min qe re = re := by omega
        rw [e1, e2]
        exact Node.value hop (Node.inner _ _ _ _ _ hlt hl hr hc)
    · by_cases hno : qs > re ∨ rs > qe
      · refine ⟨identity, ?_, ?_⟩
        · simp only [hfull, if_false, hno, if_true]
        · intro _
          rw [foldRange_empty]
          omega
      · obtain ⟨rl, hql, hvl⟩ := ihl f qs qe (by push_cast at hfuel; omega)
        obtain ⟨rr, hqr, hvr⟩ := ihr f qs qe (by push_cast at hfuel; omega)
        refine ⟨op.apply rl rr, ?_, ?_⟩
        · simp only [hfull, if_false, hno, bind, Except.bind, hql, hqr]
        · intro hop
          rw [hvl hop, hvr hop]
          by_cases hA : qe ≤ getMid rs re
          · have e1 : min qe (getMid rs re) = min qe re := by omega
            rw [e1, foldRange_empty op identity leaf
              (a := max qs (getMid rs re + 1)) (b := min qe re) (by omega), hop.right_id]
          · by_cases hB : getMid rs re < qs
            · have e1 : max qs (getMid rs re + 1) = max qs rs := by omega
              rw [e1, foldRange_empty op identity leaf
                (a := max qs rs) (b := min qe (getMid rs re)) (by omega), hop.left_id]
            · have e1 : min qe (getMid rs re) = getMid rs re := by omega
              have e2 : max qs (getMid rs re + 1) = getMid rs re + 1 := by omega
              rw [e1, e2]
              exact (foldRange_split hop leaf (by omega) (by omega)).symm

/-! ## The recursive update -/

/-- The recursive update with an index inside the range returns, rewrites only slots of
the subtree, and leaves a well-formed subtree whose leaf `index` holds `value`. -/
theorem Node.setNode {op : Operator T} {tree : List (Option T)} {leaf : Int → T}
    {node rs re : Int} {v : T} (h : Node op tree leaf node rs re v) :
    ∀ (fuel : Nat) (index : Int) (value : T), rs ≤ index → index ≤ re → re - rs < fuel →
      ∃ tree' v', DeletableSegmentTree.setNode op fuel index rs re node value tree = .ok tree' ∧
        tree'.length = tree.length ∧
        (∀ k, (k < node ∨ node + 2 * (re - rs) < k) → cell tree' k = cell tree k) ∧
        Node op tree' (Function.update leaf index value) node rs re v' := by
  induction h with
  | leaf node rs hc =>
    intro fuel index value h1 h2 hfuel
    obtain ⟨f, rfl⟩ : ∃ f, fuel = f + 1 := ⟨fuel - 1, by omega⟩
    have hidx : rs = index := by omega
    subst hidx
    obtain ⟨hn0, hn1⟩ := cell_bounds hc
    unfold DeletableSegmentTree.setNode
    refine ⟨tree.set node.toNat (some value), value, ?_, ?_, ?_, ?_⟩
    · simp only [and_self, if_true]
      exact writeCell_ok value hn0 hn1
    · simp
    · intro k hk
      rw [cell_set _ hn0 hn1]
      have : k ≠ node := by omega
      simp [this]
    · have hv : value = Function.update leaf rs value rs := by simp
      have hn : Node op (tree.set node.toNat (some value)) (Function.update leaf rs value)
          node rs rs (Function.update leaf rs value rs) := by
        apply Node.leaf
        rw [cell_set _ hn0 hn1]
        simp
      rw [← hv] at hn
      exact hn
  | inner node rs re vl vr hlt hl hr hc ihl ihr =>
    intro fuel index value h1 h2 hfuel
    obtain ⟨f, rfl⟩ : ∃ f, fuel = f + 1 := ⟨fuel - 1, by omega⟩
    obtain ⟨hm1, hm2⟩ := getMid_bounds hlt
    obtain ⟨hn0, hn1⟩ := cell_bounds hc
    unfold DeletableSegmentTree.setNode
    have hne : ¬ (rs = re ∧ re = index) := by omega
    simp only [hne, if_false]
    by_cases hside : index ≤ getMid rs re
    · obtain ⟨t1, vl', hs, hlen, hfr, hnl⟩ :=
        ihl f index value h1 hside (by push_cast at hfuel; omega)
      have hnr : Node op t1 (Function.update leaf index value)
          (rightChild node rs (getMid rs re)) (getMid rs re + 1) re vr := by
        refine Node.leaf_congr (?_ : Node op t1 leaf _ _ _ _) ?_
        · apply hr.frame
          intro k k1 k2
          apply hfr
          rw [rightChild_eq] at k1
          rw [leftChild_eq]
          omega
        · intro i i1 i2
          have : i ≠ index := by omega
          simp [Function.update, this]
      have hfr2 : ∀ k, node < k → cell (t1.set node.toNat (some (op.apply vl' vr))) k
          = cell t1 k := by
        intro k hk
        rw [cell_set _ hn0 (by omega)]
        have : k ≠ node := by omega
        simp [this]
      refine ⟨t1.set node.toNat (some (op.apply vl' vr)), op.apply vl' vr, ?_, ?_, ?_, ?_⟩
      · simp only [hside, if_true, bind, Except.bind, hs, readCell_of_cell hnl.root,
          readCell_of_cell hnr.root]
        exact writeCell_ok _ hn0 (by omega)
      · simp [hlen]
      · intro k hk
        rw [cell_set _ hn0 (by omega)]
        have : k ≠ node := by omega
        simp only [this, if_false]
        exact hfr k (by rw [leftChild_eq]; omega)
      · apply Node.inner _ _ _ _ _ hlt
        · exact hnl.frame (fun k k1 _ => hfr2 k (by rw [leftChild_eq] at k1; omega))
        · exact hnr.frame (fun k k1 _ => hfr2 k (by rw [rightChild_eq] at k1; omega))
        · rw [cell_set _ hn0 (by omega)]
          simp
    · obtain ⟨t1, vr', hs, hlen, hfr, hnr⟩ :=
        ihr f index value (by omega) h2 (by push_cast at hfuel; omega)
      have hnl : Node op t1 (Function.update leaf index value)
          (leftChild node) rs (getMid rs re) vl := by
        refine Node.leaf_congr (?_ : Node op t1 leaf _ _ _ _) ?_
        · apply hl.frame
          intro k k1 k2
          apply hfr
          rw [leftChild_eq] at k1 k2
          rw [rightChild_eq]
          omega
        · intro i i1 i2
          have : i ≠ index := by omega
          simp [Function.update, this]
      have hfr2 : ∀ k, node < k → cell (t1.set node.toNat (some (op.apply vl vr'))) k
          = cell t1 k := by
        intro k hk
        rw [cell_set _ hn0 (by omega)]
        have : k ≠ node := by omega
        simp [this]
      refine ⟨t1.set node.toNat (some (op.apply vl vr')), op.apply vl vr', ?_, ?_, ?_, ?_⟩
      · simp only [hside, if_false, bind, Except.bind, hs, readCell_of_cell hnl.root,
          readCell_of_cell hnr.root]
        exact writeCell_ok _ hn0 (by omega)
      · simp [hlen]
      · intro k hk
        rw [cell_set _ hn0 (by omega)]
        have : k ≠ node := by omega
        simp only [this, if_false]
        exact hfr k (by rw [rightChild_eq]; omega)
      · apply Node.inner _ _ _ _ _ hlt
        · exact hnl.frame (fun k k1 _ => hfr2 k (by rw [leftChild_eq] at k1; omega))
        · exact hnr.frame (fun k k1 _ => hfr2 k (by rw [rightChild_eq] at k1; omega))
        · rw [cell_set _ hn0 (by omega)]
          simp

/-! ## `SegmentTree` operations on a represented tree -/

theorem leafOf_spec (vs : List T) (dflt : T) (i : Int) (h0 : 0 ≤ i) (h1 : i < vs.length) :
    vs[i.toNat]? = some (leafOf vs dflt i) := by
  unfold leafOf
  have hi : ¬ i < 0 := by omega
  have hlt : i.toNat < vs.length := by omega
  simp [hi, List.getElem?_eq_getElem hlt]

theorem leafOf_eq_of_getElem? (vs : List T) (dflt : T) (i : Nat) (x : T)
    (h : vs[i]? = some x) : leafOf vs dflt (i : Int) = x := by
  unfold leafOf
  have hi : ¬ ((i : Int) < 0) := by omega
  simp [hi, h]

theorem allocate_ok (n : Int) (h : 0 ≤ n) :
    (allocate n : Except Fault (List (Option T))) = .ok (List.replicate n.toNat none) := by
  unfold allocate
  have : ¬ n < 0 := by omega
  simp [this]

/-- Allocation followed by `buildTree` over `[0, capacity-1]`, as done by the
constructor and by `resize`. -/
theorem build_fresh (op : Operator T) (vs : List T) (dflt : T) (capacity : Int)
    (hcap : 1 ≤ capacity) (hlen : capacity ≤ vs.length) :
    ∃ tree v, (allocate (2 * capacity - 1) >>= fun tree =>
        buildTree op (recursionFuel capacity) 0 (capacity - 1) 0 vs tree) = .ok tree ∧
      (tree.length : Int) = 2 * capacity - 1 ∧
      Node op tree (leafOf vs dflt) 0 0 (capacity - 1) v := by
  rw [allocate_ok _ (by omega)]
  obtain ⟨tree, v, hb, hl, _, hn⟩ :=
    buildTree_spec op vs (leafOf vs dflt) (leafOf_spec vs dflt) (recursionFuel capacity)
      0 (capacity - 1) 0 (List.replicate (2 * capacity - 1).toNat none)
      (le_refl _) (by omega) (by omega) (by unfold recursionFuel; omega) (le_refl _)
      (by simp; omega)
  refine ⟨tree, v, ?_, ?_, hn⟩
  · simpa [bind, Except.bind] using hb
  · rw [hl]
    simp
    omega

theorem SegmentTree.new_spec (vs : List T) (op : Operator T) (identity : T)
    (hne : vs ≠ []) (dflt : T) :
    ∃ t, SegmentTree.new vs op identity = .ok t ∧ t.length = vs.length ∧
      t.capacity = vs.length ∧ t.oper = op ∧ t.identity = identity ∧
      t.Rep (leafOf vs dflt) := by
  have hpos : (1 : Int) ≤ vs.length := by
    have := List.length_pos.mpr hne
    omega
  obtain ⟨tree, v, hb, hl, hn⟩ := build_fresh op vs dflt vs.length hpos (le_refl _)
  refine ⟨⟨vs.length, vs.length, op, identity, tree⟩, ?_, rfl, rfl, rfl, rfl, ?_⟩
  · unfold SegmentTree.new
    simp only [bind, Except.bind] at hb ⊢
    cases ha : (allocate (2 * (vs.length : Int) - 1) : Except Fault (List (Option T))) with
    | error e => simp [ha] at hb
    | ok tr =>
      simp only [ha] at hb ⊢
      simp only [hb]
  · exact ⟨hpos, by simp, le_refl _, hl, ⟨v, hn⟩⟩

theorem SegmentTree.Rep.queryRange {t : SegmentTree T} {leaf : Int → T} (h : t.Rep leaf)
    (a b : Int) :
    ∃ r, t.queryRange a b = .ok r ∧
      (Lawful t.oper t.identity →
        r = foldRange t.oper t.identity leaf (max a 0) (min b (t.capacity - 1))) := by
  obtain ⟨v, hn⟩ := h.node
  have hc := h.cap_pos
  exact hn.query t.identity (recursionFuel t.capacity) a b (by unfold recursionFuel; omega)

theorem SegmentTree.Rep.get_ok {t : SegmentTree T} {leaf : Int → T} (h : t.Rep leaf)
    (i : Int) (h0 : 0 ≤ i) (h1 : i < t.length) :
    ∃ r, t.get i = .ok r ∧ (Lawful t.oper t.identity → r = leaf i) := by
  obtain ⟨r, hq, hr⟩ := h.queryRange i i
  have hle := h.len_le
  refine ⟨r, ?_, ?_⟩
  · unfold SegmentTree.get
    have : ¬ (i < 0 ∨ i ≥ t.length) := by omega
    simp only [this, if_false]
    exact hq
  · intro hop
    rw [hr hop]
    have e1 : max i 0 = i := by omega
    have e2 : min i (t.capacity - 1) = i := by omega
    rw [e1, e2, foldRange_single hop]

theorem SegmentTree.Rep.get {t : SegmentTree T} {leaf : Int → T} (h : t.Rep leaf)
    (hop : Lawful t.oper t.identity) (i : Int) (h0 : 0 ≤ i) (h1 : i < t.length) :
    t.get i = .ok (leaf i) := by
  obtain ⟨r, hq, hr⟩ := h.get_ok i h0 h1
  rw [hq, hr hop]

theorem SegmentTree.Rep.set {t : SegmentTree T} {leaf : Int → T} (h : t.Rep leaf)
    (i : Int) (value : T) (h0 : 0 ≤ i) (h1 : i < t.capacity) :
    ∃ t', t.set i value = .ok t' ∧ t'.length = t.length ∧ t'.capacity = t.capacity ∧
      t'.oper = t.oper ∧ t'.identity = t.identity ∧
      t'.Rep (Function.update leaf i value) := by
  obtain ⟨v, hn⟩ := h.node
  have hc := h.cap_pos
  obtain ⟨tree', v', hs, hl, _, hn'⟩ :=
    hn.setNode (recursionFuel t.capacity) i value h0 (by omega)
      (by unfold recursionFuel; omega)
  refine ⟨{ t with tree := tree' }, ?_, rfl, rfl, rfl, rfl, ?_⟩
  · unfold SegmentTree.set
    simp only [bind, Except.bind, hs]
  · exact ⟨h.cap_pos, h.len_nonneg, h.len_le, by simp only [hl]; exact h.size, ⟨v', hn'⟩⟩

theorem mapM_except_ok {α β : Type} (f : α → Except Fault β) (g : α → β) :
    ∀ l : List α, (∀ a ∈ l, f a = .ok (g a)) → l.mapM f = .ok (l.map g) := by
  intro l
  induction l with
  | nil => intro _; rfl
  | cons a l ih =>
    intro h
    rw [List.mapM_cons, h a (List.mem_cons_self a l), ih (fun b hb => h b (List.mem_cons_of_mem a hb))]
    rfl

/-- The value `get` yields, `dflt` when it fails. -/
theorem SegmentTree.Rep.resizeValues {t : SegmentTree T} {leaf : Int → T} (h : t.Rep leaf)
    (newCapacity : Int) (hnew : t.length ≤ newCapacity) :
    ∃ values, t.resizeValues newCapacity = .ok values ∧
      (values.length : Int) = newCapacity ∧
      (∀ i, t.length ≤ i → leafOf values t.identity i = t.identity) ∧
      (Lawful t.oper t.identity →
        ∀ i, 0 ≤ i → i < t.length → leafOf values t.identity i = leaf i) := by
  let g : Nat → T := fun i =>
    match t.get (i : Int) with
    | .ok r => r
    | .error _ => t.identity
  have hg : ∀ i ∈ List.range t.length.toNat, t.get (Int.ofNat i) = .ok (g i) := by
    intro i hi
    rw [List.mem_range] at hi
    obtain ⟨r, hr, _⟩ := h.get_ok (i : Int) (by omega) (by omega)
    show t.get (i : Int) = .ok (match t.get (i : Int) with
      | .ok r => r
      | .error _ => t.identity)
    rw [hr]
  have hlen := h.len_nonneg
  refine ⟨(List.range t.length.toNat).map g
      ++ List.replicate (newCapacity - t.length).toNat t.identity, ?_, ?_, ?_, ?_⟩
  · unfold SegmentTree.resizeValues
    rw [mapM_except_ok _ g _ hg]
    rfl
  · simp
    omega
  · intro i hi
    unfold leafOf
    have hi0 : ¬ i < 0 := by omega
    simp only [hi0, if_false]
    rw [List.getElem?_append_right (by simp; omega)]
    rw [List.getElem?_replicate]
    split <;> rfl
  · intro hop i h0 h1
    have e : ((i.toNat : Nat) : Int) = i := by omega
    have hgi := hg i.toNat (by rw [List.mem_range]; omega)
    rw [Int.ofNat_eq_coe, e, h.get hop i h0 h1] at hgi
    have hx : g i.toNat = leaf i := (Except.ok.inj hgi).symm
    have hh := leafOf_eq_of_getElem? ((List.range t.length.toNat).map g
      ++ List.replicate (newCapacity - t.length).toNat t.identity) t.identity i.toNat (leaf i)
      (by
        rw [List.getElem?_append_left (by simp; omega)]
        rw [List.getElem?_map, List.getElem?_range (by omega)]
        simp [hx])
    rw [e] at hh
    exact hh

theorem SegmentTree.Rep.resize {t : SegmentTree T} {leaf : Int → T} (h : t.Rep leaf)
    (newCapacity : Int) (hnew : t.length ≤ newCapacity) (hpos : 1 ≤ newCapacity) :
    ∃ t' leaf', t.resize newCapacity = .ok t' ∧ t'.length = t.length ∧
      t'.capacity = newCapacity ∧ t'.oper = t.oper ∧ t'.identity = t.identity ∧
      t'.Rep leaf' ∧
      (∀ i, t.length ≤ i → leaf' i = t.identity) ∧
      (Lawful t.oper t.identity → ∀ i, 0 ≤ i → i < t.length → leaf' i = leaf i) := by
  obtain ⟨values, hv, hvl, hpad, hold⟩ := h.resizeValues newCapacity hnew
  obtain ⟨tree, v, hb, hl, hn⟩ :=
    build_fresh t.oper values t.identity newCapacity hpos (by omega)
  refine ⟨{ t with tree := tree, capacity := newCapacity }, leafOf values t.identity,
    ?_, rfl, rfl, rfl, rfl, ?_, hpad, hold⟩
  · unfold SegmentTree.resize
    simp only [bind, Except.bind, hv] at hb ⊢
    cases ha : (allocate (2 * newCapacity - 1) : Except Fault (List (Option T))) with
    | error e => simp [ha] at hb
    | ok tr =>
      simp only [ha] at hb ⊢
      simp only [hb]
  · exact ⟨hpos, h.len_nonneg, hnew, hl, ⟨v, hn⟩⟩

theorem SegmentTree.Rep.add {t : SegmentTree T} {leaf : Int → T} (h : t.Rep leaf)
    (value : T) :
    ∃ t' leaf', t.add value = .ok t' ∧ t'.length = t.length + 1 ∧
      t'.capacity = (if t.length = t.capacity then 2 * t.capacity + 1 else t.capacity) ∧
      t'.oper = t.oper ∧ t'.identity = t.identity ∧ t'.Rep leaf' ∧
      leaf' t.length = value ∧
      (∀ i, t.length < i → leaf' i = leaf i ∨ leaf' i = t.identity) ∧
      (Lawful t.oper t.identity → ∀ i, 0 ≤ i → i < t.length → leaf' i = leaf i) := by
  have hc := h.cap_pos
  have hl0 := h.len_nonneg
  have hle := h.len_le
  by_cases hfull : t.length = t.capacity
  · obtain ⟨t1, leaf1, hr, hlen1, hcap1, hop1, hid1, hrep1, hpad, hold⟩ :=
      h.resize (2 * t.capacity + 1) (by omega) (by omega)
    have hrep2 : ({ t1 with length := t1.length + 1 } : SegmentTree T).Rep leaf1 :=
      ⟨hrep1.cap_pos, by show 0 ≤ t1.length + 1; omega,
        by show t1.length + 1 ≤ t1.capacity; omega, hrep1.size, hrep1.node⟩
    obtain ⟨t2, hs, hlen2, hcap2, hop2, hid2, hrep3⟩ :=
      hrep2.set (t1.length + 1 - 1) value (by omega) (by show _ < t1.capacity; omega)
    refine ⟨t2, Function.update leaf1 (t1.length + 1 - 1) value, ?_, ?_, ?_, ?_, ?_, hrep3,
      ?_, ?_, ?_⟩
    · unfold SegmentTree.add
      simp only [hfull, if_true, bind, Except.bind, hr]
      exact hs
    · rw [hlen2]; show t1.length + 1 = _; rw [hlen1]
    · rw [hcap2]; show t1.capacity = _; rw [hcap1]; simp [hfull]
    · rw [hop2]; exact hop1
    · rw [hid2]; exact hid1
    · have : t1.length + 1 - 1 = t.length := by omega
      rw [this]; simp
    · intro i hi
      right
      have : i ≠ t1.length + 1 - 1 := by omega
      simp only [Function.update, this, dif_neg, not_false_eq_true]
      exact hpad i (by omega)
    · intro hop i h0 h1
      have : i ≠ t1.length + 1 - 1 := by omega
      simp only [Function.update, this, dif_neg, not_false_eq_true]
      exact hold hop i h0 h1
  · have hrep2 : ({ t with length := t.length + 1 } : SegmentTree T).Rep leaf :=
      ⟨h.cap_pos, by show 0 ≤ t.length + 1; omega,
        by show t.length + 1 ≤ t.capacity; omega, h.size, h.node⟩
    obtain ⟨t2, hs, hlen2, hcap2, hop2, hid2, hrep3⟩ :=
      hrep2.set (t.length + 1 - 1) value (by omega) (by show _ < t.capacity; omega)
    refine ⟨t2, Function.update leaf (t.length + 1 - 1) value, ?_, ?_, ?_, ?_, ?_, hrep3,
      ?_, ?_, ?_⟩
    · unfold SegmentTree.add
      simp only [hfull, if_false, bind, Except.bind]
      exact hs
    · rw [hlen2]
    · rw [hcap2]; simp [hfull]
    · rw [hop2]
    · rw [hid2]
    · have : t.length + 1 - 1 = t.length := by omega
      rw [this]; simp
    · intro i hi
      left
      have : i ≠ t.length + 1 - 1 := by omega
      simp only [Function.update, this, dif_neg, not_false_eq_true]
    · intro _ i h0 h1
      have : i ≠ t.length + 1 - 1 := by omega
      simp only [Function.update, this, dif_neg, not_false_eq_true]

/-! ## Folds over lists -/

theorem foldFrom_eq_foldl (op : Operator T) (identity : T) (leaf : Int → T) (vs : List T)
    (a : Nat) :
    ∀ n : Nat, (∀ k : Nat, a ≤ k → k < a + n → vs[k]? = some (leaf k)) →
      foldFrom op identity leaf a n = ((vs.drop a).take n).foldl op.apply identity := by
  intro n
  induction n with
  | zero => intro _; simp [foldFrom]
  | succ n ih =>
    intro h
    have hx : (vs.drop a)[n]? = some (leaf ((a : Int) + n)) := by
      rw [List.getElem?_drop]
      have := h (a + n) (by omega) (by omega)
      rw [this]
      push_cast
      rfl
    rw [List.take_succ, hx]
    simp only [foldFrom, Option.toList, List.foldl_append, List.foldl_cons, List.foldl_nil]
    rw [ih (fun k h1 h2 => h k h1 (by omega))]

theorem foldRange_eq_foldSlice (op : Operator T) (identity : T) (leaf : Int → T)
    (vs : List T) (a b : Int) (h0 : 0 ≤ a)
    (h : ∀ k : Nat, a ≤ k → k ≤ b → vs[k]? = some (leaf k)) :
    foldRange op identity leaf a b = foldSlice op identity vs a b := by
  obtain ⟨n, rfl⟩ : ∃ n : Nat, a = n := ⟨a.toNat, by omega⟩
  unfold foldRange foldSlice
  rw [foldFrom_eq_foldl op identity leaf vs n]
  · simp
  · intro k h1 h2
    exact h k (by omega) (by omega)

theorem foldSlice_all (op : Operator T) (identity : T) (vs : List T) :
    foldSlice op identity vs 0 ((vs.length : Int) - 1) = vs.foldl op.apply identity := by
  unfold foldSlice
  have : ((vs.length : Int) - 1 - 0 + 1).toNat = vs.length := by omega
  rw [this]
  simp

/-! ## Reachable `SegmentTree` states -/

theorem SegmentTree.new_nil (op : Operator T) (identity : T) :
    SegmentTree.new ([] : List T) op identity = .error .badArrayLength := rfl

theorem SegmentTree.Reachable.rep {t : SegmentTree T} (h : t.Reachable) :
    ∃ leaf, t.Rep leaf := by
  induction h with
  | new vs op identity t hnew =>
    have hne : vs ≠ [] := by
      intro h0
      subst h0
      rw [SegmentTree.new_nil] at hnew
      cases hnew
    obtain ⟨t', ht', _, _, _, _, hrep⟩ := SegmentTree.new_spec vs op identity hne identity
    rw [hnew] at ht'
    cases ht'
    exact ⟨_, hrep⟩
  | set t i v t' _ h0 h1 hs ih =>
    obtain ⟨leaf, hrep⟩ := ih
    obtain ⟨t2, ht2, _, _, _, _, hrep2⟩ := hrep.set i v h0 h1
    rw [hs] at ht2
    cases ht2
    exact ⟨_, hrep2⟩
  | add t v t' _ hs ih =>
    obtain ⟨leaf, hrep⟩ := ih
    obtain ⟨t2, leaf2, ht2, _, _, _, _, hrep2, _⟩ := hrep.add v
    rw [hs] at ht2
    cases ht2
    exact ⟨_, hrep2⟩

theorem SegmentTree.Rep.treeNode {t : SegmentTree T} {leaf : Int → T} (h : t.Rep leaf)
    {node rs re : Int} (hn : TreeNode t.capacity node rs re) :
    ∃ v, Node t.oper t.tree leaf node rs re v := by
  induction hn with
  | root => exact h.node
  | left node rs re _ hlt ih =>
    obtain ⟨v, hv⟩ := ih
    cases hv with
    | leaf _ _ _ => omega
    | inner _ _ _ vl vr _ hl hr _ => exact ⟨vl, hl⟩
  | right node rs re _ hlt ih =>
    obtain ⟨v, hv⟩ := ih
    cases hv with
    | leaf _ _ _ => omega
    | inner _ _ _ vl vr _ hl hr _ => exact ⟨vr, hr⟩

theorem SegmentTree.Rep.aggregateInvariant {t : SegmentTree T} {leaf : Int → T}
    (h : t.Rep leaf) : t.AggregateInvariant := by
  intro node rs re hn hlt
  obtain ⟨v, hv⟩ := h.treeNode hn
  cases hv with
  | leaf _ _ _ => omega
  | inner _ _ _ vl vr _ hl hr hc => exact ⟨vl, vr, hl.root, hr.root, hc⟩

theorem SegmentTree.Rep.holds {t : SegmentTree T} {leaf : Int → T} (h : t.Rep leaf)
    (hop : Lawful t.oper t.identity) {vs : List T} (hvs : t.Holds vs) :
    ∀ k : Nat, k < vs.length → vs[k]? = some (leaf k) := by
  intro k hk
  have hg := hvs.2 k hk
  rw [h.get hop k (by omega) (by have := hvs.1; omega)] at hg
  rw [List.getElem?_eq_getElem hk]
  exact congrArg some (Except.ok.inj hg).symm

theorem queryRangeNode_not_indexOutOfBounds (op : Operator T) (identity : T)
    (tree : List (Option T)) (e : Int) :
    ∀ (fuel : Nat) (qs qe rs re node : Int),
      queryRangeNode op identity tree fuel qs qe rs re node ≠ .error (.indexOutOfBounds e) := by
  intro fuel
  induction fuel with
  | zero => intro qs qe rs re node h; simp [queryRangeNode] at h
  | succ f ih =>
    intro qs qe rs re node
    unfold queryRangeNode
    split
    · unfold readCell
      split
      · simp
      · split <;> simp
    · split
      · simp
      · simp only [bind, Except.bind]
        have h1 := ih qs qe rs (getMid rs re) (leftChild node)
        have h2 := ih qs qe (getMid rs re + 1) re (rightChild node rs (getMid rs re))
        cases hl : queryRangeNode op identity tree f qs qe rs (getMid rs re) (leftChild node) with
        | error x => rw [hl] at h1; simpa using h1
        | ok x =>
          cases hr : queryRangeNode op identity tree f qs qe (getMid rs re + 1) re
              (rightChild node rs (getMid rs re)) with
          | error y => rw [hr] at h2; simpa using h2
          | ok y => simp

/-! ## Claims on `SegmentTree` -/

theorem addOperator_lawful : Lawful AddOperator 0 :=
  ⟨fun a b c => Int.add_assoc a b c, fun a => Int.zero_add a, fun a => Int.add_zero a⟩

theorem sampleTree_new : SegmentTree.new [3, 4, 5] AddOperator 0 = .ok sampleTree := rfl

theorem sampleTree_reachable : sampleTree.Reachable :=
  SegmentTree.Reachable.new _ _ _ _ sampleTree_new

theorem sampleTree_holds : sampleTree.Holds [3, 4, 5] :=
  ⟨rfl, fun k h =>
    match k, h with
    | 0, _ => rfl
    | 1, _ => rfl
    | 2, _ => rfl⟩

/-- C1: for a non-empty initial sequence `vs` and an associative operator with a
two-sided identity, the constructor returns a tree on which `queryRange(a, b)` equals
the left-to-right fold of `vs[a..b]` for all `0 <= a <= b < n`; `queryRange(0, n-1)`
is the fold of the whole sequence. -/
theorem C1_build_then_query (vs : List T) (op : Operator T) (identity : T)
    (hne : vs ≠ []) (hop : Lawful op identity) :
    ∃ t, SegmentTree.new vs op identity = .ok t ∧
      (∀ a b : Int, 0 ≤ a → a ≤ b → b < vs.length →
        t.queryRange a b = .ok (foldSlice op identity vs a b)) ∧
      t.queryRange 0 ((vs.length : Int) - 1) = .ok (vs.foldl op.apply identity) := by
  obtain ⟨t, hnew, hlen, hcap, hoper, hid, hrep⟩ :=
    SegmentTree.new_spec vs op identity hne identity
  have hop' : Lawful t.oper t.identity := by rw [hoper, hid]; exact hop
  have key : ∀ a b : Int, 0 ≤ a → a ≤ b → b < vs.length →
      t.queryRange a b = .ok (foldSlice op identity vs a b) := by
    intro a b h0 hab hb
    obtain ⟨r, hq, hr⟩ := hrep.queryRange a b
    rw [hq, hr hop']
    have e1 : max a 0 = a := by omega
    have e2 : min b (t.capacity - 1) = b := by omega
    rw [e1, e2, hoper, hid]
    congr 1
    apply foldRange_eq_foldSlice _ _ _ _ _ _ h0
    intro k _ h2
    exact leafOf_spec vs identity k (by omega) (by omega)
  refine ⟨t, hnew, key, ?_⟩
  have hpos := List.length_pos.mpr hne
  rw [key 0 ((vs.length : Int) - 1) (le_refl _) (by omega) (by omega), foldSlice_all]

theorem C1_build_then_query_witness :
    ([3, 4, 5] : List Int) ≠ [] ∧ Lawful AddOperator 0 ∧
    ∃ t, SegmentTree.new [3, 4, 5] AddOperator 0 = .ok t ∧
      (∀ a b : Int, 0 ≤ a → a ≤ b → b < ([3, 4, 5] : List Int).length →
        t.queryRange a b = .ok (foldSlice AddOperator 0 [3, 4, 5] a b)) ∧
      t.queryRange 0 ((([3, 4, 5] : List Int).length : Int) - 1)
        = .ok (([3, 4, 5] : List Int).foldl AddOperator.apply 0) :=
  ⟨by decide, addOperator_lawful,
    C1_build_then_query [3, 4, 5] AddOperator 0 (by decide) addOperator_lawful⟩

/-- C2: on a reachable tree that holds the logical sequence `vs` (associative operator
with identity) and for `0 <= i < n`, `set(i, v)` returns a tree on which `get(i) == v`,
every `queryRange(a, b)` with `0 <= a <= b < n` is the fold of `vs` with position `i`
replaced by `v`, every `queryRange(a, b)` whose range does not contain `i` is what it
was before, and length and capacity are unchanged. -/
theorem C2_set_then_query (t : SegmentTree T) (hr : t.Reachable)
    (hop : Lawful t.oper t.identity) (vs : List T) (hvs : t.Holds vs)
    (i : Int) (h0 : 0 ≤ i) (h1 : i < t.length) (v : T) :
    ∃ t', t.set i v = .ok t' ∧ t'.get i = .ok v ∧
      (∀ a b : Int, 0 ≤ a → a ≤ b → b < t.length →
        t'.queryRange a b = .ok (foldSlice t.oper t.identity (vs.set i.toNat v) a b)) ∧
      (∀ a b : Int, (i < a ∨ b < i) → t'.queryRange a b = t.queryRange a b) ∧
      t'.length = t.length ∧ t'.capacity = t.capacity := by
  obtain ⟨leaf, hrep⟩ := hr.rep
  have hle := hrep.len_le
  obtain ⟨t', hs, hlen, hcap, hoper, hid, hrep'⟩ := hrep.set i v h0 (by omega)
  have hop' : Lawful t'.oper t'.identity := by rw [hoper, hid]; exact hop
  have hleaf := hrep.holds hop hvs
  refine ⟨t', hs, ?_, ?_, ?_, hlen, hcap⟩
  · rw [hrep'.get hop' i h0 (by omega)]
    simp
  · intro a b ha hab hb
    obtain ⟨r, hq, hr'⟩ := hrep'.queryRange a b
    rw [hq, hr' hop']
    have e1 : max a 0 = a := by omega
    have e2 : min b (t'.capacity - 1) = b := by omega
    rw [e1, e2, hoper, hid]
    congr 1
    apply foldRange_eq_foldSlice _ _ _ _ _ _ ha
    intro k _ h2
    have hk : k < vs.length := by have := hvs.1; omega
    rw [List.getElem?_set]
    by_cases hki : i.toNat = k
    · have hk' : (k : Int) = i := by omega
      rw [hk']
      simp [hki, hk]
    · have : (k : Int) ≠ i := by omega
      simp [hki, this, hleaf k hk]
  · intro a b hab
    obtain ⟨r, hq, hr'⟩ := hrep'.queryRange a b
    obtain ⟨r0, hq0, hr0⟩ := hrep.queryRange a b
    rw [hq, hq0, hr' hop', hr0 hop, hoper, hid, hcap]
    congr 1
    apply foldRange_congr
    intro k k1 k2
    have : k ≠ i := by omega
    simp [this]

theorem C2_set_then_query_witness :
    sampleTree.Reachable ∧ Lawful sampleTree.oper sampleTree.identity ∧
    sampleTree.Holds [3, 4, 5] ∧ (0 : Int) ≤ 1 ∧ (1 : Int) < sampleTree.length ∧
    ∃ t', sampleTree.set 1 10 = .ok t' ∧ t'.get 1 = .ok 10 ∧
      (∀ a b : Int, 0 ≤ a → a ≤ b → b < sampleTree.length →
        t'.queryRange a b = .ok (foldSlice sampleTree.oper sampleTree.identity
          (([3, 4, 5] : List Int).set (1 : Int).toNat 10) a b)) ∧
      (∀ a b : Int, ((1 : Int) < a ∨ b < 1) → t'.queryRange a b = sampleTree.queryRange a b) ∧
      t'.length = sampleTree.length ∧ t'.capacity = sampleTree.capacity :=
  ⟨sampleTree_reachable, addOperator_lawful, sampleTree_holds, by decide, by decide,
    C2_set_then_query sampleTree sampleTree_reachable addOperator_lawful [3, 4, 5]
      sampleTree_holds 1 (by decide) (by decide) 10⟩

theorem SegmentTree.Rep.addAll {t : SegmentTree T} (hop : Lawful t.oper t.identity) :
    ∀ (ws xs : List T) (t0 : SegmentTree T) (leaf : Int → T), t0.Rep leaf →
      t0.oper = t.oper → t0.identity = t.identity → (xs.length : Int) = t0.length →
      (∀ k : Nat, k < xs.length → xs[k]? = some (leaf k)) →
      ∃ t' leaf', t0.addAll ws = .ok t' ∧ t'.Rep leaf' ∧ t'.oper = t.oper ∧
        t'.identity = t.identity ∧ (((xs ++ ws).length : Nat) : Int) = t'.length ∧
        (∀ k : Nat, k < (xs ++ ws).length → (xs ++ ws)[k]? = some (leaf' k)) := by
  intro ws
  induction ws with
  | nil =>
    intro xs t0 leaf hrep hoper hid hlen hleaf
    refine ⟨t0, leaf, rfl, hrep, hoper, hid, ?_, ?_⟩
    · simpa using hlen
    · simpa using hleaf
  | cons w ws ih =>
    intro xs t0 leaf hrep hoper hid hlen hleaf
    obtain ⟨t1, leaf1, ha, hlen1, _, hoper1, hid1, hrep1, hnew, _, hold⟩ := hrep.add w
    have hop0 : Lawful t0.oper t0.identity := by rw [hoper, hid]; exact hop
    obtain ⟨t', leaf', hall, hrep', hoper', hid', hlen', hleaf'⟩ :=
      ih (xs ++ [w]) t1 leaf1 hrep1 (by rw [hoper1, hoper]) (by rw [hid1, hid])
        (by rw [hlen1]; simp; omega)
        (by
          intro k hk
          rw [List.length_append, List.length_singleton] at hk
          by_cases hkx : k < xs.length
          · rw [List.getElem?_append_left hkx, hleaf k hkx,
              hold hop0 k (by omega) (by omega)]
          · have hkeq : k = xs.length := by omega
            subst hkeq
            rw [List.getElem?_append_right (le_refl _)]
            rw [hlen, hnew]
            simp)
    refine ⟨t', leaf', ?_, hrep', hoper', hid', ?_, ?_⟩
    · unfold SegmentTree.addAll at hall ⊢
      rw [List.foldlM_cons]
      simp only [bind, Except.bind, ha]
      exact hall
    · simpa using hlen'
    · simpa using hleaf'

/-- C3: a tree built from a non-empty `vs` and extended by `add(w)` for each `w` of `ws`
in order (associative operator with identity) has `size() == |vs| + |ws|`, `get(k)` equal
to the `k`-th element of `vs ++ ws` for every `0 <= k < size()`, and
`queryRange(0, size()-1)` equal to the fold of `vs ++ ws`, whatever resizes happened. -/
theorem C3_append_sequence (vs ws : List T) (op : Operator T) (identity : T)
    (hne : vs ≠ []) (hop : Lawful op identity) :
    ∃ t0 t, SegmentTree.new vs op identity = .ok t0 ∧ t0.addAll ws = .ok t ∧
      t.size = (vs.length : Int) + ws.length ∧
      (∀ (k : Nat) (h : k < (vs ++ ws).length), t.get (k : Int) = .ok (vs ++ ws)[k]) ∧
      t.queryRange 0 (t.size - 1) = .ok ((vs ++ ws).foldl op.apply identity) := by
  obtain ⟨t0, hnew, hlen, hcap, hoper, hid, hrep⟩ :=
    SegmentTree.new_spec vs op identity hne identity
  have hop0 : Lawful t0.oper t0.identity := by rw [hoper, hid]; exact hop
  obtain ⟨t, leaf, hall, hrept, hopert, hidt, hlent, hleaf⟩ :=
    SegmentTree.Rep.addAll hop0 ws vs t0 (leafOf vs identity) hrep rfl rfl hlen.symm
      (fun k hk => leafOf_spec vs identity k (by omega) (by omega))
  have hopt : Lawful t.oper t.identity := by rw [hopert, hidt]; exact hop0
  have hle := hrept.len_le
  refine ⟨t0, t, hnew, hall, ?_, ?_, ?_⟩
  · show t.length = _
    rw [← hlent]
    simp
  · intro k hk
    rw [hrept.get hopt k (by omega) (by omega)]
    have := hleaf k hk
    rw [List.getElem?_eq_getElem hk] at this
    rw [Option.some.inj this]
  · obtain ⟨r, hq, hr⟩ := hrept.queryRange 0 (t.size - 1)
    rw [hq, hr hopt]
    have hpos : 0 < vs.length := List.length_pos.mpr hne
    have hsz : t.size = ((vs ++ ws).length : Int) := hlent.symm
    have e1 : max (0 : Int) 0 = 0 := by omega
    have e2 : min (t.size - 1) (t.capacity - 1) = ((vs ++ ws).length : Int) - 1 := by
      have : t.size = t.length := rfl
      omega
    rw [e1, e2, hopert, hidt, hoper, hid, ← foldSlice_all]
    congr 1
    apply foldRange_eq_foldSlice _ _ _ _ _ _ (le_refl _)
    intro k _ h2
    exact hleaf k (by omega)

theorem C3_append_sequence_witness :
    ([3, 4, 5] : List Int) ≠ [] ∧ Lawful AddOperator 0 ∧
    ∃ t0 t, SegmentTree.new [3, 4, 5] AddOperator 0 = .ok t0 ∧
      t0.addAll [10, 20] = .ok t ∧
      t.size = (([3, 4, 5] : List Int).length : Int) + ([10, 20] : List Int).length ∧
      (∀ (k : Nat) (h : k < ([3, 4, 5] ++ [10, 20] : List Int).length),
        t.get (k : Int) = .ok ([3, 4, 5] ++ [10, 20] : List Int)[k]) ∧
      t.queryRange 0 (t.size - 1)
        = .ok (([3, 4, 5] ++ [10, 20] : List Int).foldl AddOperator.apply 0) :=
  ⟨by decide, addOperator_lawful,
    C3_append_sequence [3, 4, 5] [10, 20] AddOperator 0 (by decide) addOperator_lawful⟩

/-- C7: the aggregate invariant holds in every reachable state of `SegmentTree`, that is
after a finished construction and after every `set(i, v)` with `0 <= i < capacity` and
every `add(v)`; construction from a non-empty sequence, such a `set` and `add` (with or
without a resize) all return, so the invariant holds after each of them. -/
theorem C7_aggregate_invariant :
    (∀ t : SegmentTree T, t.Reachable → t.AggregateInvariant) ∧
    (∀ (vs : List T) (op : Operator T) (identity : T), vs ≠ [] →
      ∃ t, SegmentTree.new vs op identity = .ok t ∧ t.AggregateInvariant) ∧
    (∀ (t : SegmentTree T) (i : Int) (v : T), t.Reachable → 0 ≤ i → i < t.capacity →
      ∃ t', t.set i v = .ok t' ∧ t'.AggregateInvariant) ∧
    (∀ (t : SegmentTree T) (v : T), t.Reachable →
      ∃ t', t.add v = .ok t' ∧ t'.AggregateInvariant ∧
        (t.length = t.capacity → t'.capacity = 2 * t.capacity + 1)) := by
  refine ⟨?_, ?_, ?_, ?_⟩
  · intro t hr
    obtain ⟨leaf, hrep⟩ := hr.rep
    exact hrep.aggregateInvariant
  · intro vs op identity hne
    obtain ⟨t, hnew, _, _, _, _, hrep⟩ := SegmentTree.new_spec vs op identity hne identity
    exact ⟨t, hnew, hrep.aggregateInvariant⟩
  · intro t i v hr h0 h1
    obtain ⟨leaf, hrep⟩ := hr.rep
    obtain ⟨t', hs, _, _, _, _, hrep'⟩ := hrep.set i v h0 h1
    exact ⟨t', hs, hrep'.aggregateInvariant⟩
  · intro t v hr
    obtain ⟨leaf, hrep⟩ := hr.rep
    obtain ⟨t', leaf', ha, _, hcap, _, _, hrep', _⟩ := hrep.add v
    refine ⟨t', ha, hrep'.aggregateInvariant, ?_⟩
    intro hfull
    rw [hcap]
    simp [hfull]

theorem C7_aggregate_invariant_witness :
    sampleTree.Reachable ∧ sampleTree.AggregateInvariant ∧
    ∃ t', sampleTree.add 10 = .ok t' ∧ t'.AggregateInvariant ∧
      (sampleTree.length = sampleTree.capacity → t'.capacity = 2 * sampleTree.capacity + 1) :=
  ⟨sampleTree_reachable,
    (C7_aggregate_invariant (T := Int)).1 sampleTree sampleTree_reachable,
    (C7_aggregate_invariant (T := Int)).2.2.2 sampleTree 10 sampleTree_reachable⟩

/-- C8: on every `SegmentTree` and for every integer `index`, `get(index)` fails with
the index-out-of-bounds error exactly when `index < 0` or `index >= length`, and
otherwise it is `queryRange(index, index)`; `get` only reads the tree (it yields a value,
never a new tree state). -/
theorem C8_get_bounds (t : SegmentTree T) (index : Int) :
    ((∃ e, t.get index = .error (.indexOutOfBounds e)) ↔ (index < 0 ∨ index ≥ t.length)) ∧
    ((index < 0 ∨ index ≥ t.length) → t.get index = .error (.indexOutOfBounds index)) ∧
    (¬ (index < 0 ∨ index ≥ t.length) → t.get index = t.queryRange index index) := by
  have hin : ¬ (index < 0 ∨ index ≥ t.length) → t.get index = t.queryRange index index := by
    intro h
    unfold SegmentTree.get
    simp only [h, if_false]
  have hout : (index < 0 ∨ index ≥ t.length) →
      t.get index = .error (.indexOutOfBounds index) := by
    intro h
    unfold SegmentTree.get
    simp only [h, if_true]
  refine ⟨⟨?_, fun h => ⟨index, hout h⟩⟩, hout, hin⟩
  rintro ⟨e, he⟩
  by_contra hc
  rw [hin hc] at he
  exact queryRangeNode_not_indexOutOfBounds _ _ _ e _ _ _ _ _ _ he

/-! ## Counting removed slots -/

theorem deletedUpTo_neg (del : Int → Int) {p : Int} (h : p < 0) : deletedUpTo del p = 0 := by
  unfold deletedUpTo
  exact foldRange_empty _ _ _ h

theorem deletedUpTo_succ (del : Int → Int) {p : Int} (h : 0 ≤ p) :
    deletedUpTo del p = deletedUpTo del (p - 1) + del p := by
  unfold deletedUpTo foldRange
  have e : (p - 0 + 1).toNat = (p - 1 - 0 + 1).toNat + 1 := by omega
  rw [e]
  simp only [foldFrom, AddOperator]
  have e2 : (0 : Int) + ((p - 1 - 0 + 1).toNat : Int) = p := by omega
  rw [e2]

theorem deletedUpTo_update (del : Int → Int) (p0 x : Int) (h0 : 0 ≤ p0) :
    ∀ n : Nat, deletedUpTo (Function.update del p0 x) ((n : Int) - 1)
      = deletedUpTo del ((n : Int) - 1) + (if p0 ≤ (n : Int) - 1 then x - del p0 else 0) := by
  intro n
  induction n with
  | zero =>
    have hn : ¬ p0 ≤ ((0 : Nat) : Int) - 1 := by omega
    rw [deletedUpTo_neg _ (by omega), deletedUpTo_neg _ (by omega), if_neg hn]
    rfl
  | succ n ih =>
    have e : (((n + 1 : Nat) : Int) - 1) = (n : Int) := by omega
    rw [e, deletedUpTo_succ _ (by omega), deletedUpTo_succ del (by omega), ih]
    by_cases h1 : p0 ≤ (n : Int) - 1
    · have h2 : p0 ≤ (n : Int) := by omega
      have h3 : (n : Int) ≠ p0 := by omega
      simp [h1, h2, h3]
      omega
    · by_cases h2 : p0 = (n : Int)
      · subst h2
        simp
      · have h3 : ¬ p0 ≤ (n : Int) := by omega
        have h4 : (n : Int) ≠ p0 := by omega
        simp [h1, h3, h4]

theorem deletedUpTo_update_int (del : Int → Int) (p0 x : Int) (h0 : 0 ≤ p0) (q : Int) :
    deletedUpTo (Function.update del p0 x) q
      = deletedUpTo del q + (if p0 ≤ q then x - del p0 else 0) := by
  by_cases hq : q < 0
  · have : ¬ p0 ≤ q := by omega
    rw [deletedUpTo_neg _ hq, deletedUpTo_neg _ hq]
    simp [this]
  · have := deletedUpTo_update del p0 x h0 (q + 1).toNat
    have e : (((q + 1).toNat : Nat) : Int) - 1 = q := by omega
    rw [e] at this
    exact this

/-- With flags 0 or 1 the number of live slots among `0 .. p`, less one, does not
decrease with `p`. -/
theorem live_mono (del : Int → Int) (n : Int)
    (hflags : ∀ p, 0 ≤ p → p < n → del p = 0 ∨ del p = 1) :
    ∀ (k : Nat) (p : Int), p + k < n →
      p - deletedUpTo del p ≤ (p + k) - deletedUpTo del (p + k) := by
  intro k
  induction k with
  | zero => intro p _; simp
  | succ k ih =>
    intro p hp
    have h1 := ih p (by push_cast at hp; omega)
    have e : p + ((k + 1 : Nat) : Int) = p + k + 1 := by push_cast; ring
    rw [e]
    by_cases hneg : p + k + 1 < 0
    · rw [deletedUpTo_neg _ hneg]
      rw [deletedUpTo_neg _ (by omega : p + (k : Int) < 0)] at h1
      omega
    · rw [deletedUpTo_succ _ (by omega : 0 ≤ p + k + 1)]
      have e2 : p + (k : Int) + 1 - 1 = p + k := by omega
      rw [e2]
      rcases hflags (p + k + 1) (by omega) (by push_cast at hp; omega) with h | h <;> omega

theorem live_le (del : Int → Int) (n : Int)
    (hflags : ∀ p, 0 ≤ p → p < n → del p = 0 ∨ del p = 1) {p q : Int} (hpq : p ≤ q)
    (hq : q < n) : p - deletedUpTo del p ≤ q - deletedUpTo del q := by
  have := live_mono del n hflags (q - p).toNat p (by omega)
  have e : p + (((q - p).toNat : Nat) : Int) = q := by omega
  rw [e] at this
  exact this

theorem deletedUpTo_nonneg (del : Int → Int) (n : Int)
    (hflags : ∀ p, 0 ≤ p → p < n → del p = 0 ∨ del p = 1) :
    ∀ (k : Nat), (k : Int) - 1 < n → 0 ≤ deletedUpTo del ((k : Int) - 1) := by
  intro k
  induction k with
  | zero => intro _; rw [deletedUpTo_neg _ (by omega)]
  | succ k ih =>
    intro hk
    have e : (((k + 1 : Nat) : Int) - 1) = (k : Int) := by omega
    rw [e] at hk ⊢
    rw [deletedUpTo_succ _ (by omega)]
    have := ih (by omega)
    rcases hflags k (by omega) hk with h | h <;> omega

/-! ## Index translation -/

theorem deleted_queryRange {d : SegmentTree Int} {del : Int → Int} (hrep : d.Rep del)
    (hoper : d.oper = AddOperator) (hid : d.identity = 0) (mid : Int)
    (hmid : mid < d.capacity) : d.queryRange 0 mid = .ok (deletedUpTo del mid) := by
  obtain ⟨r, hq, hr⟩ := hrep.queryRange 0 mid
  have hop : Lawful d.oper d.identity := by rw [hoper, hid]; exact addOperator_lawful
  rw [hq, hr hop, hoper, hid]
  have e1 : max (0 : Int) 0 = 0 := by omega
  have e2 : min mid (d.capacity - 1) = mid := by omega
  rw [e1, e2]
  rfl

/-- The binary search of `getTrueIndex` returns; below its result every slot has too few
live slots up to it, from its result on every slot has enough. -/
theorem getTrueIndexLoop_spec {d : SegmentTree Int} {del : Int → Int} (hrep : d.Rep del)
    (hoper : d.oper = AddOperator) (hid : d.identity = 0) (n : Int) (hn : n ≤ d.capacity)
    (hflags : ∀ p, 0 ≤ p → p < n → del p = 0 ∨ del p = 1) (index : Int) :
    ∀ (fuel : Nat) (low high : Int), high < n → (high - low + 1).toNat ≤ fuel →
      ∃ r, SegmentTreeDeletable.getTrueIndexLoop d index fuel low high = .ok r ∧ low ≤ r ∧
        (low ≤ high + 1 → r ≤ high + 1) ∧
        (∀ p, low ≤ p → p < r → p - deletedUpTo del p < index) ∧
        (∀ p, r ≤ p → p ≤ high → index ≤ p - deletedUpTo del p) := by
  intro fuel
  induction fuel with
  | zero =>
    intro low high _ hfuel
    have hlh : ¬ low ≤ high := by omega
    refine ⟨low, ?_, le_refl _, fun h => h, ?_, ?_⟩
    · simp [SegmentTreeDeletable.getTrueIndexLoop, hlh]
    · intro p h1 h2; omega
    · intro p h1 h2; omega
  | succ fuel ih =>
    intro low high hhigh hfuel
    unfold SegmentTreeDeletable.getTrueIndexLoop
    by_cases hlh : low ≤ high
    · simp only [hlh, if_true]
      have hmid : low + Int.tdiv (high - low) 2 = low + (high - low) / 2 := by
        rw [Int.tdiv_eq_ediv] <;> omega
      rw [hmid]
      have hm1 : low ≤ low + (high - low) / 2 := by omega
      have hm2 : low + (high - low) / 2 ≤ high := by omega
      generalize low + (high - low) / 2 = mid at hm1 hm2
      rw [deleted_queryRange hrep hoper hid mid (by omega)]
      simp only [bind, Except.bind]
      by_cases hc : mid - index < deletedUpTo del mid
      · simp only [hc, if_true]
        obtain ⟨r, hr, h1, h2, h3, h4⟩ := ih (mid + 1) high hhigh (by omega)
        refine ⟨r, hr, by omega, fun _ => h2 (by omega), ?_, h4⟩
        intro p p1 p2
        by_cases hp : mid + 1 ≤ p
        · exact h3 p hp p2
        · have := live_le del n hflags (p := p) (q := mid) (by omega) (by omega)
          omega
      · simp only [hc, if_false]
        obtain ⟨r, hr, h1, h2, h3, h4⟩ := ih low (mid - 1) (by omega) (by omega)
        refine ⟨r, hr, h1, fun _ => by have := h2 (by omega); omega, h3, ?_⟩
        intro p p1 p2
        by_cases hp : p ≤ mid - 1
        · exact h4 p p1 hp
        · have := live_le del n hflags (p := mid) (q := p) (by omega) (by omega)
          omega
    · simp only [hlh, if_false]
      refine ⟨low, rfl, le_refl _, fun h => h, ?_, ?_⟩
      · intro p h1 h2; omega
      · intro p h1 h2; omega

theorem Phys.unique {del : Int → Int} {n : Int}
    (hflags : ∀ p, 0 ≤ p → p < n → del p = 0 ∨ del p = 1) {i p q : Int}
    (hp : Phys del i p) (hq : Phys del i q) (hpn : p < n) (hqn : q < n) : p = q := by
  obtain ⟨p0, p1, p2⟩ := hp
  obtain ⟨q0, q1, q2⟩ := hq
  by_contra hne
  rcases lt_or_gt_of_ne hne with h | h
  · have h1 := live_le del n hflags (p := p) (q := q - 1) (by omega) (by omega)
    have h2 := deletedUpTo_succ del q0
    omega
  · have h1 := live_le del n hflags (p := q) (q := p - 1) (by omega) (by omega)
    have h2 := deletedUpTo_succ del p0
    omega

theorem Phys.lt {del : Int → Int} {n : Int}
    (hflags : ∀ p, 0 ≤ p → p < n → del p = 0 ∨ del p = 1) {i j p q : Int}
    (hp : Phys del i p) (hq : Phys del j q) (hpn : p < n) (hij : i < j) :
    p < q := by
  obtain ⟨p0, p1, p2⟩ := hp
  obtain ⟨q0, q1, q2⟩ := hq
  by_contra hge
  have h1 := live_le del n hflags (p := q) (q := p) (by omega) hpn
  omega

theorem deletedUpTo_nonneg_int (del : Int → Int) (n : Int)
    (hflags : ∀ p, 0 ≤ p → p < n → del p = 0 ∨ del p = 1) {q : Int} (hq : q < n) :
    0 ≤ deletedUpTo del q := by
  by_cases hneg : q < 0
  · rw [deletedUpTo_neg _ hneg]
  · have := deletedUpTo_nonneg del n hflags (q + 1).toNat (by omega)
    have e : (((q + 1).toNat : Nat) : Int) - 1 = q := by omega
    rw [e] at this
    exact this

theorem SegmentTreeDeletable.Rep.length_le {s : SegmentTreeDeletable T} {val : Int → T}
    {del : Int → Int} (h : s.Rep val del) : s.length ≤ s.tree.length := by
  have := deletedUpTo_nonneg_int del s.tree.length h.flags
    (q := s.tree.length - 1) (by omega)
  have := h.length_eq
  omega

/-- For a logical index inside `[0, length)`, `getTrueIndex` returns the physical slot
of that logical index. -/
theorem SegmentTreeDeletable.Rep.getTrueIndex_in {s : SegmentTreeDeletable T}
    {val : Int → T} {del : Int → Int} (h : s.Rep val del) (i : Int) (h0 : 0 ≤ i)
    (h1 : i < s.length) :
    ∃ p, s.getTrueIndex i = .ok p ∧ Phys del i p ∧ p < s.tree.length := by
  have hn : s.tree.length ≤ s.deletedIndices.capacity := by
    have := h.deleted.len_le
    rw [h.same_length] at this
    exact this
  have hlen := h.length_le
  have hleq := h.length_eq
  obtain ⟨r, hr, r1, r2, r3, r4⟩ :=
    getTrueIndexLoop_spec h.deleted h.del_oper h.del_identity s.tree.length hn h.flags i
      (s.tree.size - 1 - i + 1).toNat i (s.tree.size - 1)
      (by show s.tree.length - 1 < _; omega) (le_refl _)
  have hsz : s.tree.size = s.tree.length := rfl
  rw [hsz] at r2 r4
  have hrn : r ≤ s.tree.length - 1 := by
    by_contra hc
    have := r3 (s.tree.length - 1) (by omega) (by omega)
    omega
  have hge := r4 r (le_refl _) hrn
  have hsucc := deletedUpTo_succ del (by omega : 0 ≤ r)
  have hnn := deletedUpTo_nonneg_int del s.tree.length h.flags
    (q := r - 1) (by omega)
  have hfl := h.flags r (by omega) (by omega)
  have hprev : r = i ∨ r - 1 - deletedUpTo del (r - 1) < i := by
    by_cases hri : r = i
    · exact Or.inl hri
    · exact Or.inr (r3 (r - 1) (by omega) (by omega))
  refine ⟨r, hr, ⟨by omega, ?_, ?_⟩, by omega⟩
  · rcases hfl with hf | hf
    · exact hf
    · rcases hprev with hp | hp <;> omega
  · rcases hfl with hf | hf <;> rcases hprev with hp | hp <;> omega

/-- For a logical index outside `[0, length)`, `getTrueIndex` returns a physical index
outside the populated slots. -/
theorem SegmentTreeDeletable.Rep.getTrueIndex_out {s : SegmentTreeDeletable T}
    {val : Int → T} {del : Int → Int} (h : s.Rep val del) (i : Int)
    (hout : i < 0 ∨ s.length ≤ i) :
    ∃ p, s.getTrueIndex i = .ok p ∧ (p < 0 ∨ s.tree.length ≤ p) := by
  have hn : s.tree.length ≤ s.deletedIndices.capacity := by
    have := h.deleted.len_le
    rw [h.same_length] at this
    exact this
  have hlen := h.length_le
  have hleq := h.length_eq
  have hl0 := h.value.len_nonneg
  obtain ⟨r, hr, r1, r2, r3, r4⟩ :=
    getTrueIndexLoop_spec h.deleted h.del_oper h.del_identity s.tree.length hn h.flags i
      (s.tree.size - 1 - i + 1).toNat i (s.tree.size - 1)
      (by show s.tree.length - 1 < _; omega) (le_refl _)
  have hsz : s.tree.size = s.tree.length := rfl
  rw [hsz] at r2 r4
  refine ⟨r, hr, ?_⟩
  rcases hout with hneg | hbig
  · left
    by_contra hc
    have h3 := r3 i (le_refl _) (by omega)
    rw [deletedUpTo_neg _ hneg] at h3
    omega
  · right
    by_contra hc
    have h4 := r4 r (le_refl _) (by omega)
    have h5 := live_le del s.tree.length h.flags (p := r) (q := s.tree.length - 1)
      (by omega) (by omega)
    omega

/-! ## The representation invariant of `SegmentTreeDeletable` is preserved -/

theorem foldRange_identity {op : Operator T} {identity : T} (hop : Lawful op identity)
    (leaf : Int → T) (a : Int) :
    ∀ (n : Nat), (∀ i, a ≤ i → i < a + n → leaf i = identity) →
      foldFrom op identity leaf a n = identity := by
  intro n
  induction n with
  | zero => intro _; rfl
  | succ n ih =>
    intro h
    simp only [foldFrom]
    rw [ih (fun i h1 h2 => h i h1 (by omega)), h (a + n) (by omega) (by omega), hop.left_id]

theorem deletedUpTo_congr {del del' : Int → Int} (q : Int)
    (h : ∀ i, 0 ≤ i → i ≤ q → del' i = del i) : deletedUpTo del' q = deletedUpTo del q := by
  unfold deletedUpTo
  exact foldRange_congr _ _ _ _ h

theorem deletedUpTo_zero {del : Int → Int} (q : Int) (h : ∀ i, 0 ≤ i → i ≤ q → del i = 0) :
    deletedUpTo del q = 0 := by
  unfold deletedUpTo foldRange
  apply foldRange_identity addOperator_lawful
  intro i h1 h2
  exact h i h1 (by omega)

theorem leafOf_replicate (n : Nat) (x : T) (i : Int) :
    leafOf (List.replicate n x) x i = x := by
  unfold leafOf
  split
  · rfl
  · rw [List.getElem?_replicate]
    split <;> rfl

theorem SegmentTreeDeletable.new_rep (vs : List T) (op : Operator T) (identity : T)
    (hne : vs ≠ []) :
    ∃ s, SegmentTreeDeletable.new vs op identity = .ok s ∧
      SegmentTree.new vs op identity = .ok s.tree ∧
      s.Rep (leafOf vs identity) (fun _ => 0) ∧ s.length = vs.length ∧
      s.tree.oper = op ∧ s.tree.identity = identity := by
  obtain ⟨t, hnew, hlen, hcap, hoper, hid, hrep⟩ :=
    SegmentTree.new_spec vs op identity hne identity
  have hne' : List.replicate vs.length (0 : Int) ≠ [] := by
    intro h0
    have := congrArg List.length h0
    simp at this
    exact hne this
  obtain ⟨d, hnewd, hlend, hcapd, hoperd, hidd, hrepd⟩ :=
    SegmentTree.new_spec (List.replicate vs.length (0 : Int)) AddOperator 0 hne' 0
  have hdel : leafOf (List.replicate vs.length (0 : Int)) 0 = fun _ => 0 := by
    funext i
    exact leafOf_replicate _ _ _
  rw [hdel] at hrepd
  refine ⟨⟨t, d, vs.length, identity⟩, ?_, hnew, ?_, rfl, hoper, hid⟩
  · unfold SegmentTreeDeletable.new
    simp only [bind, Except.bind, hnew, hnewd]
  · refine ⟨hrep, hrepd, hoperd, hidd, ?_, ?_, ?_, ?_, ?_, ?_⟩
    · show d.length = t.length
      rw [hlend, hlen]; simp
    · show d.capacity = t.capacity
      rw [hcapd, hcap]; simp
    · intro p _ _; exact Or.inl rfl
    · show (vs.length : Int) = t.length - _
      rw [deletedUpTo_zero _ (fun _ _ _ => rfl), hlen]
      simp
    · exact hid.symm
    · intro _ p _ _ h1
      simp at h1

theorem SegmentTreeDeletable.Rep.add_step {s : SegmentTreeDeletable T} {val : Int → T}
    {del : Int → Int} (h : s.Rep val del) (value : T) :
    ∃ s' val' del', s.add value = .ok s' ∧ s'.Rep val' del' ∧ s'.length = s.length + 1 ∧
      s'.tree.length = s.tree.length + 1 ∧ s'.tree.oper = s.tree.oper ∧
      s'.tree.identity = s.tree.identity ∧
      s.tree.add value = .ok s'.tree ∧ s.deletedIndices.add 0 = .ok s'.deletedIndices ∧
      val' s.tree.length = value ∧ del' s.tree.length = 0 ∧
      (∀ i, 0 ≤ i → i < s.tree.length → del' i = del i) ∧
      (Lawful s.tree.oper s.tree.identity →
        ∀ i, 0 ≤ i → i < s.tree.length → val' i = val i) := by
  obtain ⟨t', val', ht, hlen, hcap, hoper, hid, hrep, hnew, _, hold⟩ := h.value.add value
  obtain ⟨d', del', hd, hlend, hcapd, hoperd, hidd, hrepd, hnewd, _, holdd⟩ :=
    h.deleted.add 0
  have hopd : Lawful s.deletedIndices.oper s.deletedIndices.identity := by
    rw [h.del_oper, h.del_identity]; exact addOperator_lawful
  have hl0 := h.value.len_nonneg
  have hsl := h.same_length
  have hsc := h.same_capacity
  have holdd' : ∀ i, 0 ≤ i → i < s.tree.length → del' i = del i := by
    intro i i0 i1
    exact holdd hopd i i0 (by omega)
  refine ⟨{ s with tree := t', deletedIndices := d', length := s.length + 1 }, val', del',
    ?_, ?_, rfl, hlen, hoper, hid, ht, hd, hnew, by rw [← hsl]; exact hnewd, holdd', hold⟩
  · unfold SegmentTreeDeletable.add
    simp only [bind, Except.bind, ht, hd]
  · refine ⟨hrep, hrepd, by rw [hoperd, h.del_oper], by rw [hidd, h.del_identity],
      ?_, ?_, ?_, ?_, ?_, ?_⟩
    · show d'.length = t'.length
      omega
    · show d'.capacity = t'.capacity
      rw [hcapd, hcap, hsl, hsc]
    · intro p p0 p1
      have p1' : p < t'.length := p1
      by_cases hp : p < s.tree.length
      · rw [holdd' p p0 hp]
        exact h.flags p p0 hp
      · have : p = s.deletedIndices.length := by omega
        rw [this, hnewd]
        exact Or.inl rfl
    · show s.length + 1 = t'.length - deletedUpTo del' (t'.length - 1)
      rw [hlen, deletedUpTo_succ _ (by omega : 0 ≤ s.tree.length + 1 - 1)]
      have e : s.tree.length + 1 - 1 = s.tree.length := by omega
      rw [e, ← hsl, hnewd, hsl]
      rw [deletedUpTo_congr (s.tree.length - 1)
        (fun i i0 i1 => holdd' i i0 (by omega))]
      have := h.length_eq
      omega
    · show s.identity = t'.identity
      rw [hid]
      exact h.identity_eq
    · intro hop p p0 p1 hp1
      have hop' : Lawful s.tree.oper s.tree.identity := by
        have : Lawful t'.oper t'.identity := hop
        rw [hoper, hid] at this
        exact this
      have p1' : p < t'.length := p1
      show val' p = t'.identity
      by_cases hp : p < s.tree.length
      · rw [hold hop' p p0 hp, hid]
        rw [holdd' p p0 hp] at hp1
        exact h.tombstone hop' p p0 hp hp1
      · have : p = s.deletedIndices.length := by omega
        rw [this, hnewd] at hp1
        omega

theorem SegmentTreeDeletable.Rep.set_step {s : SegmentTreeDeletable T} {val : Int → T}
    {del : Int → Int} (h : s.Rep val del) (i : Int) (value : T) (h0 : 0 ≤ i)
    (h1 : i < s.length) :
    ∃ s' p, s.getTrueIndex i = .ok p ∧ Phys del i p ∧ p < s.tree.length ∧
      s.set i value = .ok s' ∧ s'.Rep (Function.update val p value) del ∧
      s'.length = s.length ∧ s'.tree.length = s.tree.length ∧
      s'.tree.oper = s.tree.oper ∧ s'.tree.identity = s.tree.identity ∧
      s'.deletedIndices = s.deletedIndices := by
  obtain ⟨p, hp, hphys, hpn⟩ := h.getTrueIndex_in i h0 h1
  have hle := h.value.len_le
  obtain ⟨t', hs, hlen, hcap, hoper, hid, hrep⟩ :=
    h.value.set p value hphys.1 (by omega)
  refine ⟨{ s with tree := t' }, p, hp, hphys, hpn, ?_, ?_, rfl, hlen, hoper, hid, rfl⟩
  · unfold SegmentTreeDeletable.set
    simp only [bind, Except.bind, hp, hs]
  · refine ⟨hrep, h.deleted, h.del_oper, h.del_identity, ?_, ?_, ?_, ?_, ?_, ?_⟩
    · show s.deletedIndices.length = t'.length
      rw [hlen]; exact h.same_length
    · show s.deletedIndices.capacity = t'.capacity
      rw [hcap]; exact h.same_capacity
    · intro q q0 q1
      exact h.flags q q0 (by rw [← hlen]; exact q1)
    · show s.length = t'.length - deletedUpTo del (t'.length - 1)
      rw [hlen]; exact h.length_eq
    · show s.identity = t'.identity
      rw [hid]; exact h.identity_eq
    · intro hop q q0 q1 hq
      have hop' : Lawful s.tree.oper s.tree.identity := by
        have : Lawful t'.oper t'.identity := hop
        rw [hoper, hid] at this
        exact this
      have q1' : q < s.tree.length := by rw [← hlen]; exact q1
      have hqp : q ≠ p := by
        intro e
        rw [e, hphys.2.1] at hq
        omega
      show Function.update val p value q = t'.identity
      rw [Function.update_noteq hqp, hid]
      exact h.tombstone hop' q q0 q1' hq

theorem SegmentTreeDeletable.Rep.remove_step {s : SegmentTreeDeletable T} {val : Int → T}
    {del : Int → Int} (h : s.Rep val del) (i : Int) (h0 : 0 ≤ i) (h1 : i < s.length) :
    ∃ s' p, s.getTrueIndex i = .ok p ∧ Phys del i p ∧ p < s.tree.length ∧
      s.remove i = .ok s' ∧
      s'.Rep (Function.update val p s.tree.identity) (Function.update del p 1) ∧
      s'.length = s.length - 1 ∧ s'.tree.length = s.tree.length ∧
      s'.tree.oper = s.tree.oper ∧ s'.tree.identity = s.tree.identity ∧
      s'.tree.capacity = s.tree.capacity := by
  obtain ⟨p, hp, hphys, hpn⟩ := h.getTrueIndex_in i h0 h1
  have hle := h.value.len_le
  have hsl := h.same_length
  have hsc := h.same_capacity
  obtain ⟨t', hs, hlen, hcap, hoper, hid, hrep⟩ :=
    h.value.set p s.identity hphys.1 (by omega)
  obtain ⟨d', hsd, hlend, hcapd, hoperd, hidd, hrepd⟩ :=
    h.deleted.set p 1 hphys.1 (by omega)
  rw [h.identity_eq] at hrep
  refine ⟨{ s with tree := t', deletedIndices := d', length := s.length - 1 }, p, hp, hphys,
    hpn, ?_, ?_, rfl, hlen, hoper, hid, hcap⟩
  · unfold SegmentTreeDeletable.remove
    simp only [bind, Except.bind, hp, hs, hsd]
  · refine ⟨hrep, hrepd, by rw [hoperd, h.del_oper], by rw [hidd, h.del_identity],
      ?_, ?_, ?_, ?_, ?_, ?_⟩
    · show d'.length = t'.length
      omega
    · show d'.capacity = t'.capacity
      omega
    · intro q q0 q1
      have q1' : q < s.tree.length := by rw [← hlen]; exact q1
      by_cases hqp : q = p
      · right; rw [hqp]; simp
      · rw [Function.update_noteq hqp]
        exact h.flags q q0 q1'
    · show s.length - 1 = t'.length - deletedUpTo (Function.update del p 1) (t'.length - 1)
      rw [hlen, deletedUpTo_update_int del p 1 hphys.1]
      have hc : p ≤ s.tree.length - 1 := by omega
      rw [if_pos hc, hphys.2.1]
      have := h.length_eq
      omega
    · show s.identity = t'.identity
      rw [hid]; exact h.identity_eq
    · intro hop q q0 q1 hq
      have hop' : Lawful s.tree.oper s.tree.identity := by
        have : Lawful t'.oper t'.identity := hop
        rw [hoper, hid] at this
        exact this
      have q1' : q < s.tree.length := by rw [← hlen]; exact q1
      show Function.update val p s.tree.identity q = t'.identity
      by_cases hqp : q = p
      · rw [hqp, hid]; simp
      · rw [Function.update_noteq hqp] at hq ⊢
        rw [hid]
        exact h.tombstone hop' q q0 q1' hq

theorem SegmentTreeDeletable.new_empty (op : Operator T) (identity : T) :
    SegmentTreeDeletable.new ([] : List T) op identity = .error .badArrayLength := rfl

theorem SegmentTreeDeletable.Reachable.rep_deletable {s : SegmentTreeDeletable T} (h : s.Reachable) :
    ∃ val del, s.Rep val del := by
  induction h with
  | new vs op identity s hnew =>
    have hne : vs ≠ [] := by
      intro h0
      subst h0
      rw [SegmentTreeDeletable.new_empty] at hnew
      cases hnew
    obtain ⟨s', hs', _, hrep, _⟩ := SegmentTreeDeletable.new_rep vs op identity hne
    rw [hnew] at hs'
    cases hs'
    exact ⟨_, _, hrep⟩
  | add s v s' _ hs ih =>
    obtain ⟨val, del, hrep⟩ := ih
    obtain ⟨s2, val2, del2, hs2, hrep2, _⟩ := hrep.add_step v
    rw [hs] at hs2
    cases hs2
    exact ⟨_, _, hrep2⟩
  | set s i v s' _ h0 h1 hs ih =>
    obtain ⟨val, del, hrep⟩ := ih
    obtain ⟨s2, p, _, _, _, hs2, hrep2, _⟩ := hrep.set_step i v h0 h1
    rw [hs] at hs2
    cases hs2
    exact ⟨_, _, hrep2⟩
  | remove s i s' _ h0 h1 hs ih =>
    obtain ⟨val, del, hrep⟩ := ih
    obtain ⟨s2, p, _, _, _, hs2, hrep2, _⟩ := hrep.remove_step i h0 h1
    rw [hs] at hs2
    cases hs2
    exact ⟨_, _, hrep2⟩

/-! ## Queries on two trees of the same shape -/

/-- The root value of a well-formed subtree is determined by its leaves. -/
theorem Node.value_congr {op : Operator T} {tree tree' : List (Option T)}
    {leaf leaf' : Int → T} {node rs re : Int} {v : T}
    (h : Node op tree leaf node rs re v) :
    ∀ {v' : T}, Node op tree' leaf' node rs re v' →
      (∀ i, rs ≤ i → i ≤ re → leaf' i = leaf i) → v' = v := by
  induction h with
  | leaf node rs hc =>
    intro v' h' hag
    cases h' with
    | leaf _ _ _ => exact hag rs (le_refl _) (le_refl _)
    | inner _ _ _ _ _ hlt _ _ _ => omega
  | inner node rs re vl vr hlt hl hr hc ihl ihr =>
    intro v' h' hag
    obtain ⟨hm1, hm2⟩ := getMid_bounds hlt
    cases h' with
    | leaf _ _ _ => omega
    | inner _ _ _ vl' vr' _ hl' hr' _ =>
      rw [ihl hl' (fun i i1 i2 => hag i i1 (by omega)),
        ihr hr' (fun i i1 i2 => hag i (by omega) i2)]

/-- The recursive query gives the same result on two well-formed subtrees of the same
shape whose leaves agree on the intersection of query and range. -/
theorem Node.query_congr {op : Operator T} (identity : T) {tree tree' : List (Option T)}
    {leaf leaf' : Int → T} {node rs re : Int} {v : T}
    (h : Node op tree leaf node rs re v) (qs qe : Int) :
    ∀ {v' : T}, Node op tree' leaf' node rs re v' →
      (∀ i, qs ≤ i → rs ≤ i → i ≤ qe → i ≤ re → leaf' i = leaf i) →
      ∀ fuel : Nat, queryRangeNode op identity tree' fuel qs qe rs re node
        = queryRangeNode op identity tree fuel qs qe rs re node := by
  induction h with
  | leaf node rs hc =>
    intro v' h' hag fuel
    cases fuel with
    | zero => rfl
    | succ f =>
      unfold queryRangeNode
      by_cases hfull : qs ≤ rs ∧ rs ≤ qe
      · simp only [hfull, and_self, if_true]
        rw [readCell_of_cell hc, readCell_of_cell h'.root]
        have := Node.value_congr (Node.leaf _ _ hc) h'
          (fun i i1 i2 => hag i (by omega) i1 (by omega) i2)
        rw [this]
      · simp only [hfull, if_false]
        have hno : qs > rs ∨ rs > qe := by omega
        simp only [hno, if_true]
  | inner node rs re vl vr hlt hl hr hc ihl ihr =>
    intro v' h' hag fuel
    obtain ⟨hm1, hm2⟩ := getMid_bounds hlt
    cases fuel with
    | zero => rfl
    | succ f =>
      unfold queryRangeNode
      by_cases hfull : qs ≤ rs ∧ re ≤ qe
      · simp only [hfull, and_self, if_true]
        rw [readCell_of_cell hc, readCell_of_cell h'.root]
        have := Node.value_congr (Node.inner _ _ _ _ _ hlt hl hr hc) h'
          (fun i i1 i2 => hag i (by omega) i1 (by omega) i2)
        rw [this]
      · simp only [hfull, if_false]
        cases h' with
        | leaf _ _ _ => omega
        | inner _ _ _ vl' vr' _ hl' hr' _ =>
          rw [ihl hl' (fun i i1 i2 i3 i4 => hag i i1 i2 i3 (by omega)) f,
            ihr hr' (fun i i1 i2 i3 i4 => hag i i1 (by omega) i3 i4) f]

/-- Reading slot `q` gives the same result on two represented trees of the same size
whose leaves agree at `q`. -/
theorem SegmentTree.Rep.get_congr {t t' : SegmentTree T} {leaf leaf' : Int → T}
    (h : t.Rep leaf) (h' : t'.Rep leaf') (hlen : t'.length = t.length)
    (hcap : t'.capacity = t.capacity) (hoper : t'.oper = t.oper)
    (hid : t'.identity = t.identity) (q : Int) (hq : leaf' q = leaf q) :
    t'.get q = t.get q := by
  unfold SegmentTree.get
  rw [hlen]
  split
  · rfl
  · unfold SegmentTree.queryRange
    obtain ⟨v, hn⟩ := h.node
    obtain ⟨v', hn'⟩ := h'.node
    rw [hcap, hoper] at hn' ⊢
    rw [hid]
    apply hn.query_congr t.identity q q hn'
    intro i i1 _ i3 _
    have : i = q := by omega
    rw [this]
    exact hq

/-! ## Claims on `SegmentTreeDeletable` -/

theorem SegmentTreeDeletable.get_of_getTrueIndex {s : SegmentTreeDeletable T} {i p : Int}
    (h : s.getTrueIndex i = .ok p) : s.get i = s.tree.get p := by
  unfold SegmentTreeDeletable.get
  simp only [bind, Except.bind, h]

theorem SegmentTreeDeletable.Rep.get_live {s : SegmentTreeDeletable T} {val : Int → T}
    {del : Int → Int} (h : s.Rep val del) (hop : Lawful s.tree.oper s.tree.identity)
    (i : Int) (h0 : 0 ≤ i) (h1 : i < s.length) :
    ∃ p, Phys del i p ∧ p < s.tree.length ∧ s.getTrueIndex i = .ok p ∧
      s.get i = .ok (val p) := by
  obtain ⟨p, hp, hphys, hpn⟩ := h.getTrueIndex_in i h0 h1
  refine ⟨p, hphys, hpn, hp, ?_⟩
  rw [SegmentTreeDeletable.get_of_getTrueIndex hp]
  exact h.value.get hop p hphys.1 hpn

theorem SegmentTreeDeletable.Rep.get_phys {s : SegmentTreeDeletable T} {val : Int → T}
    {del : Int → Int} (h : s.Rep val del) (i : Int) (h0 : 0 ≤ i) (h1 : i < s.length) :
    ∃ p, Phys del i p ∧ p < s.tree.length ∧ s.get i = s.tree.get p := by
  obtain ⟨p, hp, hphys, hpn⟩ := h.getTrueIndex_in i h0 h1
  exact ⟨p, hphys, hpn, SegmentTreeDeletable.get_of_getTrueIndex hp⟩

/-- After `remove(i)` logical index `j` is served by the slot that served `j` before when
`j < i`, and by the slot that served `j + 1` before when `j >= i`. -/
theorem SegmentTreeDeletable.Rep.get_after_remove {s : SegmentTreeDeletable T}
    {val : Int → T} {del : Int → Int} (h : s.Rep val del) (i : Int) (h0 : 0 ≤ i)
    (h1 : i < s.length) :
    ∃ s', s.remove i = .ok s' ∧ s'.length = s.length - 1 ∧
      ∀ j, 0 ≤ j → j < s.length - 1 →
        s'.get j = (if j < i then s.get j else s.get (j + 1)) := by
  obtain ⟨s', p, _, hphys, hpn, hrem, hrep', hlen', htl', hoper', hid', hcap'⟩ :=
    h.remove_step i h0 h1
  refine ⟨s', hrem, hlen', ?_⟩
  intro j j0 j1
  have key : ∀ j0' : Int, (j0' = if j < i then j else j + 1) → s'.get j = s.get j0' := by
    intro j0' hj0'
    have hr0 : 0 ≤ j0' ∧ j0' < s.length := by
      rw [hj0']
      split <;> omega
    obtain ⟨q, hq, hqn, hget⟩ := h.get_phys j0' hr0.1 hr0.2
    obtain ⟨q', hq', hqn', hget'⟩ := hrep'.get_phys j j0 (by omega)
    have hqp : q ≠ p := by
      intro e
      rw [e] at hq
      have := hq.2.2
      have := hphys.2.2
      have : j0' ≠ i := by rw [hj0']; split <;> omega
      omega
    have hphys' : Phys (Function.update del p 1) j q := by
      refine ⟨hq.1, ?_, ?_⟩
      · rw [Function.update_noteq hqp]; exact hq.2.1
      · rw [deletedUpTo_update_int del p 1 hphys.1, hphys.2.1]
        have hq2 := hq.2.2
        by_cases hji : j < i
        · have e : j0' = j := by rw [hj0']; simp [hji]
          have hlt := Phys.lt h.flags hq hphys hqn (by omega : j0' < i)
          have : ¬ p ≤ q := by omega
          rw [if_neg this]
          omega
        · have e : j0' = j + 1 := by rw [hj0']; simp [hji]
          have hlt := Phys.lt h.flags hphys hq hpn (by omega : i < j0')
          have : p ≤ q := by omega
          rw [if_pos this]
          omega
    have huniq := Phys.unique hrep'.flags hq' hphys' hqn' (by rw [htl']; exact hqn)
    rw [hget', hget, huniq]
    exact SegmentTree.Rep.get_congr h.value hrep'.value htl' hcap' hoper' hid' q
      (Function.update_noteq hqp _ _)
  by_cases hji : j < i
  · rw [if_pos hji]
    exact key j (by simp [hji])
  · rw [if_neg hji]
    exact key (j + 1) (by simp [hji])

/-- C4: in a reachable state with apparent sequence `L` (the list `get` reads out) and
for `0 <= i < |L|`, `remove(i)` returns a state whose apparent sequence is `L` with
position `i` erased: for every logical `j` in `[0, |L|-1)`, `get(j)` returns `L[j]` if
`j < i` and `L[j+1]` if `j >= i`. -/
theorem C4_remove_shifts (s : SegmentTreeDeletable T) (hr : s.Reachable)
    (L : List T) (hL : s.Holds L) (i : Nat) (hi : i < L.length) :
    ∃ s', s.remove i = .ok s' ∧ s'.Holds (L.eraseIdx i) ∧
      ∀ (j : Nat) (hj : j + 1 < L.length),
        s'.get (j : Int) = .ok (if j < i then L[j] else L[j + 1]) := by
  obtain ⟨val, del, hrep⟩ := hr.rep_deletable
  obtain ⟨hLlen, hLget⟩ := hL
  obtain ⟨s', hrem, hlen', hget'⟩ :=
    hrep.get_after_remove i (by omega) (by omega)
  have hexp : ∀ (j : Nat) (hj : j + 1 < L.length),
      s'.get (j : Int) = .ok (if j < i then L[j] else L[j + 1]) := by
    intro j hj
    rw [hget' j (by omega) (by omega)]
    by_cases hji : j < i
    · have : (j : Int) < i := by omega
      rw [if_pos this, if_pos hji]
      exact hLget j (by omega)
    · have : ¬ (j : Int) < i := by omega
      rw [if_neg this, if_neg hji]
      have := hLget (j + 1) hj
      push_cast at this
      exact this
  refine ⟨s', hrem, ⟨?_, ?_⟩, hexp⟩
  · rw [List.length_eraseIdx, if_pos hi, hlen']
    omega
  · intro k hk
    have hk' : k + 1 < L.length := by
      rw [List.length_eraseIdx, if_pos hi] at hk
      omega
    rw [hexp k hk', List.getElem_eraseIdx]
    by_cases hki : k < i
    · simp [hki]
    · simp [hki]

theorem sampleDeletable_new :
    SegmentTreeDeletable.new [3, 4, 5] AddOperator 0 = .ok sampleDeletable := rfl

theorem sampleGrown_add : sampleDeletable.add 10 = .ok sampleGrown := rfl

theorem sampleRemoved_remove : sampleGrown.remove 0 = .ok sampleRemoved := rfl

theorem sampleMin_new :
    SegmentTreeDeletable.new [5, 3, 8, 1] MinOperator minSentinel = .ok sampleMin := rfl

theorem sampleMinRemoved_remove : sampleMin.remove 3 = .ok sampleMinRemoved := rfl

theorem sampleGrown_reachable : sampleGrown.Reachable :=
  .add _ _ _ (.new _ _ _ _ sampleDeletable_new) sampleGrown_add

theorem sampleGrown_holds : sampleGrown.Holds [3, 4, 5, 10] :=
  ⟨rfl, fun k h =>
    match k, h with
    | 0, _ => rfl
    | 1, _ => rfl
    | 2, _ => rfl
    | 3, _ => rfl⟩

theorem C4_remove_shifts_witness :
    sampleGrown.Reachable ∧ sampleGrown.Holds [3, 4, 5, 10] ∧
    0 < ([3, 4, 5, 10] : List Int).length ∧
    ∃ s', sampleGrown.remove ((0 : Nat) : Int) = .ok s' ∧
      s'.Holds (([3, 4, 5, 10] : List Int).eraseIdx 0) ∧
      ∀ (j : Nat) (hj : j + 1 < ([3, 4, 5, 10] : List Int).length),
        s'.get (j : Int) = .ok (if j < 0 then ([3, 4, 5, 10] : List Int)[j]
          else ([3, 4, 5, 10] : List Int)[j + 1]) :=
  ⟨sampleGrown_reachable, sampleGrown_holds, by decide,
    C4_remove_shifts sampleGrown sampleGrown_reachable [3, 4, 5, 10]
      sampleGrown_holds 0 (by decide)⟩

theorem foldRange_succ_right (op : Operator T) (identity : T) (leaf : Int → T) {a b : Int}
    (h : a ≤ b) :
    foldRange op identity leaf a b
      = op.apply (foldRange op identity leaf a (b - 1)) (leaf b) := by
  unfold foldRange
  have e : (b - a + 1).toNat = (b - 1 - a + 1).toNat + 1 := by omega
  rw [e]
  simp only [foldFrom]
  have e2 : a + (((b - 1 - a + 1).toNat : Nat) : Int) = b := by omega
  rw [e2]

theorem foldRange_all_identity {op : Operator T} {identity : T} (hop : Lawful op identity)
    (leaf : Int → T) {a b : Int} (h : ∀ i, a ≤ i → i ≤ b → leaf i = identity) :
    foldRange op identity leaf a b = identity := by
  unfold foldRange
  apply foldRange_identity hop
  intro i h1 h2
  exact h i h1 (by omega)

/-- Every slot strictly between the slots of two consecutive logical indices is removed. -/
theorem dead_between {del : Int → Int} {n : Int}
    (hflags : ∀ p, 0 ≤ p → p < n → del p = 0 ∨ del p = 1) {j p q x : Int}
    (hp : Phys del j p) (hq : Phys del (j + 1) q) (hqn : q < n) (h1 : p < x) (h2 : x < q) :
    del x = 1 := by
  obtain ⟨p0, p1, p2⟩ := hp
  obtain ⟨q0, q1, q2⟩ := hq
  rcases hflags x (by omega) (by omega) with hx | hx
  · have a1 := live_le del n hflags (p := p) (q := x - 1) (by omega) (by omega)
    have a2 := live_le del n hflags (p := x) (q := q - 1) (by omega) (by omega)
    have a3 := deletedUpTo_succ del (by omega : 0 ≤ x)
    have a4 := deletedUpTo_succ del q0
    omega
  · exact hx

/-- Under the operator laws the fold of the physical slots between the slots of logical
`a` and logical `b` is the fold of the logical values `a .. b`. -/
theorem SegmentTreeDeletable.Rep.fold_phys {s : SegmentTreeDeletable T} {val : Int → T}
    {del : Int → Int} (h : s.Rep val del) (hop : Lawful s.tree.oper s.tree.identity)
    (logical : Int → T)
    (hlog : ∀ j p, 0 ≤ j → j < s.length → Phys del j p → p < s.tree.length →
      logical j = val p) :
    ∀ (n : Nat) (a pa b pb : Int), 0 ≤ a → b = a + n → b < s.length →
      Phys del a pa → pa < s.tree.length → Phys del b pb → pb < s.tree.length →
      pa ≤ pb ∧ foldRange s.tree.oper s.tree.identity val pa pb
        = foldRange s.tree.oper s.tree.identity logical a b := by
  intro n
  induction n with
  | zero =>
    intro a pa b pb a0 hb hbl hpa hpan hpb hpbn
    have hab : b = a := by simpa using hb
    subst hab
    have := Phys.unique h.flags hpa hpb hpan hpbn
    subst this
    refine ⟨le_refl _, ?_⟩
    rw [foldRange_single hop, foldRange_single hop, hlog b pa a0 hbl hpa hpan]
  | succ n ih =>
    intro a pa b pb a0 hb hbl hpa hpan hpb hpbn
    push_cast at hb
    obtain ⟨pm, _, hpm, hpmn⟩ := h.getTrueIndex_in (b - 1) (by omega) (by omega)
    obtain ⟨hle, hfold⟩ := ih a pa (b - 1) pm a0 (by omega) (by omega) hpa hpan hpm hpmn
    have hlt := Phys.lt h.flags hpm hpb hpmn (by omega)
    have hpb' : Phys del (b - 1 + 1) pb := by
      have e : b - 1 + 1 = b := by omega
      rw [e]; exact hpb
    refine ⟨by omega, ?_⟩
    rw [foldRange_split hop val (m := pm) (by omega) (by omega), hfold,
      foldRange_succ_right _ _ val (by omega : pm + 1 ≤ pb),
      foldRange_all_identity hop val (a := pm + 1) (b := pb - 1), hop.left_id,
      foldRange_succ_right _ _ logical (by omega : a ≤ b),
      hlog b pb (by omega) hbl hpb hpbn]
    intro x x1 x2
    have hdead := dead_between h.flags hpm hpb' hpbn (by omega : pm < x) (by omega)
    exact h.tombstone hop x (by have := hpm.1; omega) (by omega) hdead

theorem SegmentTreeDeletable.Rep.queryRange_live {s : SegmentTreeDeletable T} {val : Int → T}
    {del : Int → Int} (h : s.Rep val del) (hop : Lawful s.tree.oper s.tree.identity)
    (L : List T) (hL : s.Holds L) (a b : Int) (h0 : 0 ≤ a) (hab : a ≤ b)
    (hb : b < s.length) :
    s.queryRange a b = .ok (foldSlice s.tree.oper s.tree.identity L a b) := by
  obtain ⟨hLlen, hLget⟩ := hL
  obtain ⟨pa, hpa, hpan, hga, _⟩ := h.get_live hop a h0 (by omega)
  obtain ⟨pb, hpb, hpbn, hgb, _⟩ := h.get_live hop b (by omega) hb
  have hlog : ∀ j p, 0 ≤ j → j < s.length → Phys del j p → p < s.tree.length →
      leafOf L s.tree.identity j = val p := by
    intro j p j0 j1 hp hpn
    obtain ⟨p', hp', hpn', _, hget⟩ := h.get_live hop j j0 j1
    have := Phys.unique h.flags hp hp' hpn hpn'
    subst this
    have hlt : j.toNat < L.length := by omega
    have hj := hLget j.toNat hlt
    have e : ((j.toNat : Nat) : Int) = j := by omega
    rw [e, hget] at hj
    have hspec := leafOf_spec L s.tree.identity j j0 (by omega)
    rw [List.getElem?_eq_getElem hlt] at hspec
    rw [← Option.some.inj hspec]
    exact (Except.ok.inj hj).symm
  obtain ⟨hle, hfold⟩ := h.fold_phys hop (leafOf L s.tree.identity) hlog (b - a).toNat
    a pa b pb h0 (by omega) hb hpa hpan hpb hpbn
  unfold SegmentTreeDeletable.queryRange
  simp only [bind, Except.bind, hga, hgb]
  obtain ⟨r, hq, hr⟩ := h.value.queryRange pa pb
  have hcap := h.value.len_le
  have e1 : max pa 0 = pa := by have := hpa.1; omega
  have e2 : min pb (s.tree.capacity - 1) = pb := by omega
  rw [hq, hr hop, e1, e2, hfold]
  congr 1
  apply foldRange_eq_foldSlice _ _ _ _ _ _ h0
  intro k _ k2
  exact leafOf_spec L s.tree.identity k (by omega) (by omega)

/-- C5: in a reachable state with apparent sequence `L` (operator associative with
identity) and for logical `0 <= a <= b < |L|`, `queryRange(a, b)` is the fold of
`L[a..b]`: removed elements contribute nothing.  The two scenarios of the claim:
`[3,4,5]` with addition, `add(10)`, `remove(0)` gives `queryRange(0,2) == 19`, and
`[5,3,8,1]` with minimum, `remove(3)` gives `queryRange(0,2) == 3`. -/
theorem C5_query_ignores_removed :
    (∀ (s : SegmentTreeDeletable T) (L : List T) (a b : Int), s.Reachable →
      Lawful s.tree.oper s.tree.identity → s.Holds L → 0 ≤ a → a ≤ b → b < L.length →
      s.queryRange a b = .ok (foldSlice s.tree.oper s.tree.identity L a b)) ∧
    (∃ s0 s1 s2, SegmentTreeDeletable.new [3, 4, 5] AddOperator 0 = .ok s0 ∧
      s0.add 10 = .ok s1 ∧ s1.remove 0 = .ok s2 ∧ s2.queryRange 0 2 = .ok 19) ∧
    (∃ s0 s1, SegmentTreeDeletable.new [5, 3, 8, 1] MinOperator minSentinel = .ok s0 ∧
      s0.queryRange 0 3 = .ok 1 ∧ s0.remove 3 = .ok s1 ∧ s1.queryRange 0 2 = .ok 3) := by
  refine ⟨?_, ?_, ?_⟩
  · intro s L a b hr hop hL h0 hab hb
    obtain ⟨val, del, hrep⟩ := hr.rep_deletable
    exact hrep.queryRange_live hop L hL a b h0 hab (by have := hL.1; omega)
  · exact ⟨sampleDeletable, sampleGrown, sampleRemoved, sampleDeletable_new,
      sampleGrown_add, sampleRemoved_remove, rfl⟩
  · exact ⟨sampleMin, sampleMinRemoved, sampleMin_new, rfl, sampleMinRemoved_remove, rfl⟩

theorem C5_query_ignores_removed_witness :
    sampleGrown.Reachable ∧ Lawful sampleGrown.tree.oper sampleGrown.tree.identity ∧
    sampleGrown.Holds [3, 4, 5, 10] ∧
    sampleGrown.queryRange 1 3
      = .ok (foldSlice sampleGrown.tree.oper sampleGrown.tree.identity [3, 4, 5, 10] 1 3) :=
  ⟨sampleGrown_reachable, addOperator_lawful, sampleGrown_holds,
    (C5_query_ignores_removed (T := Int)).1 sampleGrown [3, 4, 5, 10] 1 3
      sampleGrown_reachable addOperator_lawful sampleGrown_holds (by decide) (by decide)
      (by decide)⟩

/-- C6 (the code departs from the claim): on `[3,4,5]` with addition, `add(10)` gives
`size() == 4` and `remove(0)` returns with `size()` still 4, while the apparent length
went from 4 to 3: `SegmentTreeDeletable::size` reports the physical size of the value
tree, which `remove` never changes. -/
theorem C6_size_after_remove :
    SegmentTreeDeletable.new [3, 4, 5] AddOperator 0 = .ok sampleDeletable ∧
    sampleDeletable.add 10 = .ok sampleGrown ∧ sampleGrown.size = 4 ∧
    sampleGrown.length = 4 ∧
    sampleGrown.remove 0 = .ok sampleRemoved ∧ sampleRemoved.size = 4 ∧
    sampleRemoved.length = 3 :=
  ⟨sampleDeletable_new, sampleGrown_add, rfl, rfl, sampleRemoved_remove, rfl, rfl⟩

theorem SegmentTreeDeletable.Rep.get_returns {s : SegmentTreeDeletable T} {val : Int → T}
    {del : Int → Int} (h : s.Rep val del) (i : Int) (h0 : 0 ≤ i) (h1 : i < s.length) :
    ∃ r, s.get i = .ok r := by
  obtain ⟨p, hp, hphys, hpn⟩ := h.getTrueIndex_in i h0 h1
  obtain ⟨r, hr, _⟩ := h.value.get_ok p hphys.1 hpn
  exact ⟨r, by rw [SegmentTreeDeletable.get_of_getTrueIndex hp, hr]⟩

theorem SegmentTreeDeletable.Rep.get_out {s : SegmentTreeDeletable T} {val : Int → T}
    {del : Int → Int} (h : s.Rep val del) (i : Int) (hout : i < 0 ∨ s.length ≤ i) :
    ∃ e, s.get i = .error (.indexOutOfBounds e) := by
  obtain ⟨p, hp, hpout⟩ := h.getTrueIndex_out i hout
  refine ⟨p, ?_⟩
  rw [SegmentTreeDeletable.get_of_getTrueIndex hp]
  unfold SegmentTree.get
  have : p < 0 ∨ p ≥ s.tree.length := by omega
  simp only [this, if_true]

/-- C9: in a reachable state the apparent length is the physical size minus the number
of removed slots, and for every integer logical index `j`, `get(j)` fails with the
index-out-of-bounds error exactly when `j < 0` or `j >=` that apparent length; so an
index below the physical size but at or beyond the live count is rejected. -/
theorem C9_deletable_get_bounds (s : SegmentTreeDeletable T) (hr : s.Reachable) (j : Int) :
    ∃ removed, s.deletedIndices.queryRange 0 (s.tree.size - 1) = .ok removed ∧
      s.length = s.tree.size - removed ∧
      ((∃ e, s.get j = .error (.indexOutOfBounds e)) ↔ (j < 0 ∨ j ≥ s.tree.size - removed)) ∧
      ((s.length ≤ j ∧ j < s.tree.size) → ∃ e, s.get j = .error (.indexOutOfBounds e)) := by
  obtain ⟨val, del, hrep⟩ := hr.rep_deletable
  have hsz : s.tree.size = s.tree.length := rfl
  have hcap := hrep.value.len_le
  have hq := deleted_queryRange hrep.deleted hrep.del_oper hrep.del_identity
    (s.tree.size - 1) (by rw [hsz, hrep.same_capacity]; omega)
  have hlen : s.length = s.tree.size - deletedUpTo del (s.tree.size - 1) := hrep.length_eq
  refine ⟨deletedUpTo del (s.tree.size - 1), hq, hlen, ⟨?_, ?_⟩, ?_⟩
  · rintro ⟨e, he⟩
    by_contra hc
    obtain ⟨r, hr'⟩ := hrep.get_returns j (by omega) (by omega)
    rw [hr'] at he
    cases he
  · intro hout
    exact hrep.get_out j (by omega)
  · intro hj
    exact hrep.get_out j (Or.inr hj.1)

theorem C9_deletable_get_bounds_witness :
    sampleRemoved.Reachable ∧
    ∃ removed, sampleRemoved.deletedIndices.queryRange 0 (sampleRemoved.tree.size - 1)
        = .ok removed ∧
      sampleRemoved.length = sampleRemoved.tree.size - removed ∧
      ((∃ e, sampleRemoved.get 3 = .error (.indexOutOfBounds e)) ↔
        ((3 : Int) < 0 ∨ (3 : Int) ≥ sampleRemoved.tree.size - removed)) ∧
      ((sampleRemoved.length ≤ 3 ∧ (3 : Int) < sampleRemoved.tree.size) →
        ∃ e, sampleRemoved.get 3 = .error (.indexOutOfBounds e)) :=
  ⟨.remove _ 0 _ sampleGrown_reachable (by decide) (by decide) sampleRemoved_remove,
    C9_deletable_get_bounds sampleRemoved
      (.remove _ 0 _ sampleGrown_reachable (by decide) (by decide) sampleRemoved_remove) 3⟩

/-! ## No operation but `get` checks an index -/

theorem bind_ne_error {α β : Type} {x : Except Fault α} {f : α → Except Fault β}
    {e : Fault} (hx : x ≠ .error e) (hf : ∀ a, f a ≠ .error e) : (x >>= f) ≠ .error e := by
  cases x with
  | error err =>
    simp only [bind, Except.bind]
    intro h
    exact hx (by rw [Except.error.inj h])
  | ok a =>
    simp only [bind, Except.bind]
    exact hf a

theorem readCell_not_indexOutOfBounds (tree : List (Option T)) (i e : Int) :
    readCell tree i ≠ .error (.indexOutOfBounds e) := by
  unfold readCell
  split
  · simp
  · split <;> simp

theorem writeCell_not_indexOutOfBounds (tree : List (Option T)) (i : Int) (v : T) (e : Int) :
    writeCell tree i v ≠ .error (.indexOutOfBounds e) := by
  unfold writeCell
  split <;> simp

theorem setNode_not_indexOutOfBounds (op : Operator T) (e : Int) :
    ∀ (fuel : Nat) (index rs re node : Int) (value : T) (tree : List (Option T)),
      setNode op fuel index rs re node value tree ≠ .error (.indexOutOfBounds e) := by
  intro fuel
  induction fuel with
  | zero => intro index rs re node value tree h; simp [setNode] at h
  | succ f ih =>
    intro index rs re node value tree
    unfold setNode
    split
    · exact writeCell_not_indexOutOfBounds _ _ _ _
    · have hrest : ∀ t1 : List (Option T),
          (readCell t1 (leftChild node) >>= fun l =>
            readCell t1 (rightChild node rs (getMid rs re)) >>= fun r =>
              writeCell t1 node (op.apply l r)) ≠ .error (.indexOutOfBounds e) := by
        intro t1
        apply bind_ne_error (readCell_not_indexOutOfBounds _ _ _)
        intro l
        apply bind_ne_error (readCell_not_indexOutOfBounds _ _ _)
        intro r
        exact writeCell_not_indexOutOfBounds _ _ _ _
      dsimp only
      split
      · exact bind_ne_error (ih _ _ _ _ _ _) hrest
      · exact bind_ne_error (ih _ _ _ _ _ _) hrest

theorem SegmentTree.queryRange_not_indexOutOfBounds (t : SegmentTree T) (a b e : Int) :
    t.queryRange a b ≠ .error (.indexOutOfBounds e) :=
  queryRangeNode_not_indexOutOfBounds _ _ _ e _ _ _ _ _ _

theorem SegmentTree.set_not_indexOutOfBounds (t : SegmentTree T) (i : Int) (v : T) (e : Int) :
    t.set i v ≠ .error (.indexOutOfBounds e) := by
  unfold SegmentTree.set
  apply bind_ne_error (setNode_not_indexOutOfBounds _ _ _ _ _ _ _ _ _)
  intro tree
  simp

theorem getTrueIndexLoop_not_indexOutOfBounds (d : SegmentTree Int) (index e : Int) :
    ∀ (fuel : Nat) (low high : Int),
      SegmentTreeDeletable.getTrueIndexLoop d index fuel low high
        ≠ .error (.indexOutOfBounds e) := by
  intro fuel
  induction fuel with
  | zero =>
    intro low high
    unfold SegmentTreeDeletable.getTrueIndexLoop
    split <;> simp
  | succ f ih =>
    intro low high
    unfold SegmentTreeDeletable.getTrueIndexLoop
    split
    · apply bind_ne_error (SegmentTree.queryRange_not_indexOutOfBounds _ _ _ _)
      intro c
      split
      · exact ih _ _
      · exact ih _ _
    · simp

theorem SegmentTreeDeletable.getTrueIndex_not_indexOutOfBounds (s : SegmentTreeDeletable T)
    (i e : Int) : s.getTrueIndex i ≠ .error (.indexOutOfBounds e) :=
  getTrueIndexLoop_not_indexOutOfBounds _ _ _ _ _ _

/-- The operations `set`, `remove` and `queryRange` of `SegmentTreeDeletable` never fail
with the index-out-of-bounds error, whatever the state and the arguments; in a reachable
state they return normally when every logical index argument is inside `[0, length)`,
and a logical index outside of it is translated by `getTrueIndex` to a physical index
outside `[0, size)`, which none of the three checks before handing it on. -/
theorem unchecked_index_operations :
    (∀ (s : SegmentTreeDeletable T) (i j : Int) (v : T) (e : Int),
      s.set i v ≠ .error (.indexOutOfBounds e) ∧
      s.remove i ≠ .error (.indexOutOfBounds e) ∧
      s.queryRange i j ≠ .error (.indexOutOfBounds e)) ∧
    (∀ (s : SegmentTreeDeletable T) (i j : Int) (v : T), s.Reachable →
      0 ≤ i → i < s.length → 0 ≤ j → j < s.length →
      (∃ s', s.set i v = .ok s') ∧ (∃ s', s.remove i = .ok s') ∧
      (∃ r, s.queryRange i j = .ok r)) ∧
    (∀ (s : SegmentTreeDeletable T) (i : Int), s.Reachable → (i < 0 ∨ s.length ≤ i) →
      ∃ p, s.getTrueIndex i = .ok p ∧ (p < 0 ∨ s.tree.size ≤ p)) := by
  refine ⟨?_, ?_, ?_⟩
  · intro s i j v e
    refine ⟨?_, ?_, ?_⟩
    · unfold SegmentTreeDeletable.set
      apply bind_ne_error (s.getTrueIndex_not_indexOutOfBounds _ _)
      intro p
      apply bind_ne_error (SegmentTree.set_not_indexOutOfBounds _ _ _ _)
      intro t
      simp
    · unfold SegmentTreeDeletable.remove
      apply bind_ne_error (s.getTrueIndex_not_indexOutOfBounds _ _)
      intro p
      apply bind_ne_error (SegmentTree.set_not_indexOutOfBounds _ _ _ _)
      intro d
      apply bind_ne_error (SegmentTree.set_not_indexOutOfBounds _ _ _ _)
      intro t
      simp
    · unfold SegmentTreeDeletable.queryRange
      apply bind_ne_error (s.getTrueIndex_not_indexOutOfBounds _ _)
      intro p
      apply bind_ne_error (s.getTrueIndex_not_indexOutOfBounds _ _)
      intro q
      exact SegmentTree.queryRange_not_indexOutOfBounds _ _ _ _
  · intro s i j v hr i0 i1 j0 j1
    obtain ⟨val, del, hrep⟩ := hr.rep_deletable
    obtain ⟨s1, _, _, _, _, hs1, _⟩ := hrep.set_step i v i0 i1
    obtain ⟨s2, _, _, _, _, hs2, _⟩ := hrep.remove_step i i0 i1
    obtain ⟨p, hp, _, _⟩ := hrep.getTrueIndex_in i i0 i1
    obtain ⟨q, hq, _, _⟩ := hrep.getTrueIndex_in j j0 j1
    obtain ⟨r, hr', _⟩ := hrep.value.queryRange p q
    refine ⟨⟨s1, hs1⟩, ⟨s2, hs2⟩, ⟨r, ?_⟩⟩
    unfold SegmentTreeDeletable.queryRange
    simp only [bind, Except.bind, hp, hq]
    exact hr'
  · intro s i hr hout
    obtain ⟨val, del, hrep⟩ := hr.rep_deletable
    exact hrep.getTrueIndex_out i hout

/-- C10 (the code departs from the claim): only `get` checks its index.  On `[3,4,5]`
(apparent length 3) `get(3)` throws the index-out-of-bounds error, but `queryRange(0, 5)`
returns 12 and `set(3, 1)` runs into a write outside the array instead of throwing; after
`add(10)` (apparent length 4) `get(4)` throws, but `remove(4)` returns normally, lowers
the apparent length to 3 and writes a flag into the padding of the deletion-count
tree. -/
theorem C10_unchecked_indices :
    sampleDeletable.Reachable ∧ sampleDeletable.length = 3 ∧
    sampleDeletable.get 3 = .error (.indexOutOfBounds 3) ∧
    sampleDeletable.queryRange 0 5 = .ok 12 ∧
    sampleDeletable.set 3 1 = .error .invalidAccess ∧
    sampleGrown.Reachable ∧ sampleGrown.length = 4 ∧ sampleGrown.size = 4 ∧
    sampleGrown.get 4 = .error (.indexOutOfBounds 4) ∧
    ∃ s', sampleGrown.remove 4 = .ok s' ∧ s'.length = 3 ∧
      s'.deletedIndices.tree ≠ sampleGrown.deletedIndices.tree ∧
      s'.deletedIndices.queryRange 4 4 = .ok 1 :=
  ⟨.new _ _ _ _ sampleDeletable_new, rfl, rfl, rfl, rfl, sampleGrown_reachable, rfl, rfl,
    rfl, _, rfl, rfl, by decide, rfl⟩

/-! ## Queries outside the populated range -/

/-- The recursive update with an index below the range never returns: it descends to the
left for ever. -/
theorem setNode_below (op : Operator T) (index : Int) (value : T) :
    ∀ (fuel : Nat) (rs re node : Int) (tree : List (Option T)), rs ≤ re → index < rs →
      ∃ e, setNode op fuel index rs re node value tree = .error e := by
  intro fuel
  induction fuel with
  | zero => intro rs re node tree _ _; exact ⟨.outOfFuel, rfl⟩
  | succ f ih =>
    intro rs re node tree hle hlt
    unfold setNode
    have hne : ¬ (rs = re ∧ re = index) := by omega
    have hmid : rs ≤ getMid rs re := by
      rw [getMid_of_le hle]
      omega
    have hside : index ≤ getMid rs re := by omega
    obtain ⟨e, he⟩ := ih rs (getMid rs re) (leftChild node) tree hmid hlt
    refine ⟨e, ?_⟩
    simp only [hne, if_false, hside, if_true, bind, Except.bind, he]

theorem SegmentTree.Rep.set_negative {t : SegmentTree T} {leaf : Int → T} (h : t.Rep leaf)
    (index : Int) (value : T) (hneg : index < 0) (t' : SegmentTree T) :
    t.set index value ≠ .ok t' := by
  have hc := h.cap_pos
  obtain ⟨e, he⟩ := setNode_below t.oper index value (recursionFuel t.capacity) 0
    (t.capacity - 1) 0 t.tree (by omega) hneg
  unfold SegmentTree.set
  simp only [bind, Except.bind, he]
  intro hcontra
  cases hcontra

theorem leafOf_beyond (vs : List T) (dflt : T) (i : Int) (h : (vs.length : Int) ≤ i) :
    leafOf vs dflt i = dflt := by
  unfold leafOf
  split
  · rfl
  · rw [List.getElem?_eq_none (by omega)]
    rfl

/-- In a state reached without writing into the padding, every slot from `length` on
holds the identity. -/
theorem SegmentTree.ReachablePopulated.padding {t : SegmentTree T}
    (h : t.ReachablePopulated) :
    ∃ leaf, t.Rep leaf ∧ 1 ≤ t.length ∧ ∀ i, t.length ≤ i → leaf i = t.identity := by
  induction h with
  | new vs op identity t hnew =>
    have hne : vs ≠ [] := by
      intro h0
      subst h0
      rw [SegmentTree.new_nil] at hnew
      cases hnew
    obtain ⟨t', ht', hlen, _, _, hid, hrep⟩ := SegmentTree.new_spec vs op identity hne identity
    rw [hnew] at ht'
    cases ht'
    have hpos := List.length_pos.mpr hne
    refine ⟨_, hrep, by omega, ?_⟩
    intro i hi
    rw [hid]
    exact leafOf_beyond vs identity i (by omega)
  | set t index v t' _ h1 hs ih =>
    obtain ⟨leaf, hrep, hpos, hpad⟩ := ih
    by_cases h0 : 0 ≤ index
    · have hle := hrep.len_le
      obtain ⟨t2, ht2, hlen, _, _, hid, hrep2⟩ := hrep.set index v h0 (by omega)
      rw [hs] at ht2
      cases ht2
      refine ⟨_, hrep2, by omega, ?_⟩
      intro i hi
      have hne : i ≠ index := by omega
      rw [Function.update_noteq hne, hid]
      exact hpad i (by omega)
    · exact absurd hs (hrep.set_negative index v (by omega) t')
  | add t v t' _ hs ih =>
    obtain ⟨leaf, hrep, hpos, hpad⟩ := ih
    obtain ⟨t2, leaf2, ht2, hlen, _, _, hid, hrep2, _, hpad2, _⟩ := hrep.add v
    rw [hs] at ht2
    cases ht2
    refine ⟨_, hrep2, by omega, ?_⟩
    intro i hi
    rw [hid]
    rcases hpad2 i (by omega) with h | h
    · rw [h]
      exact hpad i (by omega)
    · exact h

/-- The root of a well-formed subtree whose leaves all hold the identity holds the
identity. -/
theorem Node.value_identity {op : Operator T} {identity : T}
    (hid : op.apply identity identity = identity) {tree : List (Option T)}
    {leaf : Int → T} {node rs re : Int} {v : T} (h : Node op tree leaf node rs re v) :
    (∀ i, rs ≤ i → i ≤ re → leaf i = identity) → v = identity := by
  induction h with
  | leaf node rs hc => intro hl; exact hl rs (le_refl _) (le_refl _)
  | inner node rs re vl vr hlt hl hr hc ihl ihr =>
    intro hleaf
    obtain ⟨hm1, hm2⟩ := getMid_bounds hlt
    rw [ihl (fun i i1 i2 => hleaf i i1 (by omega)),
      ihr (fun i i1 i2 => hleaf i (by omega) i2), hid]

/-- The recursive query returns the identity when every leaf in the intersection of query
and range holds the identity. -/
theorem Node.query_identity {op : Operator T} {identity : T}
    (hid : op.apply identity identity = identity) {tree : List (Option T)}
    {leaf : Int → T} {node rs re : Int} {v : T} (h : Node op tree leaf node rs re v)
    (qs qe : Int) :
    (∀ i, qs ≤ i → rs ≤ i → i ≤ qe → i ≤ re → leaf i = identity) →
      ∀ fuel : Nat, re - rs < fuel →
        queryRangeNode op identity tree fuel qs qe rs re node = .ok identity := by
  induction h with
  | leaf node rs hc =>
    intro hleaf fuel hfuel
    obtain ⟨f, rfl⟩ : ∃ f, fuel = f + 1 := ⟨fuel - 1, by omega⟩
    unfold queryRangeNode
    by_cases hfull : qs ≤ rs ∧ rs ≤ qe
    · simp only [hfull, and_self, if_true]
      rw [readCell_of_cell hc, hleaf rs hfull.1 (le_refl _) hfull.2 (le_refl _)]
    · have hno : qs > rs ∨ rs > qe := by omega
      simp only [hfull, if_false, hno, if_true]
  | inner node rs re vl vr hlt hl hr hc ihl ihr =>
    intro hleaf fuel hfuel
    obtain ⟨f, rfl⟩ : ∃ f, fuel = f + 1 := ⟨fuel - 1, by omega⟩
    obtain ⟨hm1, hm2⟩ := getMid_bounds hlt
    unfold queryRangeNode
    by_cases hfull : qs ≤ rs ∧ re ≤ qe
    · simp only [hfull, and_self, if_true]
      rw [readCell_of_cell hc]
      have := Node.value_identity hid (Node.inner _ _ _ _ _ hlt hl hr hc)
        (fun i i1 i2 => hleaf i (by omega) i1 (by omega) i2)
      rw [this]
    · by_cases hno : qs > re ∨ rs > qe
      · simp only [hfull, if_false, hno, if_true]
      · have h1 := ihl (fun i i1 i2 i3 i4 => hleaf i i1 i2 i3 (by omega)) f
          (by push_cast at hfuel; omega)
        have h2 := ihr (fun i i1 i2 i3 i4 => hleaf i i1 (by omega) i3 i4) f
          (by push_cast at hfuel; omega)
        simp only [hfull, if_false, hno, bind, Except.bind, h1, h2, hid]

/-- C11: on every `SegmentTree` reached from a finished construction by `add` and by
`set` with an index below the length, with an operator for which `identity` is a
two-sided identity, and for all integers `a <= b` with `b < 0` or `a >= length` (the range
misses the populated slots; `a` may lie in the padding or beyond the capacity),
`queryRange(a, b)` returns exactly `identity`. -/
theorem C11_query_outside_populated (t : SegmentTree T) (hr : t.ReachablePopulated)
    (hop : IdentityLaw t.oper t.identity) (a b : Int) (_hab : a ≤ b)
    (hout : b < 0 ∨ t.length ≤ a) : t.queryRange a b = .ok t.identity := by
  obtain ⟨leaf, hrep, hpos, hpad⟩ := hr.padding
  obtain ⟨v, hn⟩ := hrep.node
  have hc := hrep.cap_pos
  unfold SegmentTree.queryRange
  apply hn.query_identity (hop.left_id t.identity) a b
  · intro i i1 i2 i3 i4
    rcases hout with h | h
    · omega
    · exact hpad i (by omega)
  · unfold recursionFuel
    omega

theorem addOperator_identityLaw : IdentityLaw AddOperator 0 :=
  ⟨fun a => Int.zero_add a, fun a => Int.add_zero a⟩

theorem sampleGrown_tree_populated : sampleGrown.tree.ReachablePopulated :=
  .add sampleTree 10 _ (.new _ _ _ _ sampleTree_new) rfl

theorem C11_query_outside_populated_witness :
    sampleGrown.tree.ReachablePopulated ∧
    IdentityLaw sampleGrown.tree.oper sampleGrown.tree.identity ∧ (5 : Int) ≤ 9 ∧
    ((9 : Int) < 0 ∨ sampleGrown.tree.length ≤ 5) ∧
    sampleGrown.tree.queryRange 5 9 = .ok sampleGrown.tree.identity :=
  ⟨sampleGrown_tree_populated, addOperator_identityLaw, by decide, Or.inr (by decide),
    C11_query_outside_populated sampleGrown.tree sampleGrown_tree_populated
      addOperator_identityLaw 5 9 (by decide) (Or.inr (by decide))⟩

/-! ## The invariants of `SegmentTreeDeletable`, as the code reports them -/

theorem sum_range_eq_deletedUpTo (del : Int → Int) :
    ∀ n : Nat, ((List.range n).map (fun (p : Nat) => del (Int.ofNat p))).sum
      = deletedUpTo del ((n : Int) - 1) := by
  intro n
  induction n with
  | zero =>
    rw [deletedUpTo_neg _ (by omega)]
    rfl
  | succ n ih =>
    have e : (((n + 1 : Nat) : Int) - 1) = (n : Int) := by omega
    rw [List.range_succ, List.map_append, List.sum_append, ih, e,
      deletedUpTo_succ del (by omega : (0 : Int) ≤ n)]
    simp

theorem SegmentTreeDeletable.Rep.deleted_get {s : SegmentTreeDeletable T} {val : Int → T}
    {del : Int → Int} (h : s.Rep val del) (p : Int) (h0 : 0 ≤ p) (h1 : p < s.tree.length) :
    s.deletedIndices.get p = .ok (del p) := by
  have hop : Lawful s.deletedIndices.oper s.deletedIndices.identity := by
    rw [h.del_oper, h.del_identity]; exact addOperator_lawful
  exact h.deleted.get hop p h0 (by rw [h.same_length]; exact h1)

theorem SegmentTreeDeletable.Rep.flag_eq {s : SegmentTreeDeletable T} {val : Int → T}
    {del : Int → Int} (h : s.Rep val del) (p : Int) (h0 : 0 ≤ p) (h1 : p < s.tree.length) :
    s.flag p = del p := by
  unfold SegmentTreeDeletable.flag
  rw [h.deleted_get p h0 h1]

theorem SegmentTreeDeletable.Rep.flagSum_eq {s : SegmentTreeDeletable T} {val : Int → T}
    {del : Int → Int} (h : s.Rep val del) :
    s.flagSum = deletedUpTo del (s.tree.length - 1) := by
  unfold SegmentTreeDeletable.flagSum
  have hl0 := h.value.len_nonneg
  have hsz : s.tree.size = s.tree.length := rfl
  have hmap : (List.range s.tree.size.toNat).map (fun (p : Nat) => s.flag (Int.ofNat p))
      = (List.range s.tree.size.toNat).map (fun (p : Nat) => del (Int.ofNat p)) := by
    apply List.map_congr_left
    intro p hp
    rw [List.mem_range] at hp
    exact h.flag_eq (Int.ofNat p) (Int.ofNat_nonneg p)
      (by rw [hsz] at hp; simp only [Int.ofNat_eq_coe]; omega)
  rw [hmap, sum_range_eq_deletedUpTo]
  congr 1
  rw [hsz]
  omega

/-- The deletion-count tree of a reachable state is itself reached by construction, `add`
and `set` below the length. -/
theorem SegmentTreeDeletable.Reachable.deleted_populated {s : SegmentTreeDeletable T}
    (h : s.Reachable) : s.deletedIndices.ReachablePopulated := by
  induction h with
  | new vs op identity s hnew =>
    unfold SegmentTreeDeletable.new at hnew
    simp only [bind, Except.bind] at hnew
    cases ht : SegmentTree.new vs op identity with
    | error e => rw [ht] at hnew; cases hnew
    | ok t =>
      rw [ht] at hnew
      simp only at hnew
      cases hd : SegmentTree.new (List.replicate vs.length (0 : Int)) AddOperator 0 with
      | error e => rw [hd] at hnew; cases hnew
      | ok d =>
        rw [hd] at hnew
        simp only at hnew
        cases hnew
        exact .new _ _ _ _ hd
  | add s v s' hprev hs ih =>
    obtain ⟨val, del, hrep⟩ := hprev.rep_deletable
    obtain ⟨s2, val2, del2, hs2, _, _, _, _, _, _, hd, _⟩ := hrep.add_step v
    rw [hs] at hs2
    cases hs2
    exact .add _ _ _ ih hd
  | set s i v s' hprev h0 h1 hs ih =>
    obtain ⟨val, del, hrep⟩ := hprev.rep_deletable
    obtain ⟨s2, p, _, _, _, hs2, _, _, _, _, _, hsame⟩ := hrep.set_step i v h0 h1
    rw [hs] at hs2
    cases hs2
    rw [hsame]
    exact ih
  | remove s i s' hprev h0 h1 hs ih =>
    obtain ⟨val, del, hrep⟩ := hprev.rep_deletable
    obtain ⟨p, hp, hphys, hpn⟩ := hrep.getTrueIndex_in i h0 h1
    unfold SegmentTreeDeletable.remove at hs
    simp only [bind, Except.bind, hp] at hs
    cases hd : s.deletedIndices.set p 1 with
    | error e => rw [hd] at hs; cases hs
    | ok d =>
      rw [hd] at hs
      simp only at hs
      cases ht : s.tree.set p s.identity with
      | error e => rw [ht] at hs; cases hs
      | ok t =>
        rw [ht] at hs
        simp only at hs
        cases hs
        exact .set _ p 1 _ ih (by rw [hrep.same_length]; exact hpn) hd

/-- C12: in every reachable state of `SegmentTreeDeletable` (after construction and after
every `add`, `set` and `remove` with an in-range logical index) the apparent length equals
`valueTree.size()` minus the sum of the entries of the deletion-count tree, and every
entry is 0 or 1: the populated entries `0 .. size-1` are 0 or 1, the padding entries are
0, so the sum over the whole tree is the sum over the populated entries. -/
theorem C12_length_invariant (s : SegmentTreeDeletable T) (hr : s.Reachable) :
    s.length = s.tree.size - s.flagSum ∧
    (∀ p, 0 ≤ p → p < s.tree.size →
      s.deletedIndices.get p = .ok 0 ∨ s.deletedIndices.get p = .ok 1) ∧
    (∀ p, s.tree.size ≤ p → p < s.deletedIndices.capacity →
      s.deletedIndices.queryRange p p = .ok 0) ∧
    s.deletedIndices.queryRange 0 (s.deletedIndices.capacity - 1) = .ok s.flagSum := by
  obtain ⟨val, del, hrep⟩ := hr.rep_deletable
  obtain ⟨del2, hrep2, _, hpad⟩ := hr.deleted_populated.padding
  have hsz : s.tree.size = s.tree.length := rfl
  have hop : Lawful s.deletedIndices.oper s.deletedIndices.identity := by
    rw [hrep.del_oper, hrep.del_identity]; exact addOperator_lawful
  have hl0 := hrep.value.len_nonneg
  have hcap := hrep2.len_le
  have hsame := hrep.same_length
  have hagree : ∀ i, 0 ≤ i → i < s.tree.length → del2 i = del i := by
    intro i i0 i1
    have h1 := hrep2.get hop i i0 (by omega)
    rw [hrep.deleted_get i i0 i1] at h1
    exact (Except.ok.inj h1).symm
  refine ⟨?_, ?_, ?_, ?_⟩
  · rw [hrep.flagSum_eq, hsz]
    exact hrep.length_eq
  · intro p p0 p1
    rw [hrep.deleted_get p p0 p1]
    rcases hrep.flags p p0 p1 with h | h
    · left; rw [h]
    · right; rw [h]
  · intro p p0 p1
    obtain ⟨r, hq, hrr⟩ := hrep2.queryRange p p
    rw [hq, hrr hop]
    have e1 : max p 0 = p := by omega
    have e2 : min p (s.deletedIndices.capacity - 1) = p := by omega
    rw [e1, e2, foldRange_single hop, hpad p (by omega), hrep.del_identity]
  · rw [deleted_queryRange hrep2 hrep.del_oper hrep.del_identity _ (by omega),
      hrep.flagSum_eq]
    congr 1
    unfold deletedUpTo
    rw [foldRange_split addOperator_lawful del2 (m := s.tree.length - 1) (by omega) (by omega),
      foldRange_all_identity addOperator_lawful del2 (a := s.tree.length - 1 + 1)
        (b := s.deletedIndices.capacity - 1)
        (fun i i1 _ => by rw [hpad i (by omega), hrep.del_identity])]
    show foldRange AddOperator 0 del2 0 (s.tree.length - 1) + 0 = _
    rw [Int.add_zero]
    exact foldRange_congr _ _ _ _ (fun i i0 i1 => hagree i i0 (by omega))

theorem sampleRemoved_reachable : sampleRemoved.Reachable :=
  .remove _ 0 _ sampleGrown_reachable (by decide) (by decide) sampleRemoved_remove

theorem C12_length_invariant_witness :
    sampleRemoved.Reachable ∧
    sampleRemoved.length = sampleRemoved.tree.size - sampleRemoved.flagSum ∧
    (∀ p, 0 ≤ p → p < sampleRemoved.tree.size →
      sampleRemoved.deletedIndices.get p = .ok 0 ∨
        sampleRemoved.deletedIndices.get p = .ok 1) ∧
    (∀ p, sampleRemoved.tree.size ≤ p → p < sampleRemoved.deletedIndices.capacity →
      sampleRemoved.deletedIndices.queryRange p p = .ok 0) ∧
    sampleRemoved.deletedIndices.queryRange 0 (sampleRemoved.deletedIndices.capacity - 1)
      = .ok sampleRemoved.flagSum :=
  ⟨sampleRemoved_reachable, C12_length_invariant sampleRemoved sampleRemoved_reachable⟩

theorem SegmentTreeDeletable.Rep.tombstone_get {s : SegmentTreeDeletable T} {val : Int → T}
    {del : Int → Int} (h : s.Rep val del) (hop : Lawful s.tree.oper s.tree.identity)
    (p : Int) (h0 : 0 ≤ p) (h1 : p < s.tree.length)
    (hflag : s.deletedIndices.get p = .ok 1) : s.tree.get p = .ok s.tree.identity := by
  rw [h.deleted_get p h0 h1] at hflag
  rw [h.value.get hop p h0 h1, h.tombstone hop p h0 h1 (Except.ok.inj hflag)]

/-- C13: in every reachable state of `SegmentTreeDeletable` (operator associative with
identity) every physical slot `p` whose deletion flag is 1 holds the identity in the value
tree, `valueTree.get(p) == identity`; a following `set(i, v)` with an in-range logical
index or `add(v)`, with or without a resize, leaves the flag at 1 and the slot at the
identity. -/
theorem C13_tombstone_invariant (s : SegmentTreeDeletable T) (hr : s.Reachable)
    (hop : Lawful s.tree.oper s.tree.identity) (p : Int) (h0 : 0 ≤ p) (h1 : p < s.tree.size)
    (hflag : s.deletedIndices.get p = .ok 1) :
    s.tree.get p = .ok s.tree.identity ∧ s.identity = s.tree.identity ∧
    (∀ (i : Int) (v : T), 0 ≤ i → i < s.length →
      ∃ s', s.set i v = .ok s' ∧ s'.deletedIndices.get p = .ok 1 ∧
        s'.tree.get p = .ok s.tree.identity) ∧
    (∀ v : T, ∃ s', s.add v = .ok s' ∧ s'.deletedIndices.get p = .ok 1 ∧
      s'.tree.get p = .ok s.tree.identity) := by
  obtain ⟨val, del, hrep⟩ := hr.rep_deletable
  have hsz : s.tree.size = s.tree.length := rfl
  rw [hsz] at h1
  refine ⟨hrep.tombstone_get hop p h0 h1 hflag, hrep.identity_eq, ?_, ?_⟩
  · intro i v i0 i1
    obtain ⟨s', q, _, _, _, hs, hrep', _, htl, hoper, hid, hsame⟩ := hrep.set_step i v i0 i1
    have hop' : Lawful s'.tree.oper s'.tree.identity := by rw [hoper, hid]; exact hop
    have hflag' : s'.deletedIndices.get p = .ok 1 := by rw [hsame]; exact hflag
    refine ⟨s', hs, hflag', ?_⟩
    rw [← hid]
    exact hrep'.tombstone_get hop' p h0 (by rw [htl]; exact h1) hflag'
  · intro v
    obtain ⟨s', val', del', hs, hrep', _, htl, hoper, hid, _, _, _, _, hdel, _⟩ :=
      hrep.add_step v
    have hop' : Lawful s'.tree.oper s'.tree.identity := by rw [hoper, hid]; exact hop
    have hflag' : s'.deletedIndices.get p = .ok 1 := by
      rw [hrep'.deleted_get p h0 (by rw [htl]; omega), hdel p h0 h1,
        ← hrep.deleted_get p h0 h1]
      exact hflag
    refine ⟨s', hs, hflag', ?_⟩
    rw [← hid]
    exact hrep'.tombstone_get hop' p h0 (by rw [htl]; omega) hflag'

theorem C13_tombstone_invariant_witness :
    sampleRemoved.Reachable ∧
    Lawful sampleRemoved.tree.oper sampleRemoved.tree.identity ∧
    (0 : Int) ≤ 0 ∧ (0 : Int) < sampleRemoved.tree.size ∧
    sampleRemoved.deletedIndices.get 0 = .ok 1 ∧
    sampleRemoved.tree.get 0 = .ok sampleRemoved.tree.identity ∧
    sampleRemoved.identity = sampleRemoved.tree.identity ∧
    (∀ (i : Int) (v : Int), 0 ≤ i → i < sampleRemoved.length →
      ∃ s', sampleRemoved.set i v = .ok s' ∧ s'.deletedIndices.get 0 = .ok 1 ∧
        s'.tree.get 0 = .ok sampleRemoved.tree.identity) ∧
    (∀ v : Int, ∃ s', sampleRemoved.add v = .ok s' ∧ s'.deletedIndices.get 0 = .ok 1 ∧
      s'.tree.get 0 = .ok sampleRemoved.tree.identity) :=
  ⟨sampleRemoved_reachable, addOperator_lawful, by decide, by decide, rfl,
    C13_tombstone_invariant sampleRemoved sampleRemoved_reachable addOperator_lawful 0
      (by decide) (by decide) rfl⟩

theorem SegmentTreeDeletable.Rep.length_nonneg {s : SegmentTreeDeletable T}
    {val : Int → T} {del : Int → Int} (h : s.Rep val del) : 0 ≤ s.length := by
  have hl0 := h.value.len_nonneg
  have h1 := live_le del s.tree.length h.flags (p := -1) (q := s.tree.length - 1)
    (by omega) (by omega)
  rw [deletedUpTo_neg del (by omega : (-1 : Int) < 0)] at h1
  have := h.length_eq
  omega

/-- After `add(v)` every logical index keeps its value and the new last logical index
holds `v`. -/
theorem SegmentTreeDeletable.Rep.get_after_add {s : SegmentTreeDeletable T} {val : Int → T}
    {del : Int → Int} (h : s.Rep val del) (hop : Lawful s.tree.oper s.tree.identity)
    (v : T) :
    ∃ s', s.add v = .ok s' ∧ s'.length = s.length + 1 ∧ s'.get s.length = .ok v ∧
      ∀ j, 0 ≤ j → j < s.length → s'.get j = s.get j := by
  obtain ⟨s', val', del', hs, hrep', hlen', htl, hoper, hid, _, _, hnew, hnewd, hdel, hold⟩ :=
    h.add_step v
  have hop' : Lawful s'.tree.oper s'.tree.identity := by rw [hoper, hid]; exact hop
  have hl0 := h.value.len_nonneg
  have hle := h.length_le
  refine ⟨s', hs, hlen', ?_, ?_⟩
  · obtain ⟨p', hp', hpn', _, hget'⟩ :=
      hrep'.get_live hop' s.length h.length_nonneg (by omega)
    have hphys : Phys del' s.length s.tree.length := by
      refine ⟨hl0, hnewd, ?_⟩
      rw [deletedUpTo_succ del' hl0, hnewd,
        deletedUpTo_congr (s.tree.length - 1) (fun i i0 i1 => hdel i i0 (by omega))]
      have := h.length_eq
      omega
    have := Phys.unique hrep'.flags hp' hphys hpn' (by rw [htl]; omega)
    rw [hget', this, hnew]
  · intro j j0 j1
    obtain ⟨p, hp, hpn, _, hget⟩ := h.get_live hop j j0 j1
    obtain ⟨p', hp', hpn', _, hget'⟩ := hrep'.get_live hop' j j0 (by omega)
    have hphys : Phys del' j p := by
      refine ⟨hp.1, by rw [hdel p hp.1 hpn]; exact hp.2.1, ?_⟩
      rw [deletedUpTo_congr p (fun i i0 i1 => hdel i i0 (by omega))]
      exact hp.2.2
    have := Phys.unique hrep'.flags hp' hphys hpn' (by rw [htl]; omega)
    rw [hget', hget, this, hold hop p hp.1 hpn]

/-- C14: in a reachable state with apparent sequence `L` (operator associative with
identity) `add(v)` returns a state with apparent length `|L| + 1`, `get(|L|) == v` and
`get(j) == L[j]` for every `0 <= j < |L|`: the apparent sequence is `L ++ [v]`, whatever
removals happened before and whether or not the `add` resizes the two trees. -/
theorem C14_add_appends (s : SegmentTreeDeletable T) (hr : s.Reachable)
    (hop : Lawful s.tree.oper s.tree.identity) (L : List T) (hL : s.Holds L) (v : T) :
    ∃ s', s.add v = .ok s' ∧ s'.length = (L.length : Int) + 1 ∧
      s'.get (L.length : Int) = .ok v ∧
      (∀ (j : Nat) (h : j < L.length), s'.get (j : Int) = .ok L[j]) ∧
      s'.Holds (L ++ [v]) := by
  obtain ⟨val, del, hrep⟩ := hr.rep_deletable
  obtain ⟨hLlen, hLget⟩ := hL
  obtain ⟨s', hs, hlen', hlast, hold⟩ := hrep.get_after_add hop v
  have hold' : ∀ (j : Nat) (h : j < L.length), s'.get (j : Int) = .ok L[j] := by
    intro j hj
    rw [hold j (by omega) (by omega)]
    exact hLget j hj
  rw [← hLlen] at hlast
  refine ⟨s', hs, by rw [hlen', hLlen], hlast, hold', ?_, ?_⟩
  · rw [List.length_append, List.length_singleton, hlen', ← hLlen]
    push_cast
    rfl
  · intro k hk
    rw [List.length_append, List.length_singleton] at hk
    by_cases hkL : k < L.length
    · rw [hold' k hkL, List.getElem_append_left hkL]
    · have hkeq : k = L.length := by omega
      subst hkeq
      rw [hlast]
      simp

theorem C14_add_appends_witness :
    sampleRemoved.Reachable ∧
    Lawful sampleRemoved.tree.oper sampleRemoved.tree.identity ∧
    sampleRemoved.Holds [4, 5, 10] ∧
    ∃ s', sampleRemoved.add 7 = .ok s' ∧
      s'.length = (([4, 5, 10] : List Int).length : Int) + 1 ∧
      s'.get (([4, 5, 10] : List Int).length : Int) = .ok 7 ∧
      (∀ (j : Nat) (h : j < ([4, 5, 10] : List Int).length),
        s'.get (j : Int) = .ok ([4, 5, 10] : List Int)[j]) ∧
      s'.Holds ([4, 5, 10] ++ [7]) :=
  ⟨sampleRemoved_reachable, addOperator_lawful,
    ⟨rfl, fun k h =>
      match k, h with
      | 0, _ => rfl
      | 1, _ => rfl
      | 2, _ => rfl⟩,
    C14_add_appends sampleRemoved sampleRemoved_reachable addOperator_lawful [4, 5, 10]
      ⟨rfl, fun k h =>
        match k, h with
        | 0, _ => rfl
        | 1, _ => rfl
        | 2, _ => rfl⟩ 7⟩

/-! ## Starting empty, and the growth of the capacity -/

/-- C15 (the code departs from the claim): constructing a `SegmentTree` from the empty
sequence is not well defined.  The constructor asks for `new T[2*0 - 1]`, and
`buildTree(0, -1, 0, values)` does not treat the empty range as a base case: it splits
at `getMid(0, -1) = 0` and its first recursive call `buildTree(0, 0, 1, values)` reads
`values[0]` of the empty vector, whatever array it is given and however much fuel.
The second half of the claim does hold on the fields the constructor aims at: from
length 0 and capacity 0, `add(v)` grows the capacity to 1 and gives `size() == 1` and
`get(0) == v`. -/
theorem C15_empty_construction (op : Operator T) (identity : T) (v : T) :
    SegmentTree.new ([] : List T) op identity = .error .badArrayLength ∧
    getMid 0 (-1) = 0 ∧
    (∀ (fuel : Nat) (tree : List (Option T)),
      buildTree op (fuel + 1) 0 0 1 ([] : List T) tree = .error .invalidAccess) ∧
    (∀ (fuel : Nat) (tree : List (Option T)),
      buildTree op (fuel + 2) 0 (-1) 0 ([] : List T) tree = .error .invalidAccess) ∧
    (∃ t, (emptyState op identity).add v = .ok t ∧ t.capacity = 1 ∧ t.size = 1 ∧
      t.get 0 = .ok v) := by
  have hleaf : ∀ (fuel : Nat) (node : Int) (tree : List (Option T)),
      buildTree op (fuel + 1) 0 0 node ([] : List T) tree = .error .invalidAccess := by
    intro fuel node tree
    unfold buildTree
    rfl
  have hmid : getMid 0 (-1) = 0 := by decide
  refine ⟨rfl, hmid, fun fuel tree => hleaf fuel 1 tree, ?_, ?_⟩
  · intro fuel tree
    unfold buildTree
    have hne : ¬ ((0 : Int) = -1) := by decide
    simp only [hne, if_false, hmid, bind, Except.bind]
    rw [hleaf fuel (leftChild 0) tree]
  · exact ⟨⟨1, 1, op, identity, [some v]⟩, rfl, rfl, rfl, rfl⟩

theorem SegmentTree.set_fields {t t' : SegmentTree T} {i : Int} {v : T}
    (h : t.set i v = .ok t') :
    t'.length = t.length ∧ t'.capacity = t.capacity ∧ t'.oper = t.oper ∧
      t'.identity = t.identity := by
  unfold SegmentTree.set at h
  simp only [bind, Except.bind] at h
  cases hs : setNode t.oper (recursionFuel t.capacity) i 0 (t.capacity - 1) 0 v t.tree with
  | error e => rw [hs] at h; cases h
  | ok tree =>
    rw [hs] at h
    simp only at h
    cases h
    exact ⟨rfl, rfl, rfl, rfl⟩

theorem SegmentTree.resize_fields {t t' : SegmentTree T} {newCapacity : Int}
    (h : t.resize newCapacity = .ok t') :
    t'.length = t.length ∧ t'.capacity = newCapacity ∧ t'.oper = t.oper ∧
      t'.identity = t.identity := by
  unfold SegmentTree.resize at h
  simp only [bind, Except.bind] at h
  cases hv : t.resizeValues newCapacity with
  | error e => rw [hv] at h; cases h
  | ok values =>
    rw [hv] at h
    simp only at h
    cases ha : (allocate (2 * newCapacity - 1) : Except Fault (List (Option T))) with
    | error e => rw [ha] at h; cases h
    | ok tr =>
      rw [ha] at h
      simp only at h
      cases hb : buildTree t.oper (recursionFuel newCapacity) 0 (newCapacity - 1) 0 values tr with
      | error e => rw [hb] at h; cases h
      | ok tree =>
        rw [hb] at h
        simp only at h
        cases h
        exact ⟨rfl, rfl, rfl, rfl⟩

theorem SegmentTree.add_fields {t t' : SegmentTree T} {v : T} (h : t.add v = .ok t') :
    t'.length = t.length + 1 ∧
      t'.capacity = (if t.length = t.capacity then 2 * t.capacity + 1 else t.capacity) := by
  unfold SegmentTree.add at h
  simp only [bind, Except.bind] at h
  by_cases hfull : t.length = t.capacity
  · simp only [hfull, if_true] at h ⊢
    cases hr : t.resize (2 * t.capacity + 1) with
    | error e => rw [hr] at h; cases h
    | ok t1 =>
      rw [hr] at h
      simp only at h
      obtain ⟨h1, h2, _, _⟩ := SegmentTree.resize_fields hr
      obtain ⟨h3, h4, _, _⟩ := SegmentTree.set_fields h
      exact ⟨by rw [h3]; show t1.length + 1 = _; rw [h1, hfull],
        by rw [h4]; exact h2⟩
  · simp only [hfull, if_false] at h ⊢
    obtain ⟨h3, h4, _, _⟩ := SegmentTree.set_fields h
    exact ⟨h3, h4⟩

/-- C19: for every `SegmentTree` with `length <= capacity` and `capacity >= 1`, a
returning `add(v)` raises the length by exactly 1; the capacity becomes exactly
`2*capacity + 1` (strictly larger) if `length == capacity` held before and is unchanged
otherwise; afterwards `length <= capacity` holds again and the capacity has not
decreased.  On every reachable tree `add(v)` does return. -/
theorem C19_add_growth :
    (∀ (t t' : SegmentTree T) (v : T), t.length ≤ t.capacity → 1 ≤ t.capacity →
      t.add v = .ok t' →
      t'.length = t.length + 1 ∧
      (t.length = t.capacity → t'.capacity = 2 * t.capacity + 1 ∧ t.capacity < t'.capacity) ∧
      (t.length ≠ t.capacity → t'.capacity = t.capacity) ∧
      t'.length ≤ t'.capacity ∧ t.capacity ≤ t'.capacity) ∧
    (∀ (t : SegmentTree T) (v : T), t.Reachable →
      t.length ≤ t.capacity ∧ 1 ≤ t.capacity ∧ ∃ t', t.add v = .ok t') := by
  refine ⟨?_, ?_⟩
  · intro t t' v hle hcap hadd
    obtain ⟨hlen, hc⟩ := SegmentTree.add_fields hadd
    by_cases hfull : t.length = t.capacity
    · rw [if_pos hfull] at hc
      exact ⟨hlen, fun _ => ⟨hc, by omega⟩, fun h => absurd hfull h, by omega, by omega⟩
    · rw [if_neg hfull] at hc
      exact ⟨hlen, fun h => absurd h hfull, fun _ => hc, by omega, by omega⟩
  · intro t v hr
    obtain ⟨leaf, hrep⟩ := hr.rep
    obtain ⟨t', leaf', hadd, _⟩ := hrep.add v
    exact ⟨hrep.len_le, hrep.cap_pos, t', hadd⟩

theorem C19_add_growth_witness :
    sampleTree.length ≤ sampleTree.capacity ∧ 1 ≤ sampleTree.capacity ∧
    sampleTree.add 10 = .ok sampleGrown.tree ∧
    sampleGrown.tree.length = sampleTree.length + 1 ∧
    (sampleTree.length = sampleTree.capacity →
      sampleGrown.tree.capacity = 2 * sampleTree.capacity + 1 ∧
        sampleTree.capacity < sampleGrown.tree.capacity) ∧
    (sampleTree.length ≠ sampleTree.capacity →
      sampleGrown.tree.capacity = sampleTree.capacity) ∧
    sampleGrown.tree.length ≤ sampleGrown.tree.capacity ∧
    sampleTree.capacity ≤ sampleGrown.tree.capacity :=
  ⟨by decide, by decide, rfl,
    (C19_add_growth (T := Int)).1 sampleTree sampleGrown.tree 10 (by decide) (by decide) rfl⟩

/-! ## Index translation under the length and flag invariants -/

/-- What the invariants say about the leaves of the deletion-count tree. -/
theorem SegmentTreeDeletable.CountInvariants.leaves {s : SegmentTreeDeletable T}
    (h : s.CountInvariants) :
    ∃ del, s.deletedIndices.Rep del ∧
      (∀ p, 0 ≤ p → p < s.tree.length → s.deletedIndices.get p = .ok (del p)) ∧
      (∀ p, 0 ≤ p → p < s.tree.length → s.flag p = del p) ∧
      (∀ p, 0 ≤ p → p < s.tree.length → del p = 0 ∨ del p = 1) ∧
      s.length = s.tree.length - deletedUpTo del (s.tree.length - 1) := by
  obtain ⟨del, hd⟩ := h.wellFormed.rep
  have hop : Lawful s.deletedIndices.oper s.deletedIndices.identity := by
    rw [h.oper, h.identity]; exact addOperator_lawful
  have hsame : s.deletedIndices.length = s.tree.length := h.same_size
  have hsz : s.tree.size = s.tree.length := rfl
  have hget : ∀ p, 0 ≤ p → p < s.tree.length → s.deletedIndices.get p = .ok (del p) :=
    fun p p0 p1 => hd.get hop p p0 (by omega)
  have hflag : ∀ p, 0 ≤ p → p < s.tree.length → s.flag p = del p := by
    intro p p0 p1
    unfold SegmentTreeDeletable.flag
    rw [hget p p0 p1]
  refine ⟨del, hd, hget, hflag, ?_, ?_⟩
  · intro p p0 p1
    rcases h.flags p p0 (by rw [hsz]; exact p1) with hf | hf
    · rw [hget p p0 p1] at hf
      exact Or.inl (Except.ok.inj hf)
    · rw [hget p p0 p1] at hf
      exact Or.inr (Except.ok.inj hf)
  · have hl0 : 0 ≤ s.tree.length := by have := hd.len_nonneg; omega
    have hmap : (List.range s.tree.size.toNat).map (fun (p : Nat) => s.flag (Int.ofNat p))
        = (List.range s.tree.size.toNat).map (fun (p : Nat) => del (Int.ofNat p)) := by
      apply List.map_congr_left
      intro p hp
      rw [List.mem_range] at hp
      exact hflag (Int.ofNat p) (Int.ofNat_nonneg p)
        (by rw [hsz] at hp; simp only [Int.ofNat_eq_coe]; omega)
    have hsum : s.flagSum = deletedUpTo del (s.tree.length - 1) := by
      unfold SegmentTreeDeletable.flagSum
      rw [hmap, sum_range_eq_deletedUpTo]
      congr 1
      rw [hsz]
      omega
    rw [← hsum, ← hsz]
    exact h.length_eq

/-- The count of live slots among `0 .. k-1` is `k` minus the sum of their flags. -/
theorem liveUpTo_eq {s : SegmentTreeDeletable T} {del : Int → Int}
    (hflag : ∀ p, 0 ≤ p → p < s.tree.length → s.flag p = del p)
    (hflags : ∀ p, 0 ≤ p → p < s.tree.length → del p = 0 ∨ del p = 1) :
    ∀ k : Nat, (k : Int) ≤ s.tree.length →
      s.liveUpTo ((k : Int) - 1) = (k : Int) - deletedUpTo del ((k : Int) - 1) := by
  intro k
  induction k with
  | zero =>
    intro _
    rw [deletedUpTo_neg _ (by omega)]
    rfl
  | succ k ih =>
    intro hk
    have ih' := ih (by omega)
    unfold SegmentTreeDeletable.liveUpTo at ih' ⊢
    have e1 : (((k + 1 : Nat) : Int) - 1 + 1).toNat = k + 1 := by omega
    have e2 : ((k : Int) - 1 + 1).toNat = k := by omega
    rw [e2] at ih'
    rw [e1, List.range_succ, List.filter_append, List.length_append]
    push_cast
    have e4 : (k : Int) + 1 - 1 = (k : Int) := by omega
    rw [ih', e4, deletedUpTo_succ del (by omega : (0 : Int) ≤ k)]
    have hfk : s.flag (k : Int) = del (k : Int) := hflag (k : Int) (by omega) (by omega)
    simp only [Int.ofNat_eq_coe]
    rcases hflags (k : Int) (by omega) (by omega) with hz | ho
    · have hf : s.flag (k : Int) = 0 := by rw [hfk]; exact hz
      simp [List.filter, hf, hz]
      omega
    · have hf : ¬ s.flag (k : Int) = 0 := by rw [hfk, ho]; decide
      simp [List.filter, hf, ho]

theorem liveUpTo_eq_int {s : SegmentTreeDeletable T} {del : Int → Int}
    (hflag : ∀ p, 0 ≤ p → p < s.tree.length → s.flag p = del p)
    (hflags : ∀ p, 0 ≤ p → p < s.tree.length → del p = 0 ∨ del p = 1)
    (p : Int) (h0 : -1 ≤ p) (h1 : p < s.tree.length) :
    s.liveUpTo p = p + 1 - deletedUpTo del p := by
  have := liveUpTo_eq hflag hflags (p + 1).toNat (by omega)
  have e : (((p + 1).toNat : Nat) : Int) = p + 1 := by omega
  rw [e] at this
  have e2 : p + 1 - 1 = p := by omega
  rw [e2] at this
  exact this

/-- Under the length and flag invariants `getTrueIndex` returns, for a logical index
inside `[0, length)`, the slot of that logical index, and no slot from the logical index
up to it has enough live slots before it. -/
theorem getTrueIndex_counted {s : SegmentTreeDeletable T} {del : Int → Int}
    (hd : s.deletedIndices.Rep del) (hoper : s.deletedIndices.oper = AddOperator)
    (hid : s.deletedIndices.identity = 0)
    (hsame : s.deletedIndices.length = s.tree.length)
    (hflags : ∀ p, 0 ≤ p → p < s.tree.length → del p = 0 ∨ del p = 1)
    (hleq : s.length = s.tree.length - deletedUpTo del (s.tree.length - 1))
    (i : Int) (h0 : 0 ≤ i) (h1 : i < s.length) :
    ∃ p, s.getTrueIndex i = .ok p ∧ Phys del i p ∧ p < s.tree.length ∧ i ≤ p ∧
      ∀ q, i ≤ q → q < p → q - deletedUpTo del q < i := by
  have hn : s.tree.length ≤ s.deletedIndices.capacity := by
    have := hd.len_le
    rw [hsame] at this
    exact this
  have hlen : s.length ≤ s.tree.length := by
    have := deletedUpTo_nonneg_int del s.tree.length hflags
      (q := s.tree.length - 1) (by omega)
    omega
  obtain ⟨r, hr, r1, r2, r3, r4⟩ :=
    getTrueIndexLoop_spec hd hoper hid s.tree.length hn hflags i
      (s.tree.size - 1 - i + 1).toNat i (s.tree.size - 1)
      (by show s.tree.length - 1 < _; omega) (le_refl _)
  have hsz : s.tree.size = s.tree.length := rfl
  rw [hsz] at r2 r4
  have hrn : r ≤ s.tree.length - 1 := by
    by_contra hc
    have := r3 (s.tree.length - 1) (by omega) (by omega)
    omega
  have hge := r4 r (le_refl _) hrn
  have hsucc := deletedUpTo_succ del (by omega : 0 ≤ r)
  have hnn := deletedUpTo_nonneg_int del s.tree.length hflags (q := r - 1) (by omega)
  have hfl := hflags r (by omega) (by omega)
  have hprev : r = i ∨ r - 1 - deletedUpTo del (r - 1) < i := by
    by_cases hri : r = i
    · exact Or.inl hri
    · exact Or.inr (r3 (r - 1) (by omega) (by omega))
  refine ⟨r, hr, ⟨by omega, ?_, ?_⟩, by omega, r1, r3⟩
  · rcases hfl with hf | hf
    · exact hf
    · rcases hprev with hp | hp <;> omega
  · rcases hfl with hf | hf <;> rcases hprev with hp | hp <;> omega

/-- C16: on every state that satisfies the length and 0/1-flag invariants and for every
logical index `0 <= i < length`, `getTrueIndex(i)` returns the smallest physical index
`p` in `[i, size-1]` such that the number of non-removed slots in `[0, p]` is `i + 1`;
the slot `p` itself is not removed. -/
theorem C16_getTrueIndex_rank (s : SegmentTreeDeletable T) (h : s.CountInvariants)
    (i : Int) (h0 : 0 ≤ i) (h1 : i < s.length) :
    ∃ p, s.getTrueIndex i = .ok p ∧ i ≤ p ∧ p ≤ s.tree.size - 1 ∧
      s.liveUpTo p = i + 1 ∧ (∀ q, i ≤ q → q < p → s.liveUpTo q < i + 1) ∧
      s.deletedIndices.get p = .ok 0 := by
  obtain ⟨del, hd, hget, hflag, hflags, hleq⟩ := h.leaves
  obtain ⟨p, hp, hphys, hpn, hip, hsmall⟩ :=
    getTrueIndex_counted hd h.oper h.identity h.same_size hflags hleq i h0 h1
  have hsz : s.tree.size = s.tree.length := rfl
  refine ⟨p, hp, hip, by rw [hsz]; omega, ?_, ?_, ?_⟩
  · rw [liveUpTo_eq_int hflag hflags p (by omega) hpn]
    have := hphys.2.2
    omega
  · intro q q0 q1
    rw [liveUpTo_eq_int hflag hflags q (by omega) (by omega)]
    have := hsmall q q0 q1
    omega
  · rw [hget p hphys.1 hpn, hphys.2.1]

/-- C17: on every state that satisfies the length and 0/1-flag invariants the index
translation is strictly monotonic: for logical `0 <= i <= j < length` the physical
indices `getTrueIndex(i)` and `getTrueIndex(j)` exist, are strictly ordered when `i < j`,
and so satisfy `start' <= end'` whenever `start <= end`. -/
theorem C17_translation_monotonic (s : SegmentTreeDeletable T) (h : s.CountInvariants)
    (i j : Int) (h0 : 0 ≤ i) (hij : i ≤ j) (h1 : j < s.length) :
    ∃ p q, s.getTrueIndex i = .ok p ∧ s.getTrueIndex j = .ok q ∧
      (i < j → p < q) ∧ p ≤ q := by
  obtain ⟨del, hd, hget, hflag, hflags, hleq⟩ := h.leaves
  obtain ⟨p, hp, hphysp, hpn, _, _⟩ :=
    getTrueIndex_counted hd h.oper h.identity h.same_size hflags hleq i h0 (by omega)
  obtain ⟨q, hq, hphysq, hqn, _, _⟩ :=
    getTrueIndex_counted hd h.oper h.identity h.same_size hflags hleq j (by omega) h1
  have hlt : i < j → p < q := fun hlt => Phys.lt hflags hphysp hphysq hpn hlt
  refine ⟨p, q, hp, hq, hlt, ?_⟩
  by_cases hne : i = j
  · subst hne
    rw [hp] at hq
    have := Except.ok.inj hq
    omega
  · have := hlt (by omega)
    omega

theorem SegmentTree.ReachablePopulated.reachable {t : SegmentTree T}
    (h : t.ReachablePopulated) : t.Reachable := by
  induction h with
  | new vs op identity t hnew => exact .new _ _ _ _ hnew
  | set t index v t' hprev h1 hs ih =>
    obtain ⟨leaf, hrep, _, _⟩ := hprev.padding
    have hle := hrep.len_le
    by_cases h0 : 0 ≤ index
    · exact .set _ index v _ ih h0 (by omega) hs
    · exact absurd hs (hrep.set_negative index v (by omega) t')
  | add t v t' _ hs ih => exact .add _ v _ ih hs

/-- Every reachable state satisfies the length and 0/1-flag invariants. -/
theorem SegmentTreeDeletable.Reachable.countInvariants {s : SegmentTreeDeletable T}
    (h : s.Reachable) : s.CountInvariants := by
  obtain ⟨val, del, hrep⟩ := h.rep_deletable
  have hsz : s.tree.size = s.tree.length := rfl
  refine ⟨h.deleted_populated.reachable, hrep.del_oper, hrep.del_identity,
    hrep.same_length, ?_, ?_⟩
  · intro p p0 p1
    rw [hsz] at p1
    rw [hrep.deleted_get p p0 p1]
    rcases hrep.flags p p0 p1 with hf | hf
    · left; rw [hf]
    · right; rw [hf]
  · rw [hrep.flagSum_eq, hsz]
    exact hrep.length_eq

theorem C16_getTrueIndex_rank_witness :
    sampleRemoved.CountInvariants ∧ (0 : Int) ≤ 1 ∧ (1 : Int) < sampleRemoved.length ∧
    ∃ p, sampleRemoved.getTrueIndex 1 = .ok p ∧ 1 ≤ p ∧ p ≤ sampleRemoved.tree.size - 1 ∧
      sampleRemoved.liveUpTo p = 1 + 1 ∧
      (∀ q, 1 ≤ q → q < p → sampleRemoved.liveUpTo q < 1 + 1) ∧
      sampleRemoved.deletedIndices.get p = .ok 0 :=
  ⟨sampleRemoved_reachable.countInvariants, by decide, by decide,
    C16_getTrueIndex_rank sampleRemoved sampleRemoved_reachable.countInvariants 1
      (by decide) (by decide)⟩

theorem C17_translation_monotonic_witness :
    sampleRemoved.CountInvariants ∧ (0 : Int) ≤ 0 ∧ (0 : Int) ≤ 2 ∧
    (2 : Int) < sampleRemoved.length ∧
    ∃ p q, sampleRemoved.getTrueIndex 0 = .ok p ∧ sampleRemoved.getTrueIndex 2 = .ok q ∧
      ((0 : Int) < 2 → p < q) ∧ p ≤ q :=
  ⟨sampleRemoved_reachable.countInvariants, by decide, by decide, by decide,
    C17_translation_monotonic sampleRemoved sampleRemoved_reachable.countInvariants 0 2
      (by decide) (by decide) (by decide)⟩

/-! ## The two trees move in lockstep -/

/-- C18: in every reachable state of `SegmentTreeDeletable` the value tree and the
deletion-count tree have equal `size()` and equal capacity, and every `add` returns and
resizes both trees (each to `2*capacity + 1`) or neither. -/
theorem C18_lockstep (s : SegmentTreeDeletable T) (hr : s.Reachable) :
    s.tree.size = s.deletedIndices.size ∧
    s.tree.getCapacity = s.deletedIndices.getCapacity ∧
    (∀ v : T, ∃ s', s.add v = .ok s' ∧
      s'.tree.size = s'.deletedIndices.size ∧
      s'.tree.getCapacity = s'.deletedIndices.getCapacity ∧
      ((s'.tree.capacity = 2 * s.tree.capacity + 1 ∧
          s'.deletedIndices.capacity = 2 * s.deletedIndices.capacity + 1) ∨
        (s'.tree.capacity = s.tree.capacity ∧
          s'.deletedIndices.capacity = s.deletedIndices.capacity))) := by
  obtain ⟨val, del, hrep⟩ := hr.rep_deletable
  refine ⟨hrep.same_length.symm, hrep.same_capacity.symm, ?_⟩
  intro v
  obtain ⟨s', val', del', hs, hrep', _, _, _, _, ht, hd, _⟩ := hrep.add_step v
  obtain ⟨_, hct⟩ := SegmentTree.add_fields ht
  obtain ⟨_, hcd⟩ := SegmentTree.add_fields hd
  refine ⟨s', hs, hrep'.same_length.symm, hrep'.same_capacity.symm, ?_⟩
  have hsl := hrep.same_length
  have hsc := hrep.same_capacity
  by_cases hfull : s.tree.length = s.tree.capacity
  · have hfulld : s.deletedIndices.length = s.deletedIndices.capacity := by omega
    rw [if_pos hfull] at hct
    rw [if_pos hfulld] at hcd
    exact Or.inl ⟨hct, hcd⟩
  · have hfulld : ¬ s.deletedIndices.length = s.deletedIndices.capacity := by omega
    rw [if_neg hfull] at hct
    rw [if_neg hfulld] at hcd
    exact Or.inr ⟨hct, hcd⟩

theorem C18_lockstep_witness :
    sampleDeletable.Reachable ∧
    sampleDeletable.tree.size = sampleDeletable.deletedIndices.size ∧
    sampleDeletable.tree.getCapacity = sampleDeletable.deletedIndices.getCapacity ∧
    (∀ v : Int, ∃ s', sampleDeletable.add v = .ok s' ∧
      s'.tree.size = s'.deletedIndices.size ∧
      s'.tree.getCapacity = s'.deletedIndices.getCapacity ∧
      ((s'.tree.capacity = 2 * sampleDeletable.tree.capacity + 1 ∧
          s'.deletedIndices.capacity = 2 * sampleDeletable.deletedIndices.capacity + 1) ∨
        (s'.tree.capacity = sampleDeletable.tree.capacity ∧
          s'.deletedIndices.capacity = sampleDeletable.deletedIndices.capacity))) :=
  ⟨.new _ _ _ _ sampleDeletable_new,
    C18_lockstep sampleDeletable (.new _ _ _ _ sampleDeletable_new)⟩

/-! ## Implicit addressing -/

/-- A node of a subtree lies inside the range and the slots of the subtree. -/
theorem InSubtree.bounds {k s e node rs re : Int} (h : InSubtree k s e node rs re) :
    s ≤ e → s ≤ rs ∧ rs ≤ re ∧ re ≤ e ∧ k ≤ node ∧
      node + 2 * (re - rs) ≤ k + 2 * (e - s) := by
  induction h with
  | root k s e => intro hle; omega
  | left k s e node rs re hlt _ ih =>
    intro _
    obtain ⟨hm1, hm2⟩ := getMid_bounds hlt
    have := ih hm1
    rw [leftChild_eq] at this
    omega
  | right k s e node rs re hlt _ ih =>
    intro _
    obtain ⟨hm1, hm2⟩ := getMid_bounds hlt
    have := ih (by omega)
    rw [rightChild_eq] at this
    omega

/-- Two nodes of a subtree with the same slot stand for the same range. -/
theorem InSubtree.same_range {k s e x rs re : Int} (h : InSubtree k s e x rs re) :
    ∀ {rs' re' : Int}, s ≤ e → InSubtree k s e x rs' re' → rs = rs' ∧ re = re' := by
  induction h with
  | root k s e =>
    intro rs' re' hle h'
    cases h' with
    | root => exact ⟨rfl, rfl⟩
    | left _ _ _ _ _ _ hlt hl =>
      obtain ⟨hm1, hm2⟩ := getMid_bounds hlt
      have := hl.bounds hm1
      rw [leftChild_eq] at this
      omega
    | right _ _ _ _ _ _ hlt hr =>
      obtain ⟨hm1, hm2⟩ := getMid_bounds hlt
      have := hr.bounds (by omega)
      rw [rightChild_eq] at this
      omega
  | left k s e node rs re hlt hl ih =>
    intro rs' re' hle h'
    obtain ⟨hm1, hm2⟩ := getMid_bounds hlt
    have b1 := hl.bounds hm1
    rw [leftChild_eq] at b1
    cases h' with
    | root => omega
    | left _ _ _ _ _ _ _ hl' => exact ih hm1 hl'
    | right _ _ _ _ _ _ _ hr' =>
      have b2 := hr'.bounds (by omega)
      rw [rightChild_eq] at b2
      omega
  | right k s e node rs re hlt hr ih =>
    intro rs' re' hle h'
    obtain ⟨hm1, hm2⟩ := getMid_bounds hlt
    have b1 := hr.bounds (by omega)
    rw [rightChild_eq] at b1
    cases h' with
    | root => omega
    | left _ _ _ _ _ _ _ hl' =>
      have b2 := hl'.bounds hm1
      rw [leftChild_eq] at b2
      omega
    | right _ _ _ _ _ _ _ hr' => exact ih (by omega) hr'

/-- Every slot from `k` to `k + 2*(e-s)` is the slot of a node of the subtree. -/
theorem InSubtree.cover :
    ∀ (m : Nat) (k s e : Int), s ≤ e → e - s ≤ m → ∀ x, k ≤ x → x ≤ k + 2 * (e - s) →
      ∃ rs re, InSubtree k s e x rs re := by
  intro m
  induction m with
  | zero =>
    intro k s e hle hm x x0 x1
    have hx : x = k := by push_cast at hm; omega
    subst hx
    exact ⟨s, e, .root _ _ _⟩
  | succ m ih =>
    intro k s e hle hm x x0 x1
    by_cases hx : x = k
    · subst hx
      exact ⟨s, e, .root _ _ _⟩
    · have hlt : s < e := by omega
      obtain ⟨hm1, hm2⟩ := getMid_bounds hlt
      by_cases hside : x ≤ k + 1 + 2 * (getMid s e - s)
      · obtain ⟨rs, re, h⟩ := ih (leftChild k) s (getMid s e) hm1
          (by push_cast at hm; omega) x (by rw [leftChild_eq]; omega)
          (by rw [leftChild_eq]; omega)
        exact ⟨rs, re, .left _ _ _ _ _ _ hlt h⟩
      · obtain ⟨rs, re, h⟩ := ih (rightChild k s (getMid s e)) (getMid s e + 1) e
          (by omega) (by push_cast at hm; omega) x (by rw [rightChild_eq]; omega)
          (by rw [rightChild_eq]; omega)
        exact ⟨rs, re, .right _ _ _ _ _ _ hlt h⟩

theorem InSubtree.leftStep {k s e node rs re : Int} (h : InSubtree k s e node rs re)
    (hlt : rs < re) : InSubtree k s e (leftChild node) rs (getMid rs re) := by
  induction h with
  | root k s e => exact .left _ _ _ _ _ _ hlt (.root _ _ _)
  | left k s e node rs re hse _ ih => exact .left _ _ _ _ _ _ hse (ih hlt)
  | right k s e node rs re hse _ ih => exact .right _ _ _ _ _ _ hse (ih hlt)

theorem InSubtree.rightStep {k s e node rs re : Int} (h : InSubtree k s e node rs re)
    (hlt : rs < re) :
    InSubtree k s e (rightChild node rs (getMid rs re)) (getMid rs re + 1) re := by
  induction h with
  | root k s e => exact .right _ _ _ _ _ _ hlt (.root _ _ _)
  | left k s e node rs re hse _ ih => exact .left _ _ _ _ _ _ hse (ih hlt)
  | right k s e node rs re hse _ ih => exact .right _ _ _ _ _ _ hse (ih hlt)

theorem TreeNode.inSubtree {n node rs re : Int} (h : TreeNode n node rs re) :
    InSubtree 0 0 (n - 1) node rs re := by
  induction h with
  | root => exact .root _ _ _
  | left node rs re _ hlt ih => exact ih.leftStep hlt
  | right node rs re _ hlt ih => exact ih.rightStep hlt

theorem readCell_inside {tree : List (Option T)} {i : Int} {v : T}
    (h : readCell tree i = .ok v) : 0 ≤ i ∧ i < tree.length := by
  unfold readCell at h
  by_cases hi : i < 0
  · simp [hi] at h
  · simp only [hi, if_false] at h
    refine ⟨by omega, ?_⟩
    by_contra hlen
    rw [List.getElem?_eq_none (by omega)] at h
    cases h

theorem writeCell_inside {tree tree' : List (Option T)} {i : Int} {v : T}
    (h : writeCell tree i v = .ok tree') : 0 ≤ i ∧ i < tree.length := by
  unfold writeCell at h
  by_cases hi : 0 ≤ i ∧ i < tree.length
  · exact hi
  · simp only [hi, if_false] at h
    cases h

/-- C20: for every capacity `n >= 1`, in the implicit tree over `[0, n-1]` rooted at slot
0 with `leftChild(node) = node + 1` and `rightChild(node, start, mid) = node +
2*(mid-start+1)`, the subtree for a range `[s, e]` rooted at slot `k` occupies exactly the
slots `k .. k + 2*(e-s+1) - 2`, all inside `[0, 2n-2]`; two tree nodes with the same slot
are the same node; and `buildTree`, `set` with `0 <= index < n` and `queryRange` run to
the end on the array of `2n-1` slots, where every access outside the array is a fault,
so every slot they touch lies in `[0, 2n-2]`. -/
theorem C20_implicit_addressing (n : Int) (hn : 1 ≤ n) :
    (∀ node start mid : Int, leftChild node = node + 1 ∧
      rightChild node start mid = node + 2 * (mid - start + 1)) ∧
    (∀ k s e : Int, TreeNode n k s e →
      0 ≤ s ∧ s ≤ e ∧ e ≤ n - 1 ∧ 0 ≤ k ∧ k + 2 * (e - s + 1) - 2 ≤ 2 * n - 2 ∧
      (∀ node rs re : Int, InSubtree k s e node rs re →
        k ≤ node ∧ node ≤ k + 2 * (e - s + 1) - 2) ∧
      (∀ x : Int, k ≤ x → x ≤ k + 2 * (e - s + 1) - 2 → ∃ rs re, InSubtree k s e x rs re)) ∧
    (∀ node rs re rs' re' : Int, TreeNode n node rs re → TreeNode n node rs' re' →
      rs = rs' ∧ re = re') ∧
    (∀ (tree : List (Option T)) (i : Int) (v : T),
      readCell tree i = .ok v → 0 ≤ i ∧ i < tree.length) ∧
    (∀ (tree tree' : List (Option T)) (i : Int) (v : T),
      writeCell tree i v = .ok tree' → 0 ≤ i ∧ i < tree.length) ∧
    (∀ (vs : List T) (op : Operator T) (identity : T), (vs.length : Int) = n →
      ∃ t, SegmentTree.new vs op identity = .ok t ∧ t.capacity = n ∧
        (t.tree.length : Int) = 2 * n - 1) ∧
    (∀ t : SegmentTree T, t.Reachable → t.capacity = n →
      (t.tree.length : Int) = 2 * n - 1 ∧
      (∀ (index : Int) (v : T), 0 ≤ index → index < n → ∃ t', t.set index v = .ok t') ∧
      (∀ a b : Int, ∃ r, t.queryRange a b = .ok r)) := by
  refine ⟨?_, ?_, ?_, ?_, ?_, ?_, ?_⟩
  · intro node start mid
    refine ⟨rfl, ?_⟩
    rw [rightChild_eq]
    omega
  · intro k s e hnode
    have hb := hnode.inSubtree.bounds (by omega)
    refine ⟨by omega, by omega, by omega, by omega, by omega, ?_, ?_⟩
    · intro node rs re hsub
      have := hsub.bounds (by omega)
      omega
    · intro x x0 x1
      exact InSubtree.cover (e - s).toNat k s e (by omega) (by omega) x x0 (by omega)
  · intro node rs re rs' re' h1 h2
    exact h1.inSubtree.same_range (by omega) h2.inSubtree
  · intro tree i v h
    exact readCell_inside h
  · intro tree tree' i v h
    exact writeCell_inside h
  · intro vs op identity hlen
    have hne : vs ≠ [] := by
      intro h0
      subst h0
      simp at hlen
      omega
    obtain ⟨t, hnew, _, hcap, _, _, hrep⟩ := SegmentTree.new_spec vs op identity hne identity
    refine ⟨t, hnew, by rw [hcap, hlen], ?_⟩
    rw [hrep.size, hcap, hlen]
  · intro t hr hcap
    obtain ⟨leaf, hrep⟩ := hr.rep
    refine ⟨by rw [hrep.size, hcap], ?_, ?_⟩
    · intro index v i0 i1
      obtain ⟨t', hs, _⟩ := hrep.set index v i0 (by rw [hcap]; exact i1)
      exact ⟨t', hs⟩
    · intro a b
      obtain ⟨r, hq, _⟩ := hrep.queryRange a b
      exact ⟨r, hq⟩

theorem C20_implicit_addressing_witness :
    (1 : Int) ≤ 3 ∧ sampleTree.Reachable ∧ sampleTree.capacity = 3 ∧
    ((sampleTree.tree.length : Int) = 2 * 3 - 1 ∧
      (∀ (index : Int) (v : Int), 0 ≤ index → index < 3 →
        ∃ t', sampleTree.set index v = .ok t') ∧
      (∀ a b : Int, ∃ r, sampleTree.queryRange a b = .ok r)) ∧
    (∀ node rs re rs' re' : Int, TreeNode 3 node rs re → TreeNode 3 node rs' re' →
      rs = rs' ∧ re = re') :=
  ⟨by decide, sampleTree_reachable, rfl,
    (C20_implicit_addressing (T := Int) 3 (by decide)).2.2.2.2.2.2 sampleTree
      sampleTree_reachable rfl,
    (C20_implicit_addressing (T := Int) 3 (by decide)).2.2.1⟩

end DeletableSegmentTree
